import Mathlib

/-!
# Verification of an LLRB (left-leaning red-black) 2-3 tree library

Shallow embedding of the Go package `llrb` (file `llrb.go`).  Go pointer
trees become an inductive `Node` type (`nil` pointer ↦ `Node.nil`); the
in-place mutations of the source are value-returning here, exactly
mirroring the source's own style of returning the new subtree root from
every recursive call.  A Go `(T, bool)` result whose first component is
the zero value exactly when the bool is `false` is modelled as `Option`.
The Go comparator field `compare` is passed explicitly to each operation.
-/

namespace LLRB

/-- Go: `_red = true`, `_black = false`; a node's `color` is a `Bool`. -/
abbrev Cmp (α : Type) := α → α → Int

/-- Go `node[T]`: `item`, `left`, `right`, `color`.  A nil pointer is `nil`. -/
inductive Node (α : Type) where
  | nil : Node α
  | node (item : α) (left right : Node α) (color : Bool) : Node α
deriving Repr, DecidableEq

namespace Node

/-- Go `h.left` (only ever dereferenced on non-nil nodes in the source). -/
def left : Node α → Node α
  | .nil => .nil
  | .node _ l _ _ => l

/-- Go `h.right`. -/
def right : Node α → Node α
  | .nil => .nil
  | .node _ _ r _ => r

/-- Whether the node is a nil pointer. -/
def isNil : Node α → Bool
  | .nil => true
  | .node _ _ _ _ => false

end Node

open Node

/-- Go `isRed`: nil is never red, otherwise read `color`. -/
def isRed : Node α → Bool
  | .nil => false
  | .node _ _ _ c => c

/-- Go `newNode`: a fresh red leaf. -/
def newNode (item : α) : Node α :=
  .node item .nil .nil true

/-- Go `rotateLeft`.  The source dereferences `h.right`, which is non-nil at
every call site (guarded by `isRed h.right`); on the impossible shapes we
return the input unchanged. -/
def rotateLeft : Node α → Node α
  | .node hi hl (.node xi xl xr _) hc => .node xi (.node hi hl xl true) xr hc
  | h => h

/-- Go `rotateRight` (mirror of `rotateLeft`). -/
def rotateRight : Node α → Node α
  | .node hi (.node xi xl xr _) hr hc => .node xi xl (.node hi xr hr true) hc
  | h => h

/-- Go `colorFlip`: invert the colors of `h` and of both children.  The
source dereferences both children, which are non-nil at every call site. -/
def colorFlip : Node α → Node α
  | .node hi (.node li ll lr lc) (.node ri rl rr rc) hc =>
      .node hi (.node li ll lr (!lc)) (.node ri rl rr (!rc)) (!hc)
  | h => h

/-- Go `h.left = x` on a non-nil `h`. -/
def setLeft : Node α → Node α → Node α
  | .node i _ r c, l => .node i l r c
  | .nil, _ => .nil

/-- Go `h.right = x` on a non-nil `h`. -/
def setRight : Node α → Node α → Node α
  | .node i l _ c, r => .node i l r c
  | .nil, _ => .nil

/-- Go `fixUp`: rotate left if right-leaning, rotate right on a left
double-red, color-flip if both children are red. -/
def fixUp (h : Node α) : Node α :=
  let h1 := if isRed h.right && !isRed h.left then rotateLeft h else h
  let h2 := if isRed h1.left && isRed h1.left.left then rotateRight h1 else h1
  if isRed h2.left && isRed h2.right then colorFlip h2 else h2

/-- Go `moveRedLeft`. -/
def moveRedLeft (h : Node α) : Node α :=
  let h1 := colorFlip h
  if isRed h1.right.left then
    let h2 := setRight h1 (rotateRight h1.right)
    colorFlip (rotateLeft h2)
  else h1

/-- Go `moveRedRight`. -/
def moveRedRight (h : Node α) : Node α :=
  let h1 := colorFlip h
  if isRed h1.left.left then
    colorFlip (rotateRight h1)
  else h1

/-- Number of nodes reachable from a root. -/
def size : Node α → Nat
  | .nil => 0
  | .node _ l r _ => size l + size r + 1

/-- Go `insert`: recursive descent; `(zeroValue, false)` / `(prev, true)`
is modelled as `none` / `some prev`. -/
def insert (cmp : Cmp α) (h : Node α) (item : α) : Node α × Option α :=
  match h with
  | .nil => (newNode item, none)
  | .node hi hl hr hc =>
    if cmp item hi = 0 then
      (fixUp (.node item hl hr hc), some hi)
    else if cmp item hi < 0 then
      let res := insert cmp hl item
      (fixUp (.node hi res.1 hr hc), res.2)
    else
      let res := insert cmp hr item
      (fixUp (.node hi hl res.1 hc), res.2)

section SizeLemmas

@[simp] theorem size_rotateLeft (h : Node α) : size (rotateLeft h) = size h := by
  unfold rotateLeft
  split <;> simp [size] <;> omega

@[simp] theorem size_rotateRight (h : Node α) : size (rotateRight h) = size h := by
  unfold rotateRight
  split <;> simp [size] <;> omega

@[simp] theorem size_colorFlip (h : Node α) : size (colorFlip h) = size h := by
  unfold colorFlip
  split <;> simp [size]

@[simp] theorem size_fixUp (h : Node α) : size (fixUp h) = size h := by
  unfold fixUp
  dsimp only
  split <;> split <;> split <;> simp

@[simp] theorem size_setRight_rotateRight_right (h : Node α) :
    size (setRight h (rotateRight h.right)) = size h := by
  cases h with
  | nil => rfl
  | node i l r c => simp [setRight, Node.right, size]

theorem size_moveRedLeft (h : Node α) : size (moveRedLeft h) = size h := by
  unfold moveRedLeft
  dsimp only
  split <;> simp

theorem size_moveRedRight (h : Node α) : size (moveRedRight h) = size h := by
  unfold moveRedRight
  dsimp only
  split <;> simp

@[simp] theorem isNil_colorFlip (h : Node α) : (colorFlip h).isNil = h.isNil := by
  unfold colorFlip
  split <;> rfl

@[simp] theorem isNil_rotateLeft (h : Node α) : (rotateLeft h).isNil = h.isNil := by
  unfold rotateLeft
  split <;> rfl

@[simp] theorem isNil_rotateRight (h : Node α) : (rotateRight h).isNil = h.isNil := by
  unfold rotateRight
  split <;> rfl

@[simp] theorem isNil_setRight (h x : Node α) : (setRight h x).isNil = h.isNil := by
  cases h <;> rfl

@[simp] theorem isNil_setLeft (h x : Node α) : (setLeft h x).isNil = h.isNil := by
  cases h <;> rfl

theorem isNil_moveRedLeft (h : Node α) (hh : h.isNil = false) :
    (moveRedLeft h).isNil = false := by
  unfold moveRedLeft
  dsimp only
  split <;> simp [hh]

theorem isNil_moveRedRight (h : Node α) (hh : h.isNil = false) :
    (moveRedRight h).isNil = false := by
  unfold moveRedRight
  dsimp only
  split <;> simp [hh]

theorem size_left_lt (h : Node α) (hh : h.isNil = false) :
    size h.left < size h := by
  cases h with
  | nil => simp [Node.isNil] at hh
  | node i l r c => simp [Node.left, size]; omega

theorem size_right_lt (h : Node α) (hh : h.isNil = false) :
    size h.right < size h := by
  cases h with
  | nil => simp [Node.isNil] at hh
  | node i l r c => simp [Node.right, size]; omega

end SizeLemmas

/-- Go `deleteMin`: recursive removal of the leftmost element. -/
def deleteMin (h : Node α) : Node α × Option α :=
  match hm : h with
  | .nil => (.nil, none)
  | .node hi hl hr hc =>
    if hl.isNil then (.nil, some hi)
    else
      let h1 := if !isRed hl && !isRed hl.left then moveRedLeft (.node hi hl hr hc)
                else .node hi hl hr hc
      let res := deleteMin h1.left
      (fixUp (setLeft h1 res.1), res.2)
termination_by size h
decreasing_by
  have h1nil : h1.isNil = false := by
    unfold h1
    split
    · exact isNil_moveRedLeft _ (by simp [Node.isNil])
    · simp [Node.isNil]
  have hsz : size h1 = size (Node.node hi hl hr hc) := by
    unfold h1
    split
    · exact size_moveRedLeft _
    · rfl
  calc size h1.left < size h1 := size_left_lt _ h1nil
    _ = size (Node.node hi hl hr hc) := hsz

/-- Go `deleteMax`: recursive removal of the rightmost element. -/
def deleteMax (h : Node α) : Node α × Option α :=
  match hm : h with
  | .nil => (.nil, none)
  | .node hi hl hr hc =>
    let h1 := if isRed hl then rotateRight (.node hi hl hr hc) else .node hi hl hr hc
    match hm1 : h1 with
    | .nil => (.nil, none)
    | .node i1 l1 r1 c1 =>
      if r1.isNil then (.nil, some i1)
      else
        let h2 := if !isRed r1 && !isRed r1.left then moveRedRight (.node i1 l1 r1 c1)
                  else .node i1 l1 r1 c1
        let res := deleteMax h2.right
        (fixUp (setRight h2 res.1), res.2)
termination_by size h
decreasing_by
  have h2nil : h2.isNil = false := by
    unfold h2
    split
    · exact isNil_moveRedRight _ (by simp [Node.isNil])
    · simp [Node.isNil]
  have hsz2 : size h2 = size (Node.node i1 l1 r1 c1) := by
    unfold h2
    split
    · exact size_moveRedRight _
    · rfl
  have hsz1 : size (Node.node i1 l1 r1 c1) = size (Node.node hi hl hr hc) := by
    have : size h1 = size (Node.node hi hl hr hc) := by
      unfold h1
      split
      · exact size_rotateRight _
      · rfl
    rw [hm1] at this
    exact this
  calc size h2.right < size h2 := size_right_lt _ h2nil
    _ = size (Node.node hi hl hr hc) := by rw [hsz2, hsz1]


/-- Go `delete`: remove the element comparing equal to `item`.  The Go
zero-value assignment `h.item = rightMin` when `deleteMin` found nothing
(unreachable on valid trees) is modelled with `default`. -/
def delete [Inhabited α] (cmp : Cmp α) (h : Node α) (item : α) : Node α × Option α :=
  match h with
  | .nil => (.nil, none)
  | .node hi hl hr hc =>
    if cmp item hi < 0 then
      if hl.isNil then (.node hi hl hr hc, none)
      else
        let h1 := if !isRed hl && !isRed hl.left then moveRedLeft (.node hi hl hr hc)
                  else .node hi hl hr hc
        let res := delete cmp h1.left item
        (fixUp (setLeft h1 res.1), res.2)
    else
      let h1 := if isRed hl then rotateRight (.node hi hl hr hc) else .node hi hl hr hc
      match hm1 : h1 with
      | .nil => (.nil, none)
      | .node i1 l1 r1 c1 =>
        if cmp item i1 = 0 && r1.isNil then (.nil, some i1)
        else
          let h2 := if !r1.isNil && !isRed r1 && !isRed r1.left then
                      moveRedRight (.node i1 l1 r1 c1)
                    else .node i1 l1 r1 c1
          match hm2 : h2 with
          | .nil => (.nil, none)
          | .node i2 l2 r2 c2 =>
            if cmp item i2 = 0 then
              let res := deleteMin r2
              let rightMin := match res.2 with | some v => v | none => default
              (fixUp (.node rightMin l2 res.1 c2), some i2)
            else
              let res := delete cmp r2 item
              (fixUp (.node i2 l2 res.1 c2), res.2)
termination_by size h
decreasing_by
  · rename_i hi hl hr hc hlt hnl
    have h1nil : h1.isNil = false := by
      unfold h1
      split
      · exact isNil_moveRedLeft _ (by simp [Node.isNil])
      · simp [Node.isNil]
    have hsz : size h1 = size (Node.node hi hl hr hc) := by
      unfold h1
      split
      · exact size_moveRedLeft _
      · rfl
    calc size h1.left < size h1 := size_left_lt _ h1nil
      _ = size (Node.node hi hl hr hc) := hsz
  · rename_i hi hl hr hc hge hne hneq
    have hsz2 : size h2 = size (Node.node i1 l1 r1 c1) := by
      unfold h2
      split
      · exact size_moveRedRight _
      · rfl
    have hsz1 : size (Node.node i1 l1 r1 c1) = size (Node.node hi hl hr hc) := by
      have : size h1 = size (Node.node hi hl hr hc) := by
        unfold h1
        split
        · exact size_rotateRight _
        · rfl
      rw [hm1] at this
      exact this
    have : size r2 < size h2 := by
      rw [hm2]
      have := size_right_lt (Node.node i2 l2 r2 c2) (by simp [Node.isNil])
      simpa [Node.right] using this
    calc size r2 < size h2 := this
      _ = size (Node.node hi hl hr hc) := by rw [hsz2, hsz1]

/-- In-order element listing of a subtree. -/
def inorder : Node α → List α
  | .nil => []
  | .node i l r _ => inorder l ++ i :: inorder r

/-- The left-leaning red-black invariant of this 2-3 variant, indexed by
root color and black-height: no right child is ever red, a red node has
black children, and both children carry the same black-height. -/
inductive IsLLRB : Node α → Bool → Nat → Prop where
  | nil : IsLLRB .nil false 0
  | red {l r : Node α} {v : α} {n : Nat} :
      IsLLRB l false n → IsLLRB r false n → IsLLRB (.node v l r true) true n
  | black {l r : Node α} {v : α} {c : Bool} {n : Nat} :
      IsLLRB l c n → IsLLRB r false n → IsLLRB (.node v l r false) false (n + 1)

/-- Go `Get` (an iterative loop in the source, expressed as the equivalent
structural recursion): returns `some` of the stored element comparing
equal, else `none` for `(zeroValue, false)`. -/
def get (cmp : Cmp α) (h : Node α) (item : α) : Option α :=
  match h with
  | .nil => none
  | .node hi hl hr _ =>
    if cmp item hi = 0 then some hi
    else if cmp item hi < 0 then get cmp hl item
    else get cmp hr item

/-- Go `iterate`.  The caller-supplied `IterFunc` closure may carry state,
so it is modelled state-passing: `iter : σ → α → σ × Bool`.  The Go
`nullItem` (`item`,`valid`) pair is `Option α` (`valid=false` ↦ `none`).
The guards mirror `end.valid && compare(h.item, end.item) >= 0` etc. -/
def iterate (cmp : Cmp α) (h : Node α) (desc : Bool) (start stop : Option α)
    (iter : σ → α → σ × Bool) (s : σ) : σ × Bool :=
  match h with
  | .nil => (s, true)
  | .node item l r _ =>
    if !desc then
      if (match stop with | some e => decide (cmp item e ≥ 0) | none => false) then
        iterate cmp l desc start stop iter s
      else if (match start with | some e => decide (cmp item e < 0) | none => false) then
        iterate cmp r desc start stop iter s
      else
        let res1 := iterate cmp l desc start stop iter s
        if !res1.2 then (res1.1, false)
        else
          let res2 := iter res1.1 item
          if !res2.2 then (res2.1, false)
          else iterate cmp r desc start stop iter res2.1
    else
      if (match stop with | some e => decide (cmp item e ≤ 0) | none => false) then
        iterate cmp r desc start stop iter s
      else if (match start with | some e => decide (cmp item e > 0) | none => false) then
        iterate cmp l desc start stop iter s
      else
        let res1 := iterate cmp r desc start stop iter s
        if !res1.2 then (res1.1, false)
        else
          let res2 := iter res1.1 item
          if !res2.2 then (res2.1, false)
          else iterate cmp l desc start stop iter res2.1

/-- Go `t.root.color = _black` after insert, and the guarded
`if t.root != nil { t.root.color = _black }` after the deletes. -/
def blacken : Node α → Node α
  | .nil => .nil
  | .node i l r _ => .node i l r false

/-- Go `LLRBTree[T]`: root pointer and length.  `len` is a Go `int`.  The
`compare` field is passed to each operation explicitly (see `newLLRBTree`
for the construction-time model of the nilable function field). -/
structure LLRBTree (α : Type) where
  root : Node α
  len : Int
deriving Repr, DecidableEq

/-- Go `NewLLRBTree` stores the given comparator — nilable, modelled as
`Option` — without any validation and always returns a tree. -/
structure GoTree (α : Type) where
  root : Node α
  compare : Option (Cmp α)
  len : Int

/-- Go `NewLLRBTree[T](compare CompareFunc[T]) *LLRBTree[T]`:
`return &LLRBTree[T]{compare: compare}`; all other fields are zero-valued
(`root = nil`, `len = 0`).  It performs no check on `compare`. -/
def newLLRBTree (compare : Option (Cmp α)) : GoTree α :=
  { root := .nil, compare := compare, len := 0 }

namespace LLRBTree

/-- The empty tree a (non-nil-comparator) construction yields. -/
def newTree : LLRBTree α := { root := .nil, len := 0 }

/-- Go `ReplaceOrInsert`. -/
def ReplaceOrInsert (cmp : Cmp α) (t : LLRBTree α) (item : α) :
    LLRBTree α × Option α :=
  let res := insert cmp t.root item
  ({ root := blacken res.1, len := if res.2.isSome then t.len else t.len + 1 }, res.2)

/-- Go `Delete`. -/
def Delete [Inhabited α] (cmp : Cmp α) (t : LLRBTree α) (item : α) :
    LLRBTree α × Option α :=
  let res := delete cmp t.root item
  ({ root := blacken res.1, len := if res.2.isSome then t.len - 1 else t.len }, res.2)

/-- Go `DeleteMin`. -/
def DeleteMin (t : LLRBTree α) : LLRBTree α × Option α :=
  let res := deleteMin t.root
  ({ root := blacken res.1, len := if res.2.isSome then t.len - 1 else t.len }, res.2)

/-- Go `DeleteMax`. -/
def DeleteMax (t : LLRBTree α) : LLRBTree α × Option α :=
  let res := deleteMax t.root
  ({ root := blacken res.1, len := if res.2.isSome then t.len - 1 else t.len }, res.2)

/-- Go `Clear`. -/
def Clear (t : LLRBTree α) : LLRBTree α := { root := .nil, len := 0 }

/-- Go `Len`. -/
def Len (t : LLRBTree α) : Int := t.len

/-- Go `Get`. -/
def Get (cmp : Cmp α) (t : LLRBTree α) (item : α) : Option α :=
  get cmp t.root item

/-- Go `Has`. -/
def Has (cmp : Cmp α) (t : LLRBTree α) (item : α) : Bool :=
  (Get cmp t item).isSome

/-- Go `Ascend`: both bounds invalid. -/
def Ascend (cmp : Cmp α) (t : LLRBTree α) (iter : σ → α → σ × Bool) (s : σ) : σ × Bool :=
  iterate cmp t.root false none none iter s

/-- Go `Descend`. -/
def Descend (cmp : Cmp α) (t : LLRBTree α) (iter : σ → α → σ × Bool) (s : σ) : σ × Bool :=
  iterate cmp t.root true none none iter s

/-- Go `AscendRange`: `start = greaterOrEqual`, `end = lessThan`. -/
def AscendRange (cmp : Cmp α) (t : LLRBTree α) (greaterOrEqual lessThan : α)
    (iter : σ → α → σ × Bool) (s : σ) : σ × Bool :=
  iterate cmp t.root false (some greaterOrEqual) (some lessThan) iter s

/-- Go `AscendLessThan`. -/
def AscendLessThan (cmp : Cmp α) (t : LLRBTree α) (pivot : α)
    (iter : σ → α → σ × Bool) (s : σ) : σ × Bool :=
  iterate cmp t.root false none (some pivot) iter s

/-- Go `AscendGreaterOrEqual`. -/
def AscendGreaterOrEqual (cmp : Cmp α) (t : LLRBTree α) (pivot : α)
    (iter : σ → α → σ × Bool) (s : σ) : σ × Bool :=
  iterate cmp t.root false (some pivot) none iter s

/-- Go `DescendRange`: `start = lessOrEqual`, `end = greaterThan`. -/
def DescendRange (cmp : Cmp α) (t : LLRBTree α) (lessOrEqual greaterThan : α)
    (iter : σ → α → σ × Bool) (s : σ) : σ × Bool :=
  iterate cmp t.root true (some lessOrEqual) (some greaterThan) iter s

/-- Go `DescendLessOrEqual`. -/
def DescendLessOrEqual (cmp : Cmp α) (t : LLRBTree α) (pivot : α)
    (iter : σ → α → σ × Bool) (s : σ) : σ × Bool :=
  iterate cmp t.root true (some pivot) none iter s

/-- Go `DescendGreaterThan`. -/
def DescendGreaterThan (cmp : Cmp α) (t : LLRBTree α) (pivot : α)
    (iter : σ → α → σ × Bool) (s : σ) : σ × Bool :=
  iterate cmp t.root true none (some pivot) iter s

end LLRBTree

/-! ## Invariant, ordering and traversal-layer definitions -/

/-- The transient right-leaning 3-node passed down by `moveRedRight`:
a black root whose left child is black and whose right child is red. -/
inductive IsR3 : Node α → Nat → Prop where
  | mk {v : α} {l r : Node α} {n : Nat} :
      IsLLRB l false n → IsLLRB r true n → IsR3 (.node v l r false) (n + 1)

/-- The laws a Go three-way comparator implementing a total order satisfies
(sign antisymmetry, transitivity of strict order, and substitutivity of
comparator equality in the left argument). -/
structure TotalCmp (cmp : Cmp α) : Prop where
  flip : ∀ a b, cmp b a = -cmp a b
  lt_trans : ∀ a b c, cmp a b < 0 → cmp b c < 0 → cmp a c < 0
  eq_congr : ∀ a b c, cmp a b = 0 → cmp a c = cmp b c

/-- Every element of a subtree satisfies `p`. -/
def All (p : α → Prop) : Node α → Prop
  | .nil => True
  | .node i l r _ => p i ∧ All p l ∧ All p r

/-- The binary-search-tree ordering invariant, node-locally: everything in
the left subtree compares strictly below the item, everything in the right
subtree strictly above. -/
def Ordered (cmp : Cmp α) : Node α → Prop
  | .nil => True
  | .node i l r _ =>
      All (fun x => cmp x i < 0) l ∧ All (fun x => cmp i x < 0) r ∧
      Ordered cmp l ∧ Ordered cmp r

/-- The transient shape `insert` can hand back to its caller from a red
node: a red root whose left child is also red (with the double-red on the
left), all three subtrees black of equal height.  `fixUp` in the caller
repairs it with a right rotation plus color flip. -/
inductive IsRRL : Node α → Nat → Prop where
  | mk {v lv : α} {la lb r : Node α} {n : Nat} :
      IsLLRB la false n → IsLLRB lb false n → IsLLRB r false n →
      IsRRL (.node v (.node lv la lb true) r true) n

/-- Replace-or-insert on the sorted listing: replace the first
comparator-equal element, or splice the item in front of the first larger
element. -/
def linsert (cmp : Cmp α) (item : α) : List α → List α
  | [] => [item]
  | y :: ys =>
      if cmp item y = 0 then item :: ys
      else if cmp item y < 0 then item :: y :: ys
      else y :: linsert cmp item ys

/-- Run the callback down a list, stopping at the first `false`. -/
def runList (iter : σ → α → σ × Bool) (s : σ) : List α → σ × Bool
  | [] => (s, true)
  | x :: xs =>
    let r := iter s x
    if r.2 then runList iter r.1 xs else (r.1, false)

/-- The `end.valid && compare(h.item, end.item) >= 0` prune test of the
ascending branch of `iterate`. -/
def ascStopGuard (cmp : Cmp α) (stop : Option α) (x : α) : Bool :=
  match stop with | some e => decide (cmp x e ≥ 0) | none => false

/-- The `start.valid && compare(h.item, start.item) < 0` prune test of the
ascending branch of `iterate`. -/
def ascStartGuard (cmp : Cmp α) (start : Option α) (x : α) : Bool :=
  match start with | some e => decide (cmp x e < 0) | none => false

/-- The `end.valid && compare(h.item, end.item) <= 0` prune test of the
descending branch of `iterate`. -/
def descStopGuard (cmp : Cmp α) (stop : Option α) (x : α) : Bool :=
  match stop with | some e => decide (cmp x e ≤ 0) | none => false

/-- The `start.valid && compare(h.item, start.item) > 0` prune test of the
descending branch of `iterate`. -/
def descStartGuard (cmp : Cmp α) (start : Option α) (x : α) : Bool :=
  match start with | some e => decide (cmp x e > 0) | none => false

/-- The in-range test in ascending mode: below the `stop` bound (exclusive)
and at or above the `start` bound (inclusive). -/
def ascKeep (cmp : Cmp α) (start stop : Option α) (x : α) : Bool :=
  !ascStopGuard cmp stop x && !ascStartGuard cmp start x

/-- The in-range test in descending mode: above the `stop` bound (exclusive)
and at or below the `start` bound (inclusive). -/
def descKeep (cmp : Cmp α) (start stop : Option α) (x : α) : Bool :=
  !descStopGuard cmp stop x && !descStartGuard cmp start x

def intCmp : Cmp Int := fun a b => if a < b then -1 else if b < a then 1 else 0

/-- The internal invariant maintained by every public operation: a
black-rooted LLRB shape of some uniform black height, the binary-search
ordering, and a length field equal to the node count. -/
def Inv (cmp : Cmp α) (t : LLRBTree α) : Prop :=
  (∃ n, IsLLRB t.root false n) ∧ Ordered cmp t.root ∧ t.len = (size t.root : Int)

/-- The trees reachable from a fresh tree by public mutating operations. -/
inductive Reachable [Inhabited α] (cmp : Cmp α) : LLRBTree α → Prop where
  | new : Reachable cmp LLRBTree.newTree
  | insert {t : LLRBTree α} (item : α) :
      Reachable cmp t → Reachable cmp (LLRBTree.ReplaceOrInsert cmp t item).1
  | del {t : LLRBTree α} (item : α) :
      Reachable cmp t → Reachable cmp (LLRBTree.Delete cmp t item).1
  | delMin {t : LLRBTree α} :
      Reachable cmp t → Reachable cmp (LLRBTree.DeleteMin t).1
  | delMax {t : LLRBTree α} :
      Reachable cmp t → Reachable cmp (LLRBTree.DeleteMax t).1
  | clear {t : LLRBTree α} :
      Reachable cmp t → Reachable cmp (LLRBTree.Clear t)

/-- The red-link discipline named by the spec: no red node has a red right
child, and no red node has a red left child whose left child is red again. -/
def RedOk : Node α → Prop
  | .nil => True
  | .node _ l r c =>
      (c = true → isRed r = false ∧ (isRed l = true → isRed l.left = false)) ∧
      RedOk l ∧ RedOk r

/-- Black-depth checker: `some n` when every root-to-absent-child path
passes the same number `n` of black nodes. -/
def bdepth : Node α → Option Nat
  | .nil => some 0
  | .node _ l r c =>
      match bdepth l, bdepth r with
      | some a, some b => if a = b then some (if c then a else a + 1) else none
      | _, _ => none

/-- The tree reached by inserting 8, 6, 4, 2, 10, 12 into a fresh tree. -/
def t7 : LLRBTree Int :=
  (LLRBTree.ReplaceOrInsert intCmp
    ((LLRBTree.ReplaceOrInsert intCmp
      ((LLRBTree.ReplaceOrInsert intCmp
        ((LLRBTree.ReplaceOrInsert intCmp
          ((LLRBTree.ReplaceOrInsert intCmp
            ((LLRBTree.ReplaceOrInsert intCmp LLRBTree.newTree 8).1) 6).1) 4).1) 2).1)
        10).1) 12).1


/-! ## Basic facts about `inorder`, the primitives, and `IsLLRB` -/

@[simp] theorem inorder_nil : inorder (.nil : Node α) = [] := rfl

@[simp] theorem inorder_node (i : α) (l r : Node α) (c : Bool) :
    inorder (.node i l r c) = inorder l ++ i :: inorder r := rfl

theorem inorder_eq_nil_iff (h : Node α) : inorder h = [] ↔ h = .nil := by
  cases h <;> simp [inorder]

@[simp] theorem length_inorder (h : Node α) : (inorder h).length = size h := by
  induction h with
  | nil => rfl
  | node i l r c ihl ihr => simp [inorder, size, ihl, ihr]; omega

@[simp] theorem inorder_rotateLeft (h : Node α) : inorder (rotateLeft h) = inorder h := by
  unfold rotateLeft
  split <;> simp

@[simp] theorem inorder_rotateRight (h : Node α) : inorder (rotateRight h) = inorder h := by
  unfold rotateRight
  split <;> simp

@[simp] theorem inorder_colorFlip (h : Node α) : inorder (colorFlip h) = inorder h := by
  unfold colorFlip
  split <;> simp

@[simp] theorem inorder_fixUp (h : Node α) : inorder (fixUp h) = inorder h := by
  unfold fixUp
  dsimp only
  split <;> split <;> split <;> simp

@[simp] theorem inorder_blacken (h : Node α) : inorder (blacken h) = inorder h := by
  cases h <;> simp [blacken]

@[simp] theorem inorder_setRight_rotateRight (h : Node α) :
    inorder (setRight h (rotateRight h.right)) = inorder h := by
  cases h with
  | nil => rfl
  | node i l r c => simp [setRight, Node.right]

theorem inorder_moveRedLeft (h : Node α) : inorder (moveRedLeft h) = inorder h := by
  unfold moveRedLeft
  dsimp only
  split <;> simp

theorem inorder_moveRedRight (h : Node α) : inorder (moveRedRight h) = inorder h := by
  unfold moveRedRight
  dsimp only
  split <;> simp

@[simp] theorem isRed_nil : isRed (.nil : Node α) = false := rfl

@[simp] theorem isRed_node (i : α) (l r : Node α) (c : Bool) :
    isRed (.node i l r c) = c := rfl

@[simp] theorem left_nil : (Node.nil : Node α).left = .nil := rfl

@[simp] theorem left_node (i : α) (l r : Node α) (c : Bool) :
    (Node.node i l r c).left = l := rfl

@[simp] theorem right_nil : (Node.nil : Node α).right = .nil := rfl

@[simp] theorem right_node (i : α) (l r : Node α) (c : Bool) :
    (Node.node i l r c).right = r := rfl

@[simp] theorem setLeft_node (i : α) (l r x : Node α) (c : Bool) :
    setLeft (.node i l r c) x = .node i x r c := rfl

@[simp] theorem setRight_node (i : α) (l r x : Node α) (c : Bool) :
    setRight (.node i l r c) x = .node i l x c := rfl

@[simp] theorem isNil_nil : (Node.nil : Node α).isNil = true := rfl

@[simp] theorem isNil_node (i : α) (l r : Node α) (c : Bool) :
    (Node.node i l r c).isNil = false := rfl

theorem isRed_of {h : Node α} {c : Bool} {n : Nat} (hb : IsLLRB h c n) : isRed h = c := by
  cases hb <;> rfl

theorem IsLLRB.red_inv {x : Node α} {n : Nat} (hb : IsLLRB x true n) :
    ∃ v a b, x = .node v a b true ∧ IsLLRB a false n ∧ IsLLRB b false n := by
  cases hb with
  | red hba hbb => exact ⟨_, _, _, rfl, hba, hbb⟩

theorem IsLLRB.black_inv {x : Node α} {n : Nat} (hb : IsLLRB x false (n + 1)) :
    ∃ v a b c, x = .node v a b false ∧ IsLLRB a c n ∧ IsLLRB b false n := by
  cases hb with
  | black hba hbb => exact ⟨_, _, _, _, rfl, hba, hbb⟩

theorem IsLLRB.zero_black {h : Node α} {c : Bool} (hb : IsLLRB h c 0) (hc : c = false) :
    h = .nil := by
  cases hb with
  | nil => rfl
  | red => exact absurd hc (by simp)

/-- A subtree already satisfying the invariant needs no repair: `fixUp`
leaves it unchanged. -/
theorem fixUp_id {h : Node α} {c : Bool} {n : Nat} (hb : IsLLRB h c n) : fixUp h = h := by
  cases hb with
  | nil => rfl
  | red hbl hbr =>
    simp [fixUp, isRed_of hbl, isRed_of hbr]
  | black hbl hbr =>
    cases hbl with
    | nil => simp [fixUp, isRed_of hbr]
    | red hba hbb =>
      simp [fixUp, isRed_of hbr, isRed_of hba]
    | black hba hbb => simp [fixUp, isRed_of hbr]

theorem deleteMin_node (hi : α) (hl hr : Node α) (hc : Bool) (hnl : hl.isNil = false)
    (h1 : Node α)
    (hh1 : h1 = if (!isRed hl && !isRed hl.left) = true then moveRedLeft (.node hi hl hr hc)
                else .node hi hl hr hc) :
    deleteMin (.node hi hl hr hc) =
      (fixUp (setLeft h1 (deleteMin h1.left).1), (deleteMin h1.left).2) := by
  subst hh1
  rw [deleteMin.eq_def]
  simp [hnl]

/-! ## The `deleteMin` master lemma -/

theorem deleteMin_spec {α : Type} :
    ∀ {h : Node α} {c : Bool} {n : Nat}, IsLLRB h c n →
      (isRed h = true ∨ isRed h.left = true) →
      (∃ c', IsLLRB (deleteMin h).1 c' n ∧ (c = false → c' = false)) ∧
      inorder (deleteMin h).1 = (inorder h).tail ∧
      (deleteMin h).2 = (inorder h).head? := by
  intro h
  induction h using deleteMin.induct with
  | case1 =>
    intro c n _ hpre
    simp [Node.left] at hpre
  | case2 hi hl hr hc hnil =>
    intro c n hb hpre
    have hl_nil : hl = .nil := by
      cases hl
      · rfl
      · simp at hnil
    subst hl_nil
    have hc_red : hc = true := by
      rcases hpre with hp | hp
      · simpa using hp
      · simp at hp
    subst hc_red
    cases hb with
    | red hbl hbr =>
      cases hbl
      have hr_nil : hr = .nil := hbr.zero_black rfl
      subst hr_nil
      refine ⟨⟨false, ?_, by simp⟩, ?_, ?_⟩ <;>
        simp [deleteMin, inorder]
      exact .nil
  | case3 hi hl hr hc hnil h1 =>
    rename_i ih
    intro c n hb hpre
    have hnil' : hl.isNil = false := by simpa using hnil
    have hh1 : h1 = if (!isRed hl && !isRed hl.left) = true then moveRedLeft (.node hi hl hr hc)
        else .node hi hl hr hc := by
      unfold h1
      rfl
    clear_value h1
    rw [deleteMin_node hi hl hr hc hnil' h1 hh1]
    by_cases hg : (!isRed hl && !isRed hl.left) = true
    · -- guard true: hl and hl.left both black, so the red must be at the root
      rw [if_pos hg] at hh1
      subst hh1
      have hg2 := hg
      simp only [Bool.and_eq_true, Bool.not_eq_true'] at hg2
      obtain ⟨hgl, hgll⟩ := hg2
      have hcred : hc = true := by
        rcases hpre with hp | hp
        · simpa using hp
        · rw [left_node, hgl] at hp
          cases hp
      subst hcred
      cases hb with
      | red hbl hbr =>
        cases hbl with
        | nil => simp at hnil'
        | black hbll hblr =>
          rename_i ll lr li cll m' 
          have hcll : cll = false := by
            have := isRed_of hbll
            rw [left_node] at hgll
            rw [hgll] at this
            exact this.symm
          subst hcll
          cases hbr with
          | black hbrl hbrr =>
            rename_i rl rr ri crl
            rcases hcrl : crl with _ | _ <;> rw [hcrl] at hbrl
            · -- right-left grandchild black: the plain color-flip branch
              have hrl : isRed rl = false := isRed_of hbrl
              have hmv : moveRedLeft
                    (Node.node hi (Node.node li ll lr false) (Node.node ri rl rr false) true) =
                  Node.node hi (Node.node li ll lr true) (Node.node ri rl rr true) false := by
                simp [moveRedLeft, colorFlip, hrl]
              rw [hmv] at ih ⊢
              simp only [left_node, setLeft_node] at ih ⊢
              obtain ⟨⟨c'', hbl', _⟩, hin', hd'⟩ :=
                ih (c := true) (n := m') (.red hbll hblr) (by simp)
              rcases hc2 : c'' with _ | _ <;> rw [hc2] at hbl'
              · rw [show fixUp (Node.node hi (deleteMin (Node.node li ll lr true)).1
                      (Node.node ri rl rr true) false) =
                    Node.node ri (Node.node hi (deleteMin (Node.node li ll lr true)).1 rl true)
                      rr false by
                  simp [fixUp, rotateLeft, isRed_of hbl', isRed_of hbrr, hrl]]
                refine ⟨⟨false, .black (.red hbl' hbrl) hbrr, fun _ => rfl⟩, ?_, ?_⟩
                · simp only [inorder_node] at hin' ⊢
                  conv_rhs => rw [List.tail_append_of_ne_nil
                    (show inorder ll ++ li :: inorder lr ≠ [] by simp)]
                  rw [hin']
                  simp
                · rw [hd']
                  simp only [inorder_node]
                  exact (List.head?_append_of_ne_nil (inorder ll ++ li :: inorder lr)
                    (by simp)).symm
              · -- result of the recursive call is red: color flip at the top
                obtain ⟨v', a, b, hEq, hba, hbb⟩ := hbl'.red_inv
                rw [hEq] at hin' ⊢
                rw [show fixUp (Node.node hi (Node.node v' a b true)
                      (Node.node ri rl rr true) false) =
                    Node.node hi (Node.node v' a b false) (Node.node ri rl rr false) true by
                  simp [fixUp, colorFlip, isRed_of hba]]
                refine ⟨⟨true, .red (.black hba hbb) (.black hbrl hbrr), by simp⟩, ?_, ?_⟩
                · simp only [inorder_node] at hin' ⊢
                  conv_rhs => rw [List.tail_append_of_ne_nil
                    (show inorder ll ++ li :: inorder lr ≠ [] by simp)]
                  rw [hin']
                · rw [hd']
                  simp only [inorder_node]
                  exact (List.head?_append_of_ne_nil (inorder ll ++ li :: inorder lr)
                    (by simp)).symm
            · -- right-left grandchild red: the rotation branch of moveRedLeft
              cases hbrl with
              | red hbrll hbrlr =>
                rename_i rll rlr rli
                have hmv : moveRedLeft (Node.node hi (Node.node li ll lr false)
                      (Node.node ri (Node.node rli rll rlr true) rr false) true) =
                    Node.node rli (Node.node hi (Node.node li ll lr true) rll false)
                      (Node.node ri rlr rr false) true := by
                  simp [moveRedLeft, colorFlip, rotateLeft, rotateRight, setRight]
                rw [hmv] at ih ⊢
                simp only [left_node, setLeft_node] at ih ⊢
                obtain ⟨⟨c'', hbl', hcc⟩, hin', hd'⟩ :=
                  ih (c := false) (n := m' + 1)
                    (.black (.red hbll hblr) hbrll) (by simp)
                have hc2 : c'' = false := hcc rfl
                rw [hc2] at hbl'
                rw [fixUp_id (.red hbl' (.black hbrlr hbrr))]
                refine ⟨⟨true, .red hbl' (.black hbrlr hbrr), by simp⟩, ?_, ?_⟩
                · simp only [inorder_node] at hin' ⊢
                  conv_rhs => rw [List.tail_append_of_ne_nil
                    (show inorder ll ++ li :: inorder lr ≠ [] by simp)]
                  rw [hin', List.tail_append_of_ne_nil
                    (show inorder ll ++ li :: inorder lr ≠ [] by simp)]
                  simp
                · rw [hd']
                  simp only [inorder_node]
                  rw [List.head?_append_of_ne_nil (inorder ll ++ li :: inorder lr) (by simp),
                    List.head?_append_of_ne_nil (inorder ll ++ li :: inorder lr) (by simp)]
    · -- guard false: descend directly; hl is red, or has a red left child
      rw [if_neg hg] at hh1
      subst hh1
      simp only [left_node, setLeft_node] at ih ⊢
      simp only [Bool.and_eq_true, Bool.not_eq_true', not_and_or, Bool.not_eq_false] at hg
      have hlne : inorder hl ≠ [] := by
        simp only [ne_eq, inorder_eq_nil_iff]
        rintro rfl
        simp at hnil'
      cases hb with
      | red hbl hbr =>
        have hgll : isRed hl.left = true := by
          rcases hg with hg | hg
          · rw [isRed_of hbl] at hg
            cases hg
          · exact hg
        obtain ⟨⟨c'', hbl', hcc⟩, hin', hd'⟩ := ih (c := false) hbl (Or.inr hgll)
        have hc2 : c'' = false := hcc rfl
        rw [hc2] at hbl'
        rw [fixUp_id (.red hbl' hbr)]
        refine ⟨⟨true, .red hbl' hbr, by simp⟩, ?_, ?_⟩
        · simp only [inorder_node] at hin' ⊢
          conv_rhs => rw [List.tail_append_of_ne_nil hlne]
          rw [hin']
        · rw [hd']
          simp only [inorder_node]
          exact (List.head?_append_of_ne_nil _ hlne).symm
      | black hbl hbr =>
        rename_i c₁ m
        obtain ⟨⟨c'', hbl', hcc⟩, hin', hd'⟩ :=
          ih (c := c₁) hbl hg
        rw [fixUp_id (.black hbl' hbr)]
        refine ⟨⟨false, .black hbl' hbr, fun _ => rfl⟩, ?_, ?_⟩
        · simp only [inorder_node] at hin' ⊢
          conv_rhs => rw [List.tail_append_of_ne_nil hlne]
          rw [hin']
        · rw [hd']
          simp only [inorder_node]
          exact (List.head?_append_of_ne_nil _ hlne).symm

/-! ## The `deleteMax` master lemma -/


theorem dropLast_graft {S : List α} (P : List α) (x : α) (hS : S ≠ []) :
    (P ++ x :: S).dropLast = P ++ x :: S.dropLast := by
  rw [List.dropLast_append_of_ne_nil _ (by simp), List.dropLast_cons_of_ne_nil hS]

theorem getLast?_graft {S : List α} (P : List α) (x : α) (hS : S ≠ []) :
    (P ++ x :: S).getLast? = S.getLast? := by
  rw [List.getLast?_append_of_ne_nil _ (by simp)]
  cases S with
  | nil => exact absurd rfl hS
  | cons b t => exact List.getLast?_cons_cons

theorem deleteMax_node (hi : α) (hl hr : Node α) (hc : Bool)
    (i1 : α) (l1 r1 : Node α) (c1 : Bool)
    (heq : (if isRed hl = true then rotateRight (.node hi hl hr hc) else .node hi hl hr hc)
      = .node i1 l1 r1 c1)
    (h2 : Node α)
    (hh2 : h2 = if (!isRed r1 && !isRed r1.left) = true then moveRedRight (.node i1 l1 r1 c1)
                else .node i1 l1 r1 c1)
    (hrn : r1.isNil = false) :
    deleteMax (.node hi hl hr hc) =
      (fixUp (setRight h2 (deleteMax h2.right).1), (deleteMax h2.right).2) := by
  rw [deleteMax.eq_2]
  split
  · rename_i heq4
    rw [heq] at heq4
    cases heq4
  · rename_i i2 l2 r2 c2 heq4
    rw [heq] at heq4
    injection heq4 with e1 e2 e3 e4
    subst e1
    subst e2
    subst e3
    subst e4
    rw [if_neg (by simp [hrn])]
    rw [← hh2]

theorem deleteMax_leaf (v : α) (cb : Bool) :
    deleteMax (Node.node v .nil .nil cb) = (.nil, some v) := by
  rw [deleteMax.eq_2]
  split
  · rename_i heq4
    rw [if_neg (by simp)] at heq4
    cases heq4
  · rename_i i2 l2 r2 c2 heq4
    rw [if_neg (by simp)] at heq4
    injection heq4 with e1 e2 e3 e4
    subst e1
    subst e2
    subst e3
    subst e4
    simp

theorem deleteMax_spec {α : Type} :
    ∀ {h : Node α} {c : Bool} {n : Nat},
      ((IsLLRB h c n ∧ (isRed h = true ∨ isRed h.left = true)) ∨ (IsR3 h n ∧ c = false)) →
      (∃ c', IsLLRB (deleteMax h).1 c' n ∧ (c = false → c' = false)) ∧
      inorder (deleteMax h).1 = (inorder h).dropLast ∧
      (deleteMax h).2 = (inorder h).getLast? := by
  intro h
  induction h using deleteMax.induct with
  | case1 =>
    intro c n hpre
    rcases hpre with ⟨_, hp | hp⟩ | ⟨hr3, _⟩
    · simp at hp
    · simp at hp
    · cases hr3
  | case2 hi hl hr hc h1 =>
    rename_i heq
    exfalso
    have h1n : h1.isNil = false := by
      have hh1 : h1 = if h : isRed hl = true then rotateRight (.node hi hl hr hc)
          else .node hi hl hr hc := by
        unfold h1
        rfl
      rw [hh1]
      by_cases hgl : isRed hl = true <;> simp [hgl]
    rw [heq] at h1n
    simp at h1n
  | case3 hi hl hr hc h1 =>
    rename_i i1 l1 r1 c1 heq hrn
    intro c n hpre
    have hh1 : h1 = if isRed hl = true then rotateRight (.node hi hl hr hc)
        else .node hi hl hr hc := by
      unfold h1
      simp only [dite_eq_ite]
    clear_value h1
    subst heq
    have hr1 : r1 = Node.nil := by
      cases r1
      · rfl
      · simp at hrn
    subst hr1
    rcases hpre with ⟨hb, hred⟩ | ⟨hr3, hcf⟩
    · have hcc : hc = c := by simpa using isRed_of hb
      have hhl : isRed hl = false := by
        rcases hred with hp | hp
        · have hct : c = true := by
            rw [← hcc]
            simpa using hp
          rw [hct] at hb
          obtain ⟨v, a, b, hEq, hba, hbb⟩ := hb.red_inv
          injection hEq with g1 g2 g3 g4
          rw [g2]
          exact isRed_of hba
        · exfalso
          simp only [left_node] at hp
          rw [if_pos hp] at hh1
          rcases hl with _ | ⟨lv, la, lb, lc⟩
          · simp at hp
          · rw [show rotateRight (Node.node hi (Node.node lv la lb lc) hr hc) =
                Node.node lv la (Node.node hi lb hr true) hc from rfl] at hh1
            injection hh1 with f1 f2 f3 f4
            cases f3
      rw [if_neg (by simp [hhl])] at hh1
      injection hh1 with e1 e2 e3 e4
      subst e1
      subst e2
      subst e3
      subst e4
      cases hb with
      | red hbl hbr =>
        cases hbr
        have hl1 : l1 = Node.nil := hbl.zero_black rfl
        subst hl1
        rw [deleteMax_leaf]
        exact ⟨⟨false, .nil, by simp⟩, by simp, by simp⟩
      | black hbl hbr =>
        exfalso
        simp [hhl] at hred
    · exfalso
      cases hr3 with
      | mk hbl hbr =>
        rw [if_neg (by simp [isRed_of hbl])] at hh1
        injection hh1 with e1 e2 e3 e4
        rw [← e3] at hbr
        cases hbr
  | case4 hi hl hr hc h1 =>
    rename_i i1 l1 r1 c1 heq hrn h2 ih
    intro c n hpre
    have hh1 : h1 = if isRed hl = true then rotateRight (.node hi hl hr hc)
        else .node hi hl hr hc := by
      unfold h1
      simp only [dite_eq_ite]
    clear_value h1
    subst heq
    have hh2 : h2 = if (!isRed r1 && !isRed r1.left) = true then
        moveRedRight (.node i1 l1 r1 c1) else .node i1 l1 r1 c1 := by
      unfold h2
      simp only [dite_eq_ite]
    clear_value h2
    have hrn' : r1.isNil = false := by simpa using hrn
    rw [deleteMax_node hi hl hr hc i1 l1 r1 c1 hh1.symm h2 hh2 hrn']
    rcases hpre with ⟨hb, hred⟩ | ⟨hr3, hcf⟩
    · cases hb with
      | red hbl hbr =>
        -- class A: red root, both children black
        rw [if_neg (by simp [isRed_of hbl])] at hh1
        injection hh1 with e1 e2 e3 e4
        subst e1
        subst e2
        subst e3
        subst e4
        cases n with
        | zero =>
          rw [hbr.zero_black rfl] at hrn'
          simp at hrn'
        | succ m =>
          obtain ⟨ri, rl, rr, crl, hEr, hbrl, hbrr⟩ := hbr.black_inv
          subst hEr
          rcases hcrl : crl with _ | _ <;> rw [hcrl] at hbrl
          · -- right-left grandchild black: moveRedRight runs
            rw [if_pos (by simp [isRed_of hbrl])] at hh2
            obtain ⟨li, ll, lr, cll, hEl, hbll, hblr⟩ := hbl.black_inv
            subst hEl
            rcases hcll : cll with _ | _ <;> rw [hcll] at hbll
            · -- left-left grandchild black: plain color flip
              rw [show moveRedRight (Node.node i1 (Node.node li ll lr false)
                    (Node.node ri rl rr false) true) =
                  Node.node i1 (Node.node li ll lr true) (Node.node ri rl rr true) false by
                simp [moveRedRight, colorFlip, isRed_of hbll]] at hh2
              subst hh2
              simp only [right_node, setRight_node] at ih ⊢
              obtain ⟨⟨c'', hb', _⟩, hin', hd'⟩ :=
                ih (c := true) (n := m) (Or.inl ⟨.red hbrl hbrr, Or.inl (by simp)⟩)
              rcases hc2 : c'' with _ | _ <;> rw [hc2] at hb'
              · rw [fixUp_id (.black (.red hbll hblr) hb')]
                refine ⟨⟨false, .black (.red hbll hblr) hb', fun _ => rfl⟩, ?_, ?_⟩
                · simp only [inorder_node] at hin' ⊢
                  conv_rhs => rw [dropLast_graft (inorder ll ++ li :: inorder lr) i1 (by simp)]
                  rw [hin']
                · rw [hd']
                  simp only [inorder_node]
                  exact (getLast?_graft (inorder ll ++ li :: inorder lr) i1 (by simp)).symm
              · obtain ⟨rv, ra, rb, hEq, hba, hbb⟩ := hb'.red_inv
                rw [hEq] at hin' ⊢
                rw [show fixUp (Node.node i1 (Node.node li ll lr true)
                      (Node.node rv ra rb true) false) =
                    Node.node i1 (Node.node li ll lr false) (Node.node rv ra rb false) true by
                  simp [fixUp, colorFlip, isRed_of hbll]]
                refine ⟨⟨true, .red (.black hbll hblr) (.black hba hbb), by simp⟩, ?_, ?_⟩
                · simp only [inorder_node] at hin' ⊢
                  conv_rhs => rw [dropLast_graft (inorder ll ++ li :: inorder lr) i1 (by simp)]
                  rw [hin']
                · rw [hd']
                  simp only [inorder_node]
                  exact (getLast?_graft (inorder ll ++ li :: inorder lr) i1 (by simp)).symm
            · -- left-left grandchild red: moveRedRight rotates
              obtain ⟨lv, la, lb, hEll, hba, hbb⟩ := hbll.red_inv
              subst hEll
              rw [show moveRedRight (Node.node i1
                    (Node.node li (Node.node lv la lb true) lr false)
                    (Node.node ri rl rr false) true) =
                  Node.node li (Node.node lv la lb false)
                    (Node.node i1 lr (Node.node ri rl rr true) false) true by
                simp [moveRedRight, colorFlip, rotateRight]] at hh2
              subst hh2
              simp only [right_node, setRight_node] at ih ⊢
              obtain ⟨⟨c'', hb', hcc'⟩, hin', hd'⟩ :=
                ih (c := false) (n := m + 1)
                  (Or.inr ⟨.mk hblr (.red hbrl hbrr), rfl⟩)
              rw [hcc' rfl] at hb'
              rw [fixUp_id (.red (.black hba hbb) hb')]
              refine ⟨⟨true, .red (.black hba hbb) hb', by simp⟩, ?_, ?_⟩
              · simp only [inorder_node, List.append_assoc, List.cons_append] at hin' ⊢
                conv_rhs => rw [dropLast_graft (inorder la) lv (by simp),
                  dropLast_graft (inorder lb) li (by simp)]
                rw [hin']
              · rw [hd']
                simp only [inorder_node, List.append_assoc, List.cons_append]
                rw [getLast?_graft (inorder la) lv (by simp),
                  getLast?_graft (inorder lb) li (by simp)]
          · -- right-left grandchild red: no moveRedRight, descend into class B
            rw [if_neg (by simp [isRed_of hbrl])] at hh2
            subst hh2
            simp only [right_node, setRight_node] at ih ⊢
            obtain ⟨⟨c'', hb', hcc'⟩, hin', hd'⟩ :=
              ih (c := false) (n := m + 1)
                (Or.inl ⟨.black hbrl hbrr, Or.inr (by simp [isRed_of hbrl])⟩)
            rw [hcc' rfl] at hb'
            rw [fixUp_id (.red hbl hb')]
            refine ⟨⟨true, .red hbl hb', by simp⟩, ?_, ?_⟩
            · simp only [inorder_node] at hin' ⊢
              conv_rhs => rw [dropLast_graft (inorder l1) i1 (by simp)]
              rw [hin']
            · rw [hd']
              simp only [inorder_node]
              exact (getLast?_graft (inorder l1) i1 (by simp)).symm
      | black hbl hbr =>
        -- class B: black root; the precondition forces a red left child
        rename_i c₁ m
        have hc₁ : c₁ = true := by
          rcases hred with hp | hp
          · simp at hp
          · rw [← isRed_of hbl]
            simpa using hp
        rw [hc₁] at hbl
        obtain ⟨li, ll, lr, hEl, hbll, hblr⟩ := hbl.red_inv
        subst hEl
        rw [if_pos (by simp)] at hh1
        rw [show rotateRight (Node.node hi (Node.node li ll lr true) hr false) =
            Node.node li ll (Node.node hi lr hr true) false from rfl] at hh1
        injection hh1 with e1 e2 e3 e4
        subst e1
        subst e2
        subst e3
        subst e4
        rw [if_neg (by simp)] at hh2
        subst hh2
        simp only [right_node, setRight_node] at ih ⊢
        obtain ⟨⟨c'', hb', _⟩, hin', hd'⟩ :=
          ih (c := true) (n := m) (Or.inl ⟨.red hblr hbr, Or.inl (by simp)⟩)
        rcases hc2 : c'' with _ | _ <;> rw [hc2] at hb'
        · rw [fixUp_id (.black hbll hb')]
          refine ⟨⟨false, .black hbll hb', fun _ => rfl⟩, ?_, ?_⟩
          · simp only [inorder_node, List.append_assoc, List.cons_append] at hin' ⊢
            conv_rhs => rw [dropLast_graft (inorder l1) i1 (by simp)]
            rw [hin']
          · rw [hd']
            simp only [inorder_node, List.append_assoc, List.cons_append]
            rw [getLast?_graft (inorder l1) i1 (by simp)]
        · obtain ⟨rv, ra, rb, hEq, hba, hbb⟩ := hb'.red_inv
          rw [hEq] at hin' ⊢
          rw [show fixUp (Node.node i1 l1 (Node.node rv ra rb true) false) =
              Node.node rv (Node.node i1 l1 ra true) rb false by
            simp [fixUp, rotateLeft, isRed_of hbll, isRed_of hba, isRed_of hbb]]
          refine ⟨⟨false, .black (.red hbll hba) hbb, fun _ => rfl⟩, ?_, ?_⟩
          · simp only [inorder_node, List.append_assoc, List.cons_append] at hin' ⊢
            conv_rhs => rw [dropLast_graft (inorder l1) i1 (by simp)]
            rw [hin']
          · rw [hd']
            simp only [inorder_node, List.append_assoc, List.cons_append]
            rw [getLast?_graft (inorder l1) i1 (by simp)]
    · -- class C: R3 root
      cases hr3 with
      | mk hbl hbr =>
        rename_i m
        rw [if_neg (by simp [isRed_of hbl])] at hh1
        injection hh1 with e1 e2 e3 e4
        subst e1
        subst e2
        subst e3
        subst e4
        rw [if_neg (by simp [isRed_of hbr])] at hh2
        subst hh2
        simp only [right_node, setRight_node] at ih ⊢
        have hSne : inorder r1 ≠ [] := by
          intro hS
          rw [inorder_eq_nil_iff] at hS
          subst hS
          cases hbr
        obtain ⟨⟨c'', hb', _⟩, hin', hd'⟩ :=
          ih (c := true) (n := m) (Or.inl ⟨hbr, Or.inl (isRed_of hbr)⟩)
        rcases hc2 : c'' with _ | _ <;> rw [hc2] at hb'
        · rw [fixUp_id (.black hbl hb')]
          refine ⟨⟨false, .black hbl hb', fun _ => rfl⟩, ?_, ?_⟩
          · simp only [inorder_node] at hin' ⊢
            conv_rhs => rw [dropLast_graft (inorder l1) i1 hSne]
            rw [hin']
          · rw [hd']
            simp only [inorder_node]
            exact (getLast?_graft (inorder l1) i1 hSne).symm
        · obtain ⟨rv, ra, rb, hEq, hba, hbb⟩ := hb'.red_inv
          rw [hEq] at hin' ⊢
          rw [show fixUp (Node.node i1 l1 (Node.node rv ra rb true) false) =
              Node.node rv (Node.node i1 l1 ra true) rb false by
            simp [fixUp, rotateLeft, isRed_of hbl, isRed_of hba, isRed_of hbb]]
          refine ⟨⟨false, .black (.red ?_ hba) hbb, fun _ => rfl⟩, ?_, ?_⟩
          · exact hbl
          · simp only [inorder_node, List.append_assoc, List.cons_append] at hin' ⊢
            conv_rhs => rw [dropLast_graft (inorder l1) i1 hSne]
            rw [hin']
          · rw [hd']
            simp only [inorder_node, List.append_assoc, List.cons_append]
            exact (getLast?_graft (inorder l1) i1 hSne).symm

/-! ## Comparator laws and the ordering invariant -/


namespace TotalCmp

variable {cmp : Cmp α}

theorem refl (hc : TotalCmp cmp) (a : α) : cmp a a = 0 := by
  have := hc.flip a a
  omega

theorem eq_symm (hc : TotalCmp cmp) {a b : α} (h : cmp a b = 0) : cmp b a = 0 := by
  have := hc.flip a b
  omega

theorem congr_right (hc : TotalCmp cmp) {a b x : α} (h : cmp a b = 0) : cmp x a = cmp x b := by
  have h1 := hc.flip a x
  have h2 := hc.flip b x
  have h3 := hc.eq_congr a b x h
  omega

theorem lt_of_eq_of_lt (hc : TotalCmp cmp) {a b x : α} (h : cmp a b = 0) (h2 : cmp b x < 0) : cmp a x < 0 := by
  have := hc.eq_congr a b x h
  omega

theorem lt_of_lt_of_eq (hc : TotalCmp cmp) {a b x : α} (h : cmp a b < 0) (h2 : cmp b x = 0) : cmp a x < 0 := by
  have := hc.congr_right (x := a) h2
  omega

theorem lt_of_le_of_lt (hc : TotalCmp cmp) {a b x : α} (h : cmp a b ≤ 0) (h2 : cmp b x < 0) : cmp a x < 0 := by
  rcases lt_or_eq_of_le h with h | h
  · exact hc.lt_trans a b x h h2
  · exact hc.lt_of_eq_of_lt h h2

theorem lt_of_lt_of_le (hc : TotalCmp cmp) {a b x : α} (h : cmp a b < 0) (h2 : cmp b x ≤ 0) : cmp a x < 0 := by
  rcases lt_or_eq_of_le h2 with h2 | h2
  · exact hc.lt_trans a b x h h2
  · exact hc.lt_of_lt_of_eq h h2

theorem ne_of_lt (hc : TotalCmp cmp) {a b : α} (h : cmp a b < 0) : ¬ cmp a b = 0 := by omega

end TotalCmp


@[simp] theorem All_nil (p : α → Prop) : All p (.nil : Node α) := trivial

@[simp] theorem All_node {p : α → Prop} {i : α} {l r : Node α} {c : Bool} :
    All p (.node i l r c) ↔ p i ∧ All p l ∧ All p r := Iff.rfl

theorem All_iff_forall {p : α → Prop} {h : Node α} :
    All p h ↔ ∀ x ∈ inorder h, p x := by
  induction h with
  | nil => simp
  | node i l r c ihl ihr =>
    simp only [All_node, inorder_node, List.mem_append, List.mem_cons, ihl, ihr]
    constructor
    · rintro ⟨hi, hl, hr⟩ x (hx | rfl | hx)
      · exact hl x hx
      · exact hi
      · exact hr x hx
    · intro hAll
      exact ⟨hAll i (by simp), fun x hx => hAll x (by simp [hx]),
        fun x hx => hAll x (by simp [hx])⟩


@[simp] theorem Ordered_nil (cmp : Cmp α) : Ordered cmp (.nil : Node α) := trivial

@[simp] theorem Ordered_node {cmp : Cmp α} {i : α} {l r : Node α} {c : Bool} :
    Ordered cmp (.node i l r c) ↔
      All (fun x => cmp x i < 0) l ∧ All (fun x => cmp i x < 0) r ∧
      Ordered cmp l ∧ Ordered cmp r := Iff.rfl

/-- Under the comparator laws, the node-local invariant coincides with
strict sortedness of the in-order listing. -/
theorem ordered_iff_pairwise {cmp : Cmp α} (hc : TotalCmp cmp) {h : Node α} :
    Ordered cmp h ↔ List.Pairwise (fun a b => cmp a b < 0) (inorder h) := by
  induction h with
  | nil => simp
  | node i l r c ihl ihr =>
    simp only [Ordered_node, inorder_node, List.pairwise_append, List.pairwise_cons,
      All_iff_forall, ihl, ihr, List.mem_cons]
    constructor
    · rintro ⟨hli, hir, hl, hr⟩
      refine ⟨hl, ⟨fun y hy => hir y hy, hr⟩, ?_⟩
      rintro a ha b (rfl | hb)
      · exact hli a ha
      · exact hc.lt_trans a i b (hli a ha) (hir b hb)
    · rintro ⟨hl, ⟨hir, hr⟩, hcross⟩
      exact ⟨fun x hx => hcross x hx i (Or.inl rfl), hir, hl, hr⟩

theorem pairwise_of_inorder_eq {cmp : Cmp α} {h h' : Node α}
    (he : inorder h' = inorder h) (hc : TotalCmp cmp) (ho : Ordered cmp h) :
    Ordered cmp h' := by
  rw [ordered_iff_pairwise hc, he, ← ordered_iff_pairwise hc]
  exact ho


/-! ## Unfolding laws for `delete` -/

theorem delete_lt_nil [Inhabited α] (cmp : Cmp α) (item hi : α) (hl hr : Node α) (hc : Bool)
    (hlt : cmp item hi < 0) (hnl : hl.isNil = true) :
    delete cmp (.node hi hl hr hc) item = (.node hi hl hr hc, none) := by
  rw [delete.eq_2, if_pos hlt, if_pos hnl]

theorem delete_lt [Inhabited α] (cmp : Cmp α) (item hi : α) (hl hr : Node α) (hc : Bool)
    (hlt : cmp item hi < 0) (hnl : hl.isNil = false)
    (h1 : Node α)
    (hh1 : h1 = if (!isRed hl && !isRed hl.left) = true then moveRedLeft (.node hi hl hr hc)
                else .node hi hl hr hc) :
    delete cmp (.node hi hl hr hc) item =
      (fixUp (setLeft h1 (delete cmp h1.left item).1), (delete cmp h1.left item).2) := by
  rw [delete.eq_2, if_pos hlt, if_neg (by simp [hnl])]
  rw [← hh1]

theorem delete_ge_found_nil [Inhabited α] (cmp : Cmp α) (item hi : α) (hl hr : Node α)
    (hc : Bool) (i1 : α) (l1 r1 : Node α) (c1 : Bool)
    (hge : ¬ cmp item hi < 0)
    (heq : (if isRed hl = true then rotateRight (.node hi hl hr hc) else .node hi hl hr hc)
      = .node i1 l1 r1 c1)
    (he : (decide (cmp item i1 = 0) && r1.isNil) = true) :
    delete cmp (.node hi hl hr hc) item = (.nil, some i1) := by
  rw [delete.eq_2, if_neg hge]
  split
  · rename_i hgl
    rw [if_pos hgl] at heq
    dsimp only
    split
    · rename_i heq4
      rw [heq] at heq4
      cases heq4
    · rename_i i3 l3 r3 c3 heq4
      rw [heq] at heq4
      injection heq4 with e1 e2 e3 e4
      subst e1
      subst e2
      subst e3
      subst e4
      rw [if_pos he]
  · rename_i hgl
    rw [if_neg hgl] at heq
    injection heq with e1 e2 e3 e4
    subst e1
    subst e2
    subst e3
    subst e4
    dsimp only
    rw [if_pos he]

theorem delete_ge_found [Inhabited α] (cmp : Cmp α) (item hi : α) (hl hr : Node α)
    (hc : Bool) (i1 : α) (l1 r1 : Node α) (c1 : Bool)
    (hge : ¬ cmp item hi < 0)
    (heq : (if isRed hl = true then rotateRight (.node hi hl hr hc) else .node hi hl hr hc)
      = .node i1 l1 r1 c1)
    (hne : ¬ (decide (cmp item i1 = 0) && r1.isNil) = true)
    (i2 : α) (l2 r2 : Node α) (c2 : Bool)
    (heq2 : (if (!r1.isNil && !isRed r1 && !isRed r1.left) = true then
        moveRedRight (.node i1 l1 r1 c1) else .node i1 l1 r1 c1) = .node i2 l2 r2 c2)
    (hfound : cmp item i2 = 0) :
    delete cmp (.node hi hl hr hc) item =
      (fixUp (.node (match (deleteMin r2).2 with | some v => v | none => default)
        l2 (deleteMin r2).1 c2), some i2) := by
  rw [delete.eq_2, if_neg hge]
  split
  · rename_i hgl
    rw [if_pos hgl] at heq
    dsimp only
    split
    · rename_i heq4
      rw [heq] at heq4
      cases heq4
    · rename_i i3 l3 r3 c3 heq4
      rw [heq] at heq4
      injection heq4 with e1 e2 e3 e4
      subst e1
      subst e2
      subst e3
      subst e4
      rw [if_neg hne]
      split
      · rename_i heq5
        rw [heq2] at heq5
        cases heq5
      · rename_i i4 l4 r4 c4 heq5
        rw [heq2] at heq5
        injection heq5 with f1 f2 f3 f4
        subst f1
        subst f2
        subst f3
        subst f4
        rw [if_pos hfound]
  · rename_i hgl
    rw [if_neg hgl] at heq
    injection heq with e1 e2 e3 e4
    subst e1
    subst e2
    subst e3
    subst e4
    dsimp only
    rw [if_neg hne]
    split
    · rename_i heq5
      rw [heq2] at heq5
      cases heq5
    · rename_i i4 l4 r4 c4 heq5
      rw [heq2] at heq5
      injection heq5 with f1 f2 f3 f4
      subst f1
      subst f2
      subst f3
      subst f4
      rw [if_pos hfound]

theorem delete_ge_go [Inhabited α] (cmp : Cmp α) (item hi : α) (hl hr : Node α)
    (hc : Bool) (i1 : α) (l1 r1 : Node α) (c1 : Bool)
    (hge : ¬ cmp item hi < 0)
    (heq : (if isRed hl = true then rotateRight (.node hi hl hr hc) else .node hi hl hr hc)
      = .node i1 l1 r1 c1)
    (hne : ¬ (decide (cmp item i1 = 0) && r1.isNil) = true)
    (i2 : α) (l2 r2 : Node α) (c2 : Bool)
    (heq2 : (if (!r1.isNil && !isRed r1 && !isRed r1.left) = true then
        moveRedRight (.node i1 l1 r1 c1) else .node i1 l1 r1 c1) = .node i2 l2 r2 c2)
    (hnf : ¬ cmp item i2 = 0) :
    delete cmp (.node hi hl hr hc) item =
      (fixUp (.node i2 l2 (delete cmp r2 item).1 c2), (delete cmp r2 item).2) := by
  rw [delete.eq_2, if_neg hge]
  split
  · rename_i hgl
    rw [if_pos hgl] at heq
    dsimp only
    split
    · rename_i heq4
      rw [heq] at heq4
      cases heq4
    · rename_i i3 l3 r3 c3 heq4
      rw [heq] at heq4
      injection heq4 with e1 e2 e3 e4
      subst e1
      subst e2
      subst e3
      subst e4
      rw [if_neg hne]
      split
      · rename_i heq5
        rw [heq2] at heq5
        cases heq5
      · rename_i i4 l4 r4 c4 heq5
        rw [heq2] at heq5
        injection heq5 with f1 f2 f3 f4
        subst f1
        subst f2
        subst f3
        subst f4
        rw [if_neg hnf]
  · rename_i hgl
    rw [if_neg hgl] at heq
    injection heq with e1 e2 e3 e4
    subst e1
    subst e2
    subst e3
    subst e4
    dsimp only
    rw [if_neg hne]
    split
    · rename_i heq5
      rw [heq2] at heq5
      cases heq5
    · rename_i i4 l4 r4 c4 heq5
      rw [heq2] at heq5
      injection heq5 with f1 f2 f3 f4
      subst f1
      subst f2
      subst f3
      subst f4
      rw [if_neg hnf]

/-! ## Zone decompositions of `filter` and `find?` over a sorted listing -/

section Zones

variable {cmp : Cmp α} {item : α}

theorem filter_keep {S : List α} (hS : ∀ y ∈ S, ¬ cmp item y = 0) :
    S.filter (fun y => !decide (cmp item y = 0)) = S :=
  List.filter_eq_self.mpr fun a ha => by simpa using hS a ha

theorem find?_none {S : List α} (hS : ∀ y ∈ S, ¬ cmp item y = 0) :
    S.find? (fun y => decide (cmp item y = 0)) = none :=
  List.find?_eq_none.mpr fun x hx => by simpa using hS x hx

theorem filter_notin_right {L S : List α} {x : α}
    (hx : ¬ cmp item x = 0) (hS : ∀ y ∈ S, ¬ cmp item y = 0) :
    (L ++ x :: S).filter (fun y => !decide (cmp item y = 0))
      = L.filter (fun y => !decide (cmp item y = 0)) ++ x :: S := by
  rw [List.filter_append, List.filter_cons_of_pos (by simpa using hx), filter_keep hS]

theorem find?_in_left {L S : List α} {x : α}
    (hx : ¬ cmp item x = 0) (hS : ∀ y ∈ S, ¬ cmp item y = 0) :
    (L ++ x :: S).find? (fun y => decide (cmp item y = 0))
      = L.find? (fun y => decide (cmp item y = 0)) := by
  have h2 : (x :: S).find? (fun y => decide (cmp item y = 0)) = none :=
    find?_none (fun y hy => by
      rcases List.mem_cons.mp hy with rfl | hy2
      · exact hx
      · exact hS y hy2)
  rw [List.find?_append, h2, Option.or_none]

theorem filter_notin_left {L S : List α} {x : α}
    (hL : ∀ y ∈ L, ¬ cmp item y = 0) (hx : ¬ cmp item x = 0) :
    (L ++ x :: S).filter (fun y => !decide (cmp item y = 0))
      = L ++ x :: S.filter (fun y => !decide (cmp item y = 0)) := by
  rw [List.filter_append, filter_keep hL, List.filter_cons_of_pos (by simpa using hx)]

theorem find?_in_right {L S : List α} {x : α}
    (hL : ∀ y ∈ L, ¬ cmp item y = 0) (hx : ¬ cmp item x = 0) :
    (L ++ x :: S).find? (fun y => decide (cmp item y = 0))
      = S.find? (fun y => decide (cmp item y = 0)) := by
  rw [List.find?_append, find?_none hL, Option.none_or, List.find?_cons_of_neg _
    (by simpa using hx)]

theorem filter_kill_root {L S : List α} {x : α}
    (hL : ∀ y ∈ L, ¬ cmp item y = 0) (hx : cmp item x = 0)
    (hS : ∀ y ∈ S, ¬ cmp item y = 0) :
    (L ++ x :: S).filter (fun y => !decide (cmp item y = 0)) = L ++ S := by
  rw [List.filter_append, filter_keep hL, List.filter_cons_of_neg (by simpa using hx),
    filter_keep hS]

theorem find?_at_root {L S : List α} {x : α}
    (hL : ∀ y ∈ L, ¬ cmp item y = 0) (hx : cmp item x = 0) :
    (L ++ x :: S).find? (fun y => decide (cmp item y = 0)) = some x := by
  rw [List.find?_append, find?_none hL, Option.none_or, List.find?_cons_of_pos _
    (by simpa using hx)]

end Zones


/-! ## The `delete` master lemma -/

theorem delete_spec [Inhabited α] {cmp : Cmp α} (hcm : TotalCmp cmp) :
    ∀ {h : Node α} {item : α} {cb : Bool} {n : Nat},
      Ordered cmp h →
      ((IsLLRB h cb n ∧ (isRed h = true ∨ isRed h.left = true)) ∨
        (IsR3 h n ∧ cb = false ∧ ∀ v l r c2, h = .node v l r c2 → ¬ cmp item v < 0)) →
      (∃ c', IsLLRB (delete cmp h item).1 c' n ∧ (cb = false → c' = false)) ∧
      inorder (delete cmp h item).1
        = (inorder h).filter (fun x => !decide (cmp item x = 0)) ∧
      (delete cmp h item).2 = (inorder h).find? (fun x => decide (cmp item x = 0)) := by
  intro h item
  induction h, item using delete.induct with
  | cmp => exact cmp
  | case1 item =>
    intro cb n _ hpre
    rcases hpre with ⟨_, hp | hp⟩ | ⟨hr3, _⟩
    · simp at hp
    · simp at hp
    · cases hr3
  | case2 item hi hl hr hc hlt hnl =>
    intro cb n ho hpre
    have hl_nil : hl = .nil := by
      cases hl
      · rfl
      · simp at hnl
    subst hl_nil
    rw [delete_lt_nil cmp item hi .nil hr hc hlt rfl]
    rcases hpre with ⟨hb, hred⟩ | ⟨_, _, hge⟩
    · have hcred : hc = true := by
        rcases hred with hp | hp
        · simpa using hp
        · simp at hp
      subst hcred
      cases hb with
      | red hbl hbr =>
        cases hbl
        have hr_nil : hr = .nil := hbr.zero_black rfl
        subst hr_nil
        refine ⟨⟨true, .red .nil .nil, by simp⟩, ?_, ?_⟩
        · simp [hcm.ne_of_lt hlt]
        · simp [hcm.ne_of_lt hlt]
    · exact absurd hlt (hge hi .nil hr hc rfl)
  | case3 item hi hl hr hc hlt hnl h1 =>
    rename_i ih
    intro cb n ho hpre
    have hnil' : hl.isNil = false := by simpa using hnl
    have hh1 : h1 = if (!isRed hl && !isRed hl.left) = true then moveRedLeft (.node hi hl hr hc)
        else .node hi hl hr hc := by
      unfold h1
      rfl
    clear_value h1
    rw [delete_lt cmp item hi hl hr hc hlt hnil' h1 hh1]
    rcases hpre with ⟨hb, hred⟩ | ⟨_, _, hgeR⟩
    swap
    · exact absurd hlt (hgeR hi hl hr hc rfl)
    obtain ⟨hLlt, hRgt, hoL, hoR⟩ := Ordered_node.mp ho
    have hxne : ¬ cmp item hi = 0 := hcm.ne_of_lt hlt
    have hSz : ∀ y ∈ inorder hr, ¬ cmp item y = 0 := fun y hy =>
      hcm.ne_of_lt (hcm.lt_trans item hi y hlt (All_iff_forall.mp hRgt y hy))
    by_cases hg : (!isRed hl && !isRed hl.left) = true
    · -- guard true: hl and hl.left both black, so the red must be at the root
      rw [if_pos hg] at hh1
      subst hh1
      have hg2 := hg
      simp only [Bool.and_eq_true, Bool.not_eq_true'] at hg2
      obtain ⟨hgl, hgll⟩ := hg2
      have hcred : hc = true := by
        rcases hred with hp | hp
        · simpa using hp
        · rw [left_node, hgl] at hp
          cases hp
      subst hcred
      cases hb with
      | red hbl hbr =>
        cases hbl with
        | nil => simp at hnil'
        | black hbll hblr =>
          rename_i ll lr li cll m'
          have hcll : cll = false := by
            have := isRed_of hbll
            rw [left_node] at hgll
            rw [hgll] at this
            exact this.symm
          subst hcll
          cases hbr with
          | black hbrl hbrr =>
            rename_i rl rr ri crl
            rcases hcrl : crl with _ | _ <;> rw [hcrl] at hbrl
            · -- right-left grandchild black: the plain color-flip branch
              have hrl : isRed rl = false := isRed_of hbrl
              have hmv : moveRedLeft
                    (Node.node hi (Node.node li ll lr false) (Node.node ri rl rr false) true) =
                  Node.node hi (Node.node li ll lr true) (Node.node ri rl rr true) false := by
                simp [moveRedLeft, colorFlip, hrl]
              rw [hmv] at ih ⊢
              simp only [left_node, setLeft_node] at ih ⊢
              have hoL' : Ordered cmp (Node.node li ll lr true) :=
                Ordered_node.mpr (Ordered_node.mp hoL)
              obtain ⟨⟨c'', hbl', _⟩, hin', hfd'⟩ :=
                ih hoL' (Or.inl ⟨.red hbll hblr, by simp⟩)
              have hSz' : ∀ y ∈ inorder rl ++ ri :: inorder rr, ¬ cmp item y = 0 :=
                fun y hy => hSz y (by simpa using hy)
              rcases hc2 : c'' with _ | _ <;> rw [hc2] at hbl'
              · rw [show fixUp (Node.node hi (delete cmp (Node.node li ll lr true) item).1
                      (Node.node ri rl rr true) false) =
                    Node.node ri (Node.node hi (delete cmp (Node.node li ll lr true) item).1
                      rl true) rr false by
                  simp [fixUp, rotateLeft, isRed_of hbl', isRed_of hbrr, hrl]]
                refine ⟨⟨false, .black (.red hbl' hbrl) hbrr, fun _ => rfl⟩, ?_, ?_⟩
                · simp only [inorder_node] at hin' ⊢
                  conv_rhs => rw [filter_notin_right hxne hSz']
                  rw [hin']
                  simp
                · rw [hfd']
                  simp only [inorder_node]
                  exact (find?_in_left hxne hSz').symm
              · -- result of the recursive call is red: color flip at the top
                obtain ⟨w, a, d, hEq, hba, hbd⟩ := hbl'.red_inv
                rw [hEq] at hin' ⊢
                rw [show fixUp (Node.node hi (Node.node w a d true)
                      (Node.node ri rl rr true) false) =
                    Node.node hi (Node.node w a d false) (Node.node ri rl rr false) true by
                  simp [fixUp, colorFlip, isRed_of hba]]
                refine ⟨⟨true, .red (.black hba hbd) (.black hbrl hbrr), by simp⟩, ?_, ?_⟩
                · simp only [inorder_node] at hin' ⊢
                  conv_rhs => rw [filter_notin_right hxne hSz']
                  rw [hin']
                · rw [hfd']
                  simp only [inorder_node]
                  exact (find?_in_left hxne hSz').symm
            · -- right-left grandchild red: the rotation branch of moveRedLeft
              cases hbrl with
              | red hbrll hbrlr =>
                rename_i rll rlr rli
                have hmv : moveRedLeft (Node.node hi (Node.node li ll lr false)
                      (Node.node ri (Node.node rli rll rlr true) rr false) true) =
                    Node.node rli (Node.node hi (Node.node li ll lr true) rll false)
                      (Node.node ri rlr rr false) true := by
                  simp [moveRedLeft, colorFlip, rotateLeft, rotateRight, setRight]
                have hoMv : Ordered cmp
                    (Node.node rli (Node.node hi (Node.node li ll lr true) rll false)
                      (Node.node ri rlr rr false) true) := by
                  refine pairwise_of_inorder_eq ?_ hcm ho
                  rw [← hmv, inorder_moveRedLeft]
                rw [hmv] at ih ⊢
                simp only [left_node, setLeft_node] at ih ⊢
                obtain ⟨_, _, hoX, _⟩ := Ordered_node.mp hoMv
                obtain ⟨⟨c'', hbl', hcc⟩, hin', hfd'⟩ :=
                  ih hoX (Or.inl ⟨.black (.red hbll hblr) hbrll, Or.inr (by simp)⟩)
                have hc2 : c'' = false := hcc rfl
                rw [hc2] at hbl'
                rw [fixUp_id (.red hbl' (.black hbrlr hbrr))]
                have hSbig : ∀ y ∈ (inorder rll ++ rli :: inorder rlr) ++ ri :: inorder rr,
                    ¬ cmp item y = 0 := fun y hy => hSz y (by simpa using hy)
                have hSrll : ∀ y ∈ inorder rll, ¬ cmp item y = 0 :=
                  fun y hy => hSz y (by simp [hy])
                refine ⟨⟨true, .red hbl' (.black hbrlr hbrr), by simp⟩, ?_, ?_⟩
                · simp only [inorder_node] at hin' ⊢
                  conv_rhs => rw [filter_notin_right hxne hSbig]
                  rw [hin', filter_notin_right hxne hSrll]
                  simp
                · rw [hfd']
                  simp only [inorder_node]
                  rw [find?_in_left hxne hSrll, find?_in_left hxne hSbig]
    · -- guard false: descend directly; hl is red, or has a red left child
      rw [if_neg hg] at hh1
      subst hh1
      simp only [left_node, setLeft_node] at ih ⊢
      simp only [Bool.and_eq_true, Bool.not_eq_true', not_and_or, Bool.not_eq_false] at hg
      cases hb with
      | red hbl hbr =>
        obtain ⟨⟨c'', hbl', hcc⟩, hin', hfd'⟩ := ih hoL (Or.inl ⟨hbl, hg⟩)
        have hc2 : c'' = false := hcc rfl
        rw [hc2] at hbl'
        rw [fixUp_id (.red hbl' hbr)]
        refine ⟨⟨true, .red hbl' hbr, by simp⟩, ?_, ?_⟩
        · simp only [inorder_node] at hin' ⊢
          conv_rhs => rw [filter_notin_right hxne hSz]
          rw [hin']
        · rw [hfd']
          simp only [inorder_node]
          exact (find?_in_left hxne hSz).symm
      | black hbl hbr =>
        rename_i c₁ m
        obtain ⟨⟨c'', hbl', hcc⟩, hin', hfd'⟩ := ih hoL (Or.inl ⟨hbl, hg⟩)
        rw [fixUp_id (.black hbl' hbr)]
        refine ⟨⟨false, .black hbl' hbr, fun _ => rfl⟩, ?_, ?_⟩
        · simp only [inorder_node] at hin' ⊢
          conv_rhs => rw [filter_notin_right hxne hSz]
          rw [hin']
        · rw [hfd']
          simp only [inorder_node]
          exact (find?_in_left hxne hSz).symm
  | case4 item hi hl hr hc hge h1 =>
    rename_i hnil1
    intro cb n ho hpre
    exfalso
    have hh1 : h1 = if h : isRed hl = true then rotateRight (.node hi hl hr hc)
        else .node hi hl hr hc := by
      unfold h1
      rfl
    rw [hnil1] at hh1
    by_cases hgl : isRed hl = true
    · rw [dif_pos hgl] at hh1
      have := isNil_rotateRight (Node.node hi hl hr hc)
      rw [← hh1] at this
      simp at this
    · rw [dif_neg hgl] at hh1
      cases hh1
  | case5 item hi hl hr hc hge h1 =>
    rename_i i1 l1 r1 c1 heq hearly
    intro cb n ho hpre
    have hh1 : h1 = if isRed hl = true then rotateRight (.node hi hl hr hc)
        else .node hi hl hr hc := by
      unfold h1
      simp only [dite_eq_ite]
    clear_value h1
    subst heq
    have hq : cmp item i1 = 0 := by
      have := hearly
      simp only [Bool.and_eq_true, decide_eq_true_eq] at this
      exact this.1
    have hr1 : r1 = Node.nil := by
      have := hearly
      simp only [Bool.and_eq_true] at this
      cases r1
      · rfl
      · simp at this
    subst hr1
    rw [delete_ge_found_nil cmp item hi hl hr hc i1 l1 .nil c1 hge hh1.symm
      (by simp [hq])]
    rcases hpre with ⟨hb, hred⟩ | ⟨hr3, hcf, hgeR⟩
    · -- red root or red left; a red left contradicts r1 = nil as in deleteMax
      have hcc : hc = cb := by simpa using isRed_of hb
      have hhl : isRed hl = false := by
        rcases hred with hp | hp
        · have hct : cb = true := by
            rw [← hcc]
            simpa using hp
          rw [hct] at hb
          obtain ⟨v, a, b, hEq, hba, hbb⟩ := hb.red_inv
          injection hEq with g1 g2 g3 g4
          rw [g2]
          exact isRed_of hba
        · exfalso
          simp only [left_node] at hp
          rw [if_pos hp] at hh1
          rcases hl with _ | ⟨lv, la, lb, lc⟩
          · simp at hp
          · rw [show rotateRight (Node.node hi (Node.node lv la lb lc) hr hc) =
                Node.node lv la (Node.node hi lb hr true) hc from rfl] at hh1
            injection hh1 with f1 f2 f3 f4
            cases f3
      rw [if_neg (by simp [hhl])] at hh1
      injection hh1 with e1 e2 e3 e4
      subst e1
      subst e2
      subst e3
      subst e4
      -- now the tree is node i1 l1 nil c1; balance forces l1 = nil
      cases hb with
      | red hbl hbr =>
        cases hbr
        have hl1 : l1 = Node.nil := hbl.zero_black rfl
        subst hl1
        refine ⟨⟨false, .nil, fun _ => rfl⟩, ?_, ?_⟩
        · simp [hq]
        · simp [hq]
      | black hbl hbr =>
        exfalso
        rcases hred with hp | hp
        · simp at hp
        · simp only [left_node] at hp
          rw [hhl] at hp
          cases hp
    · exfalso
      cases hr3 with
      | mk hbl hbr =>
        rw [if_neg (by simp [isRed_of hbl])] at hh1
        injection hh1 with e1 e2 e3 e4
        rw [← e3] at hbr
        cases hbr
  | case6 item hi hl hr hc hge h1 =>
    rename_i i1 l1 r1 c1 heq hne h2 hnil2
    intro cb n ho hpre
    exfalso
    have hh2 : h2 = if h : (!r1.isNil && !isRed r1 && !isRed r1.left) = true then
        moveRedRight (.node i1 l1 r1 c1) else .node i1 l1 r1 c1 := by
      unfold h2
      rfl
    rw [hnil2] at hh2
    by_cases hg2 : (!r1.isNil && !isRed r1 && !isRed r1.left) = true
    · rw [dif_pos hg2] at hh2
      have := isNil_moveRedRight (Node.node i1 l1 r1 c1) (by simp)
      rw [← hh2] at this
      simp at this
    · rw [dif_neg hg2] at hh2
      cases hh2
  | case7 item hi hl hr hc hge h1 =>
    rename_i i1 l1 r1 c1 heq hne h2 i2 l2 r2 c2 heq2 hfound
    intro cb n ho hpre
    have hh1 : h1 = if isRed hl = true then rotateRight (.node hi hl hr hc)
        else .node hi hl hr hc := by
      unfold h1
      simp only [dite_eq_ite]
    clear_value h1
    subst heq
    have hh2 : h2 = if (!r1.isNil && !isRed r1 && !isRed r1.left) = true then
        moveRedRight (.node i1 l1 r1 c1) else .node i1 l1 r1 c1 := by
      unfold h2
      simp only [dite_eq_ite]
    clear_value h2
    subst heq2
    rw [delete_ge_found cmp item hi hl hr hc i1 l1 r1 c1 hge hh1.symm hne
      i2 l2 r2 c2 hh2.symm hfound]
    dsimp only
    obtain ⟨hLlt, hRgt, hoL, hoR⟩ := Ordered_node.mp ho
    have hLz : ∀ y ∈ inorder hl, ¬ cmp item y = 0 := fun y hy hy0 =>
      hge (by
        rw [hcm.eq_congr item y hi hy0]
        exact All_iff_forall.mp hLlt y hy)
    rcases hpre with ⟨hb, hred⟩ | ⟨hr3, hcf, hgeR⟩
    · cases hb with
      | red hbl hbr =>
        -- class A: red root, both children black; no rotation happens
        rw [if_neg (by simp [isRed_of hbl])] at hh1
        injection hh1 with e1 e2 e3 e4
        subst e1
        subst e2
        subst e3
        subst e4
        cases n with
        | zero =>
          -- a red leaf: the right child is nil, so the early-return branch
          -- would have fired; this case is vacuous
          exfalso
          have hrnil : r1 = Node.nil := hbr.zero_black rfl
          subst hrnil
          rw [if_neg (by simp)] at hh2
          injection hh2 with f1 f2 f3 f4
          rw [f1] at hfound
          exact hne (by simp [hfound])
        | succ m =>
          obtain ⟨ri, rl, rr, crl, hEr, hbrl, hbrr⟩ := hbr.black_inv
          subst hEr
          rcases hcrl : crl with _ | _ <;> rw [hcrl] at hbrl
          · -- right-left grandchild black: moveRedRight runs
            rw [if_pos (by simp [isRed_of hbrl])] at hh2
            obtain ⟨li, ll, lr, cll, hEl, hbll, hblr⟩ := hbl.black_inv
            subst hEl
            rcases hcll : cll with _ | _ <;> rw [hcll] at hbll
            · -- left-left grandchild black: plain color flip
              rw [show moveRedRight (Node.node i1 (Node.node li ll lr false)
                    (Node.node ri rl rr false) true) =
                  Node.node i1 (Node.node li ll lr true) (Node.node ri rl rr true) false by
                simp [moveRedRight, colorFlip, isRed_of hbll]] at hh2
              injection hh2 with f1 f2 f3 f4
              subst f1
              subst f2
              subst f3
              subst f4
              have hLz' : ∀ y ∈ inorder ll ++ li :: inorder lr, ¬ cmp item y = 0 :=
                fun y hy => hLz y (by simpa using hy)
              have hRz : ∀ y ∈ inorder rl ++ ri :: inorder rr, ¬ cmp item y = 0 :=
                fun y hy => hcm.ne_of_lt (by
                  rw [hcm.eq_congr item i2 y hfound]
                  exact All_iff_forall.mp hRgt y (by simpa using hy))
              obtain ⟨⟨c₃, hbr', _⟩, hin', hd'⟩ :=
                deleteMin_spec (.red hbrl hbrr) (Or.inl (by simp))
              obtain ⟨m0, M, hM⟩ :
                  ∃ a L2, inorder (Node.node ri rl rr true) = a :: L2 := by
                cases hI : inorder (Node.node ri rl rr true) with
                | nil => simp at hI
                | cons a t => exact ⟨a, t, rfl⟩
              have hd2 : (deleteMin (Node.node ri rl rr true)).2 = some m0 := by
                rw [hd', hM]
                rfl
              have hin2 : inorder (deleteMin (Node.node ri rl rr true)).1 = M := by
                rw [hin', hM]
                rfl
              rw [hd2]
              dsimp only
              rcases hc3 : c₃ with _ | _ <;> rw [hc3] at hbr'
              · rw [fixUp_id (.black (.red hbll hblr) hbr')]
                refine ⟨⟨false, .black (.red hbll hblr) hbr', fun _ => rfl⟩, ?_, ?_⟩
                · simp only [inorder_node] at hM ⊢
                  conv_rhs => rw [filter_kill_root hLz' hfound hRz, hM]
                  rw [hin2]
                · simp only [inorder_node]
                  exact (find?_at_root hLz' hfound).symm
              · obtain ⟨w, a2, d2, hEq, hba, hbd⟩ := hbr'.red_inv
                rw [hEq] at hin2 ⊢
                rw [show fixUp (Node.node m0 (Node.node li ll lr true)
                      (Node.node w a2 d2 true) false) =
                    Node.node m0 (Node.node li ll lr false) (Node.node w a2 d2 false) true by
                  simp [fixUp, colorFlip, isRed_of hbll]]
                refine ⟨⟨true, .red (.black hbll hblr) (.black hba hbd), by simp⟩, ?_, ?_⟩
                · simp only [inorder_node] at hM hin2 ⊢
                  conv_rhs => rw [filter_kill_root hLz' hfound hRz, hM, ← hin2]
                · simp only [inorder_node]
                  exact (find?_at_root hLz' hfound).symm
            · -- left-left grandchild red: moveRedRight rotates, and the
              -- replacement root would come from the left subtree, where no
              -- item compares equal; vacuous
              exfalso
              obtain ⟨lv, la, lb, hEll, hba2, hbb2⟩ := hbll.red_inv
              subst hEll
              rw [show moveRedRight (Node.node i1
                    (Node.node li (Node.node lv la lb true) lr false)
                    (Node.node ri rl rr false) true) =
                  Node.node li (Node.node lv la lb false)
                    (Node.node i1 lr (Node.node ri rl rr true) false) true by
                simp [moveRedRight, colorFlip, rotateRight]] at hh2
              injection hh2 with f1 f2 f3 f4
              rw [f1] at hfound
              exact hLz li (by simp) hfound
          · -- right-left grandchild red: no moveRedRight
            rw [if_neg (by simp [isRed_of hbrl])] at hh2
            injection hh2 with f1 f2 f3 f4
            subst f1
            subst f2
            subst f3
            subst f4
            have hRz : ∀ y ∈ inorder rl ++ ri :: inorder rr, ¬ cmp item y = 0 :=
              fun y hy => hcm.ne_of_lt (by
                rw [hcm.eq_congr item i2 y hfound]
                exact All_iff_forall.mp hRgt y (by simpa using hy))
            obtain ⟨⟨c₃, hbr', hcc₃⟩, hin', hd'⟩ :=
              deleteMin_spec (.black hbrl hbrr) (Or.inr (by simp [isRed_of hbrl]))
            have hc₃ : c₃ = false := hcc₃ rfl
            rw [hc₃] at hbr'
            obtain ⟨m0, M, hM⟩ :
                ∃ a L2, inorder (Node.node ri rl rr false) = a :: L2 := by
              cases hI : inorder (Node.node ri rl rr false) with
              | nil => simp at hI
              | cons a t => exact ⟨a, t, rfl⟩
            have hd2 : (deleteMin (Node.node ri rl rr false)).2 = some m0 := by
              rw [hd', hM]
              rfl
            have hin2 : inorder (deleteMin (Node.node ri rl rr false)).1 = M := by
              rw [hin', hM]
              rfl
            rw [hd2]
            dsimp only
            rw [fixUp_id (.red hbl hbr')]
            refine ⟨⟨true, .red hbl hbr', by simp⟩, ?_, ?_⟩
            · simp only [inorder_node] at hM ⊢
              conv_rhs => rw [filter_kill_root hLz hfound hRz, hM]
              rw [hin2]
            · simp only [inorder_node]
              exact (find?_at_root hLz hfound).symm
      | black hbl hbr =>
        -- class B: black root with a red left child; after the right
        -- rotation the new root comes from the left subtree, where no item
        -- compares equal; vacuous
        exfalso
        rename_i c₁ m
        have hc₁ : c₁ = true := by
          rcases hred with hp | hp
          · simp at hp
          · rw [← isRed_of hbl]
            simpa using hp
        rw [hc₁] at hbl
        obtain ⟨li, ll, lr, hEl, hbll, hblr⟩ := hbl.red_inv
        subst hEl
        rw [if_pos (by simp)] at hh1
        rw [show rotateRight (Node.node hi (Node.node li ll lr true) hr false) =
            Node.node li ll (Node.node hi lr hr true) false from rfl] at hh1
        injection hh1 with e1 e2 e3 e4
        subst e1
        subst e2
        subst e3
        subst e4
        rw [if_neg (by simp)] at hh2
        injection hh2 with f1 f2 f3 f4
        rw [f1] at hfound
        exact hLz i1 (by simp) hfound
    · -- class C: R3 root (black, black left, red right)
      cases hr3 with
      | mk hbl hbr =>
        rename_i m
        rw [if_neg (by simp [isRed_of hbl])] at hh1
        injection hh1 with e1 e2 e3 e4
        subst e1
        subst e2
        subst e3
        subst e4
        rw [if_neg (by simp [isRed_of hbr])] at hh2
        injection hh2 with f1 f2 f3 f4
        subst f1
        subst f2
        subst f3
        subst f4
        have hRz : ∀ y ∈ inorder r2, ¬ cmp item y = 0 :=
          fun y hy => hcm.ne_of_lt (by
            rw [hcm.eq_congr item i2 y hfound]
            exact All_iff_forall.mp hRgt y hy)
        obtain ⟨⟨c₃, hbr', _⟩, hin', hd'⟩ := deleteMin_spec hbr (Or.inl (isRed_of hbr))
        have hSne : inorder r2 ≠ [] := by
          intro hS
          rw [inorder_eq_nil_iff] at hS
          subst hS
          cases hbr
        obtain ⟨m0, M, hM⟩ : ∃ a L2, inorder r2 = a :: L2 := by
          cases hI : inorder r2 with
          | nil => exact absurd hI hSne
          | cons a t => exact ⟨a, t, rfl⟩
        have hd2 : (deleteMin r2).2 = some m0 := by
          rw [hd', hM]
          rfl
        have hin2 : inorder (deleteMin r2).1 = M := by
          rw [hin', hM]
          rfl
        rw [hd2]
        dsimp only
        rcases hc3 : c₃ with _ | _ <;> rw [hc3] at hbr'
        · rw [fixUp_id (.black hbl hbr')]
          refine ⟨⟨false, .black hbl hbr', fun _ => rfl⟩, ?_, ?_⟩
          · simp only [inorder_node]
            conv_rhs => rw [filter_kill_root hLz hfound hRz, hM]
            rw [hin2]
          · simp only [inorder_node]
            exact (find?_at_root hLz hfound).symm
        · obtain ⟨w, a2, d2, hEq, hba, hbd⟩ := hbr'.red_inv
          rw [hEq] at hin2 ⊢
          rw [show fixUp (Node.node m0 l2 (Node.node w a2 d2 true) false) =
              Node.node w (Node.node m0 l2 a2 true) d2 false by
            simp [fixUp, rotateLeft, isRed_of hbl, isRed_of hba, isRed_of hbd]]
          refine ⟨⟨false, .black (.red hbl hba) hbd, fun _ => rfl⟩, ?_, ?_⟩
          · simp only [inorder_node] at hin2 ⊢
            conv_rhs => rw [filter_kill_root hLz hfound hRz, hM, ← hin2]
            simp
          · simp only [inorder_node]
            exact (find?_at_root hLz hfound).symm
  | case8 item hi hl hr hc hge h1 =>
    rename_i i1 l1 r1 c1 heq hne h2 i2 l2 r2 c2 heq2 hnf ih
    intro cb n ho hpre
    have hh1 : h1 = if isRed hl = true then rotateRight (.node hi hl hr hc)
        else .node hi hl hr hc := by
      unfold h1
      simp only [dite_eq_ite]
    clear_value h1
    subst heq
    have hh2 : h2 = if (!r1.isNil && !isRed r1 && !isRed r1.left) = true then
        moveRedRight (.node i1 l1 r1 c1) else .node i1 l1 r1 c1 := by
      unfold h2
      simp only [dite_eq_ite]
    clear_value h2
    subst heq2
    rw [delete_ge_go cmp item hi hl hr hc i1 l1 r1 c1 hge hh1.symm hne
      i2 l2 r2 c2 hh2.symm hnf]
    dsimp only
    obtain ⟨hLlt, hRgt, hoL, hoR⟩ := Ordered_node.mp ho
    have hLz : ∀ y ∈ inorder hl, ¬ cmp item y = 0 := fun y hy hy0 =>
      hge (by
        rw [hcm.eq_congr item y hi hy0]
        exact All_iff_forall.mp hLlt y hy)
    rcases hpre with ⟨hb, hred⟩ | ⟨hr3, hcf, hgeR⟩
    · cases hb with
      | red hbl hbr =>
        -- class A: red root, both children black; no rotation happens
        rw [if_neg (by simp [isRed_of hbl])] at hh1
        injection hh1 with e1 e2 e3 e4
        subst e1
        subst e2
        subst e3
        subst e4
        cases n with
        | zero =>
          -- a red leaf; the recursive call deletes from the empty right child
          have hrnil : r1 = Node.nil := hbr.zero_black rfl
          subst hrnil
          have hlnil : l1 = Node.nil := hbl.zero_black rfl
          subst hlnil
          rw [if_neg (by simp)] at hh2
          injection hh2 with f1 f2 f3 f4
          subst f1
          subst f2
          subst f3
          subst f4
          rw [delete.eq_1]
          dsimp only
          rw [fixUp_id (.red .nil .nil)]
          exact ⟨⟨true, .red .nil .nil, by simp⟩, by simp [hnf], by simp [hnf]⟩
        | succ m =>
          obtain ⟨ri, rl, rr, crl, hEr, hbrl, hbrr⟩ := hbr.black_inv
          subst hEr
          rcases hcrl : crl with _ | _ <;> rw [hcrl] at hbrl
          · -- right-left grandchild black: moveRedRight runs
            rw [if_pos (by simp [isRed_of hbrl])] at hh2
            obtain ⟨li, ll, lr, cll, hEl, hbll, hblr⟩ := hbl.black_inv
            subst hEl
            rcases hcll : cll with _ | _ <;> rw [hcll] at hbll
            · -- left-left grandchild black: plain color flip
              rw [show moveRedRight (Node.node i1 (Node.node li ll lr false)
                    (Node.node ri rl rr false) true) =
                  Node.node i1 (Node.node li ll lr true) (Node.node ri rl rr true) false by
                simp [moveRedRight, colorFlip, isRed_of hbll]] at hh2
              injection hh2 with f1 f2 f3 f4
              subst f1
              subst f2
              subst f3
              subst f4
              have hLz' : ∀ y ∈ inorder ll ++ li :: inorder lr, ¬ cmp item y = 0 :=
                fun y hy => hLz y (by simpa using hy)
              obtain ⟨⟨c'', hb', _⟩, hin', hfd'⟩ :=
                ih (Ordered_node.mpr (Ordered_node.mp hoR))
                  (Or.inl ⟨.red hbrl hbrr, Or.inl (by simp)⟩)
              rcases hc2 : c'' with _ | _ <;> rw [hc2] at hb'
              · rw [fixUp_id (.black (.red hbll hblr) hb')]
                refine ⟨⟨false, .black (.red hbll hblr) hb', fun _ => rfl⟩, ?_, ?_⟩
                · simp only [inorder_node] at hin' ⊢
                  conv_rhs => rw [filter_notin_left hLz' hnf]
                  rw [hin']
                · rw [hfd']
                  simp only [inorder_node]
                  exact (find?_in_right hLz' hnf).symm
              · obtain ⟨w, a2, d2, hEq, hba, hbd⟩ := hb'.red_inv
                rw [hEq] at hin' ⊢
                rw [show fixUp (Node.node i2 (Node.node li ll lr true)
                      (Node.node w a2 d2 true) false) =
                    Node.node i2 (Node.node li ll lr false) (Node.node w a2 d2 false) true by
                  simp [fixUp, colorFlip, isRed_of hbll]]
                refine ⟨⟨true, .red (.black hbll hblr) (.black hba hbd), by simp⟩, ?_, ?_⟩
                · simp only [inorder_node] at hin' ⊢
                  conv_rhs => rw [filter_notin_left hLz' hnf]
                  rw [hin']
                · rw [hfd']
                  simp only [inorder_node]
                  exact (find?_in_right hLz' hnf).symm
            · -- left-left grandchild red: moveRedRight rotates; the recursion
              -- descends into a transient right-leaning 3-node
              obtain ⟨lv, la, lb, hEll, hba2, hbb2⟩ := hbll.red_inv
              subst hEll
              rw [show moveRedRight (Node.node i1
                    (Node.node li (Node.node lv la lb true) lr false)
                    (Node.node ri rl rr false) true) =
                  Node.node li (Node.node lv la lb false)
                    (Node.node i1 lr (Node.node ri rl rr true) false) true by
                simp [moveRedRight, colorFlip, rotateRight]] at hh2
              injection hh2 with f1 f2 f3 f4
              subst f1
              subst f2
              subst f3
              subst f4
              have hoR2 : Ordered cmp (Node.node i1 lr (Node.node ri rl rr true) false) :=
                Ordered_node.mpr ⟨(All_node.mp hLlt).2.2, All_node.mpr (All_node.mp hRgt),
                  (Ordered_node.mp hoL).2.2.2, Ordered_node.mpr (Ordered_node.mp hoR)⟩
              obtain ⟨⟨c'', hb', hcc⟩, hin', hfd'⟩ :=
                ih hoR2 (Or.inr ⟨.mk hblr (.red hbrl hbrr), rfl, fun v l r c hE => by
                  injection hE with g1 g2 g3 g4
                  rw [← g1]
                  exact hge⟩)
              have hc2 : c'' = false := hcc rfl
              rw [hc2] at hb'
              rw [fixUp_id (.red (.black hba2 hbb2) hb')]
              have hzla : ∀ y ∈ inorder la, ¬ cmp item y = 0 :=
                fun y hy => hLz y (by simp [hy])
              have hzlv : ¬ cmp item lv = 0 := hLz lv (by simp)
              have hzlb : ∀ y ∈ inorder lb, ¬ cmp item y = 0 :=
                fun y hy => hLz y (by simp [hy])
              refine ⟨⟨true, .red (.black hba2 hbb2) hb', by simp⟩, ?_, ?_⟩
              · simp only [inorder_node, List.append_assoc, List.cons_append] at hin' ⊢
                conv_rhs => rw [filter_notin_left hzla hzlv, filter_notin_left hzlb hnf]
                rw [hin']
              · rw [hfd']
                simp only [inorder_node, List.append_assoc, List.cons_append]
                rw [find?_in_right hzla hzlv, find?_in_right hzlb hnf]
          · -- right-left grandchild red: no moveRedRight, descend directly
            rw [if_neg (by simp [isRed_of hbrl])] at hh2
            injection hh2 with f1 f2 f3 f4
            subst f1
            subst f2
            subst f3
            subst f4
            obtain ⟨⟨c'', hb', hcc⟩, hin', hfd'⟩ :=
              ih hoR (Or.inl ⟨.black hbrl hbrr, Or.inr (by simp [isRed_of hbrl])⟩)
            have hc2 : c'' = false := hcc rfl
            rw [hc2] at hb'
            rw [fixUp_id (.red hbl hb')]
            refine ⟨⟨true, .red hbl hb', by simp⟩, ?_, ?_⟩
            · simp only [inorder_node] at hin' ⊢
              conv_rhs => rw [filter_notin_left hLz hnf]
              rw [hin']
            · rw [hfd']
              simp only [inorder_node]
              exact (find?_in_right hLz hnf).symm
      | black hbl hbr =>
        -- class B: black root with a red left child; a right rotation
        -- happens, and the recursion descends into a red node
        rename_i c₁ m
        have hc₁ : c₁ = true := by
          rcases hred with hp | hp
          · simp at hp
          · rw [← isRed_of hbl]
            simpa using hp
        rw [hc₁] at hbl
        obtain ⟨li, ll, lr, hEl, hbll, hblr⟩ := hbl.red_inv
        subst hEl
        rw [if_pos (by simp)] at hh1
        rw [show rotateRight (Node.node hi (Node.node li ll lr true) hr false) =
            Node.node li ll (Node.node hi lr hr true) false from rfl] at hh1
        injection hh1 with e1 e2 e3 e4
        subst e1
        subst e2
        subst e3
        subst e4
        rw [if_neg (by simp)] at hh2
        injection hh2 with f1 f2 f3 f4
        subst f1
        subst f2
        subst f3
        subst f4
        have hoR2 : Ordered cmp (Node.node hi lr hr true) :=
          Ordered_node.mpr ⟨(All_node.mp hLlt).2.2, hRgt,
            (Ordered_node.mp hoL).2.2.2, hoR⟩
        obtain ⟨⟨c'', hb', _⟩, hin', hfd'⟩ :=
          ih hoR2 (Or.inl ⟨.red hblr hbr, Or.inl (by simp)⟩)
        have hzl2 : ∀ y ∈ inorder l2, ¬ cmp item y = 0 :=
          fun y hy => hLz y (by simp [hy])
        rcases hc2 : c'' with _ | _ <;> rw [hc2] at hb'
        · rw [fixUp_id (.black hbll hb')]
          refine ⟨⟨false, .black hbll hb', fun _ => rfl⟩, ?_, ?_⟩
          · simp only [inorder_node, List.append_assoc, List.cons_append] at hin' ⊢
            conv_rhs => rw [filter_notin_left hzl2 hnf]
            rw [hin']
          · rw [hfd']
            simp only [inorder_node, List.append_assoc, List.cons_append]
            exact (find?_in_right hzl2 hnf).symm
        · obtain ⟨w, a2, d2, hEq, hba, hbd⟩ := hb'.red_inv
          rw [hEq] at hin' ⊢
          rw [show fixUp (Node.node i2 l2 (Node.node w a2 d2 true) false) =
              Node.node w (Node.node i2 l2 a2 true) d2 false by
            simp [fixUp, rotateLeft, isRed_of hbll, isRed_of hba, isRed_of hbd]]
          refine ⟨⟨false, .black (.red hbll hba) hbd, fun _ => rfl⟩, ?_, ?_⟩
          · simp only [inorder_node, List.append_assoc, List.cons_append] at hin' ⊢
            conv_rhs => rw [filter_notin_left hzl2 hnf]
            rw [hin']
          · rw [hfd']
            simp only [inorder_node, List.append_assoc, List.cons_append]
            exact (find?_in_right hzl2 hnf).symm
    · -- class C: R3 root (black, black left, red right); descend into the
      -- red right child
      cases hr3 with
      | mk hbl hbr =>
        rename_i m
        rw [if_neg (by simp [isRed_of hbl])] at hh1
        injection hh1 with e1 e2 e3 e4
        subst e1
        subst e2
        subst e3
        subst e4
        rw [if_neg (by simp [isRed_of hbr])] at hh2
        injection hh2 with f1 f2 f3 f4
        subst f1
        subst f2
        subst f3
        subst f4
        obtain ⟨⟨c'', hb', _⟩, hin', hfd'⟩ := ih hoR (Or.inl ⟨hbr, Or.inl (isRed_of hbr)⟩)
        rcases hc2 : c'' with _ | _ <;> rw [hc2] at hb'
        · rw [fixUp_id (.black hbl hb')]
          refine ⟨⟨false, .black hbl hb', fun _ => rfl⟩, ?_, ?_⟩
          · simp only [inorder_node] at hin' ⊢
            conv_rhs => rw [filter_notin_left hLz hnf]
            rw [hin']
          · rw [hfd']
            simp only [inorder_node]
            exact (find?_in_right hLz hnf).symm
        · obtain ⟨w, a2, d2, hEq, hba, hbd⟩ := hb'.red_inv
          rw [hEq] at hin' ⊢
          rw [show fixUp (Node.node i2 l2 (Node.node w a2 d2 true) false) =
              Node.node w (Node.node i2 l2 a2 true) d2 false by
            simp [fixUp, rotateLeft, isRed_of hbl, isRed_of hba, isRed_of hbd]]
          refine ⟨⟨false, .black (.red hbl hba) hbd, fun _ => rfl⟩, ?_, ?_⟩
          · simp only [inorder_node, List.append_assoc, List.cons_append] at hin' ⊢
            conv_rhs => rw [filter_notin_left hLz hnf]
            rw [hin']
          · rw [hfd']
            simp only [inorder_node, List.append_assoc, List.cons_append]
            exact (find?_in_right hLz hnf).symm


/-! ## The `insert` master lemma -/


theorem IsRRL.inv {x : Node α} {n : Nat} (h : IsRRL x n) :
    ∃ v lv la lb r, x = .node v (.node lv la lb true) r true ∧
      IsLLRB la false n ∧ IsLLRB lb false n ∧ IsLLRB r false n := by
  cases h with
  | mk hla hlb hr => exact ⟨_, _, _, _, _, rfl, hla, hlb, hr⟩


theorem linsert_split_left {cmp : Cmp α} {item x : α} {S : List α}
    (hlt : cmp item x < 0) :
    ∀ L : List α, linsert cmp item (L ++ x :: S) = linsert cmp item L ++ x :: S := by
  intro L
  induction L with
  | nil =>
    simp only [List.nil_append, linsert]
    rw [if_neg (by omega), if_pos hlt]
    rfl
  | cons y L ih =>
    simp only [List.cons_append, linsert, List.append_eq]
    by_cases h0 : cmp item y = 0
    · rw [if_pos h0, if_pos h0]
      simp
    · rw [if_neg h0, if_neg h0]
      by_cases h1 : cmp item y < 0
      · rw [if_pos h1, if_pos h1]
        simp
      · rw [if_neg h1, if_neg h1, ih]
        simp

theorem linsert_append_gt {cmp : Cmp α} {item : α} {T : List α} :
    ∀ {L : List α}, (∀ y ∈ L, 0 < cmp item y) →
      linsert cmp item (L ++ T) = L ++ linsert cmp item T := by
  intro L
  induction L with
  | nil =>
    intro _
    simp
  | cons y L ih =>
    intro hL
    have hy := hL y (by simp)
    simp only [List.cons_append, linsert, List.append_eq]
    rw [if_neg (by omega), if_neg (by omega), ih (fun z hz => hL z (by simp [hz]))]

theorem insert_spec {α : Type} {cmp : Cmp α} (hcm : TotalCmp cmp) :
    ∀ {h : Node α} {item : α} {c : Bool} {n : Nat},
      IsLLRB h c n → Ordered cmp h →
      ((∃ c', IsLLRB (insert cmp h item).1 c' n) ∨
        (c = true ∧ IsRRL (insert cmp h item).1 n)) ∧
      inorder (insert cmp h item).1 = linsert cmp item (inorder h) ∧
      (insert cmp h item).2 = (inorder h).find? (fun y => decide (cmp item y = 0)) := by
  intro h item
  induction h with
  | nil =>
    intro c n hb _
    cases hb
    rw [show insert cmp Node.nil item = (Node.node item .nil .nil true, none) from rfl]
    exact ⟨Or.inl ⟨true, .red .nil .nil⟩, by simp [linsert], by simp⟩
  | node hi hl hr hc ihl ihr =>
    intro c n hb ho
    obtain ⟨hLlt, hRgt, hoL, hoR⟩ := Ordered_node.mp ho
    by_cases h0 : cmp item hi = 0
    · -- the root matches: replace its item in place
      have hE : insert cmp (Node.node hi hl hr hc) item
          = (fixUp (.node item hl hr hc), some hi) := by
        simp [insert, h0]
      rw [hE]
      have hGz : ∀ y ∈ inorder hl, 0 < cmp item y := fun y hy => by
        have h1 : cmp item y = cmp hi y := hcm.eq_congr item hi y h0
        have h2 : cmp y hi < 0 := All_iff_forall.mp hLlt y hy
        have h3 := hcm.flip y hi
        omega
      have hLz : ∀ y ∈ inorder hl, ¬ cmp item y = 0 := fun y hy => by
        have := hGz y hy
        omega
      refine ⟨?_, ?_, ?_⟩
      · left
        cases hb with
        | red hbl hbr =>
          exact ⟨true, by rw [fixUp_id (.red hbl hbr)]; exact .red hbl hbr⟩
        | black hbl hbr =>
          exact ⟨false, by rw [fixUp_id (.black hbl hbr)]; exact .black hbl hbr⟩
      · simp only [inorder_fixUp, inorder_node]
        rw [linsert_append_gt hGz,
          show linsert cmp item (hi :: inorder hr) = item :: inorder hr from by
            simp [linsert, h0]]
      · simp only [inorder_node]
        exact (find?_at_root hLz h0).symm
    · by_cases hlt : cmp item hi < 0
      · -- descend left
        have hE : insert cmp (Node.node hi hl hr hc) item =
            (fixUp (.node hi (insert cmp hl item).1 hr hc), (insert cmp hl item).2) := by
          simp [insert, h0, hlt]
        rw [hE]
        have hSz : ∀ y ∈ inorder hr, ¬ cmp item y = 0 := fun y hy =>
          hcm.ne_of_lt (hcm.lt_trans item hi y hlt (All_iff_forall.mp hRgt y hy))
        cases hb with
        | red hbl hbr =>
          obtain ⟨hbal, hin', hfd'⟩ := ihl hbl hoL
          rcases hbal with ⟨c₂, hbl'⟩ | ⟨hcontra, _⟩
          swap
          · cases hcontra
          refine ⟨?_, ?_, ?_⟩
          · rcases hc2 : c₂ with _ | _ <;> rw [hc2] at hbl'
            · exact Or.inl ⟨true, by rw [fixUp_id (.red hbl' hbr)]; exact .red hbl' hbr⟩
            · obtain ⟨w, a, b2, hEq, hba, hbb⟩ := hbl'.red_inv
              right
              refine ⟨rfl, ?_⟩
              rw [hEq]
              rw [show fixUp (Node.node hi (Node.node w a b2 true) hr true) =
                  Node.node hi (Node.node w a b2 true) hr true by
                simp [fixUp, isRed_of hba, isRed_of hbr]]
              exact .mk hba hbb hbr
          · simp only [inorder_fixUp, inorder_node]
            rw [hin', linsert_split_left hlt]
          · rw [hfd']
            simp only [inorder_node]
            exact (find?_in_left (hcm.ne_of_lt hlt) hSz).symm
        | black hbl hbr =>
          rename_i c₁ m
          obtain ⟨hbal, hin', hfd'⟩ := ihl hbl hoL
          refine ⟨?_, ?_, ?_⟩
          · left
            rcases hbal with ⟨c₂, hbl'⟩ | ⟨hc₁t, hrrl⟩
            · rcases hc2 : c₂ with _ | _ <;> rw [hc2] at hbl'
              · exact ⟨false, by rw [fixUp_id (.black hbl' hbr)]; exact .black hbl' hbr⟩
              · obtain ⟨w, a, b2, hEq, hba, hbb⟩ := hbl'.red_inv
                refine ⟨false, ?_⟩
                rw [hEq]
                rw [show fixUp (Node.node hi (Node.node w a b2 true) hr false) =
                    Node.node hi (Node.node w a b2 true) hr false by
                  simp [fixUp, isRed_of hba, isRed_of hbr]]
                exact .black (.red hba hbb) hbr
            · obtain ⟨v, lv, la, lb, r, hErl, hla, hlb, hbr2⟩ := hrrl.inv
              refine ⟨true, ?_⟩
              rw [hErl]
              rw [show fixUp (Node.node hi
                    (Node.node v (Node.node lv la lb true) r true) hr false) =
                  Node.node v (Node.node lv la lb false)
                    (Node.node hi r hr false) true by
                simp [fixUp, rotateRight, colorFlip, isRed_of hbr]]
              exact .red (.black hla hlb) (.black hbr2 hbr)
          · simp only [inorder_fixUp, inorder_node]
            rw [hin', linsert_split_left hlt]
          · rw [hfd']
            simp only [inorder_node]
            exact (find?_in_left (hcm.ne_of_lt hlt) hSz).symm
      · -- descend right
        have hE : insert cmp (Node.node hi hl hr hc) item =
            (fixUp (.node hi hl (insert cmp hr item).1 hc), (insert cmp hr item).2) := by
          simp [insert, h0, hlt]
        rw [hE]
        have hGz : ∀ y ∈ inorder hl, 0 < cmp item y := fun y hy => by
          have h2 : cmp y hi < 0 := All_iff_forall.mp hLlt y hy
          have h4 := hcm.flip y item
          have h6 := hcm.flip item hi
          have h5 : cmp y item < 0 := hcm.lt_trans y hi item h2 (by omega)
          omega
        have hLz : ∀ y ∈ inorder hl, ¬ cmp item y = 0 := fun y hy => by
          have := hGz y hy
          omega
        cases hb with
        | red hbl hbr =>
          obtain ⟨hbal, hin', hfd'⟩ := ihr hbr hoR
          rcases hbal with ⟨c₂, hbr'⟩ | ⟨hcontra, _⟩
          swap
          · cases hcontra
          refine ⟨?_, ?_, ?_⟩
          · rcases hc2 : c₂ with _ | _ <;> rw [hc2] at hbr'
            · exact Or.inl ⟨true, by rw [fixUp_id (.red hbl hbr')]; exact .red hbl hbr'⟩
            · obtain ⟨w, a, b2, hEq, hba, hbb⟩ := hbr'.red_inv
              right
              refine ⟨rfl, ?_⟩
              rw [hEq]
              rw [show fixUp (Node.node hi hl (Node.node w a b2 true) true) =
                  Node.node w (Node.node hi hl a true) b2 true by
                simp [fixUp, rotateLeft, isRed_of hbl, isRed_of hba, isRed_of hbb]]
              exact .mk hbl hba hbb
          · simp only [inorder_fixUp, inorder_node]
            rw [hin', linsert_append_gt hGz,
              show linsert cmp item (hi :: inorder hr) = hi :: linsert cmp item (inorder hr)
                from by simp [linsert, h0, hlt]]
          · rw [hfd']
            simp only [inorder_node]
            exact (find?_in_right hLz h0).symm
        | black hbl hbr =>
          rename_i c₁ m
          obtain ⟨hbal, hin', hfd'⟩ := ihr hbr hoR
          rcases hbal with ⟨c₂, hbr'⟩ | ⟨hcontra, _⟩
          swap
          · cases hcontra
          refine ⟨?_, ?_, ?_⟩
          · left
            rcases hc2 : c₂ with _ | _ <;> rw [hc2] at hbr'
            · exact ⟨false, by rw [fixUp_id (.black hbl hbr')]; exact .black hbl hbr'⟩
            · obtain ⟨w, a, b2, hEq, hba, hbb⟩ := hbr'.red_inv
              rcases hc1 : c₁ with _ | _ <;> rw [hc1] at hbl
              · refine ⟨false, ?_⟩
                rw [hEq]
                rw [show fixUp (Node.node hi hl (Node.node w a b2 true) false) =
                    Node.node w (Node.node hi hl a true) b2 false by
                  simp [fixUp, rotateLeft, isRed_of hbl, isRed_of hba, isRed_of hbb]]
                exact .black (.red hbl hba) hbb
              · obtain ⟨lv, la, lb, hEl, hla, hlb⟩ := hbl.red_inv
                refine ⟨true, ?_⟩
                rw [hEq, hEl]
                rw [show fixUp (Node.node hi (Node.node lv la lb true)
                      (Node.node w a b2 true) false) =
                    Node.node hi (Node.node lv la lb false)
                      (Node.node w a b2 false) true by
                  simp [fixUp, colorFlip, isRed_of hla]]
                exact .red (.black hla hlb) (.black hba hbb)
          · simp only [inorder_fixUp, inorder_node]
            rw [hin', linsert_append_gt hGz,
              show linsert cmp item (hi :: inorder hr) = hi :: linsert cmp item (inorder hr)
                from by simp [linsert, h0, hlt]]
          · rw [hfd']
            simp only [inorder_node]
            exact (find?_in_right hLz h0).symm


/-! ## `get` on a sorted tree -/

theorem get_spec {α : Type} {cmp : Cmp α} (hcm : TotalCmp cmp) :
    ∀ {h : Node α} {item : α}, Ordered cmp h →
      get cmp h item = (inorder h).find? (fun y => decide (cmp item y = 0)) := by
  intro h item
  induction h with
  | nil =>
    intro _
    simp [get]
  | node hi hl hr hc ihl ihr =>
    intro ho
    obtain ⟨hLlt, hRgt, hoL, hoR⟩ := Ordered_node.mp ho
    by_cases h0 : cmp item hi = 0
    · rw [show get cmp (Node.node hi hl hr hc) item = some hi from by simp [get, h0]]
      have hLz : ∀ y ∈ inorder hl, ¬ cmp item y = 0 := fun y hy => by
        have h1 : cmp item y = cmp hi y := hcm.eq_congr item hi y h0
        have h2 : cmp y hi < 0 := All_iff_forall.mp hLlt y hy
        have h3 := hcm.flip y hi
        omega
      simp only [inorder_node]
      exact (find?_at_root hLz h0).symm
    · by_cases hlt : cmp item hi < 0
      · rw [show get cmp (Node.node hi hl hr hc) item = get cmp hl item from by
          simp [get, h0, hlt]]
        have hSz : ∀ y ∈ inorder hr, ¬ cmp item y = 0 := fun y hy =>
          hcm.ne_of_lt (hcm.lt_trans item hi y hlt (All_iff_forall.mp hRgt y hy))
        rw [ihl hoL]
        simp only [inorder_node]
        exact (find?_in_left (hcm.ne_of_lt hlt) hSz).symm
      · rw [show get cmp (Node.node hi hl hr hc) item = get cmp hr item from by
          simp [get, h0, hlt]]
        have hLz : ∀ y ∈ inorder hl, ¬ cmp item y = 0 := fun y hy => by
          have h2 : cmp y hi < 0 := All_iff_forall.mp hLlt y hy
          have h4 := hcm.flip y item
          have h6 := hcm.flip item hi
          have h5 : cmp y item < 0 := hcm.lt_trans y hi item h2 (by omega)
          omega
        rw [ihr hoR]
        simp only [inorder_node]
        exact (find?_in_right hLz h0).symm

/-! ## The traversal layer: `iterate` as a fold over the in-range listing -/








theorem runList_append (iter : σ → α → σ × Bool) (L1 : List α) :
    ∀ (s : σ) (L2 : List α),
      runList iter s (L1 ++ L2) =
        if (runList iter s L1).2 then runList iter (runList iter s L1).1 L2
        else runList iter s L1 := by
  induction L1 with
  | nil =>
    intro s L2
    simp [runList]
  | cons x xs ih =>
    intro s L2
    simp only [List.cons_append, runList, List.append_eq]
    by_cases hx : (iter s x).2 = true
    · rw [if_pos hx, if_pos hx, ih]
    · rw [if_neg hx, if_neg hx]
      simp

theorem iterate_asc_node (cmp : Cmp α) (item : α) (l r : Node α) (c : Bool)
    (start stop : Option α) (iter : σ → α → σ × Bool) (s : σ) :
    iterate cmp (.node item l r c) false start stop iter s =
      if ascStopGuard cmp stop item then
        iterate cmp l false start stop iter s
      else if ascStartGuard cmp start item then
        iterate cmp r false start stop iter s
      else
        let res1 := iterate cmp l false start stop iter s
        if !res1.2 then (res1.1, false)
        else
          let res2 := iter res1.1 item
          if !res2.2 then (res2.1, false)
          else iterate cmp r false start stop iter res2.1 := rfl

theorem iterate_desc_node (cmp : Cmp α) (item : α) (l r : Node α) (c : Bool)
    (start stop : Option α) (iter : σ → α → σ × Bool) (s : σ) :
    iterate cmp (.node item l r c) true start stop iter s =
      if descStopGuard cmp stop item then
        iterate cmp r true start stop iter s
      else if descStartGuard cmp start item then
        iterate cmp l true start stop iter s
      else
        let res1 := iterate cmp r true start stop iter s
        if !res1.2 then (res1.1, false)
        else
          let res2 := iter res1.1 item
          if !res2.2 then (res2.1, false)
          else iterate cmp l true start stop iter res2.1 := rfl

theorem iterate_asc {α σ : Type} {cmp : Cmp α} (hcm : TotalCmp cmp)
    {start stop : Option α} (iter : σ → α → σ × Bool) :
    ∀ {h : Node α}, Ordered cmp h → ∀ s,
      iterate cmp h false start stop iter s =
        runList iter s ((inorder h).filter (ascKeep cmp start stop)) := by
  intro h
  induction h with
  | nil =>
    intro _ s
    rfl
  | node item l r c ihl ihr =>
    intro ho s
    obtain ⟨hLlt, hRgt, hoL, hoR⟩ := Ordered_node.mp ho
    rw [iterate_asc_node]
    by_cases hstop : ascStopGuard cmp stop item = true
    · rw [if_pos hstop, ihl hoL]
      congr 1
      simp only [inorder_node, List.filter_append]
      rw [show (item :: inorder r).filter (ascKeep cmp start stop) = [] from ?_,
        List.append_nil]
      refine List.filter_eq_nil_iff.mpr ?_
      intro y hy
      rcases hE : stop with _ | e
      · rw [hE] at hstop
        simp [ascStopGuard] at hstop
      · rw [hE] at hstop
        simp only [ascStopGuard, decide_eq_true_eq] at hstop
        have hye : cmp y e ≥ 0 := by
          rcases List.mem_cons.mp hy with rfl | hy2
          · exact hstop
          · have h1 : cmp item y < 0 := All_iff_forall.mp hRgt y hy2
            have h2 := hcm.flip item e
            have h3 := hcm.flip y e
            have h4 : cmp e y < 0 := hcm.lt_of_le_of_lt (by omega) h1
            omega
        simp [ascKeep, ascStopGuard, hE, hye]
    · rw [if_neg hstop]
      by_cases hstart : ascStartGuard cmp start item = true
      · rw [if_pos hstart, ihr hoR]
        congr 1
        simp only [inorder_node, List.filter_append]
        rw [show (inorder l).filter (ascKeep cmp start stop) = [] from ?_,
          List.nil_append,
          show (item :: (inorder r)).filter (ascKeep cmp start stop)
            = (inorder r).filter (ascKeep cmp start stop) from ?_]
        · rcases hE : start with _ | e
          · rw [hE] at hstart
            simp [ascStartGuard] at hstart
          · rw [hE] at hstart
            simp only [ascStartGuard, decide_eq_true_eq] at hstart
            exact List.filter_cons_of_neg (by simp [ascKeep, ascStartGuard, hE, hstart])
        · refine List.filter_eq_nil_iff.mpr ?_
          intro y hy
          rcases hE : start with _ | e
          · rw [hE] at hstart
            simp [ascStartGuard] at hstart
          · rw [hE] at hstart
            simp only [ascStartGuard, decide_eq_true_eq] at hstart
            have hye : cmp y e < 0 :=
              hcm.lt_trans y item e (All_iff_forall.mp hLlt y hy) hstart
            simp [ascKeep, ascStartGuard, hE, hye]
      · rw [if_neg hstart]
        have hkeep : ascKeep cmp start stop item = true := by
          simp only [ascKeep, Bool.and_eq_true, Bool.not_eq_true']
          exact ⟨Bool.not_eq_true _ ▸ Bool.of_not_eq_true hstop,
            Bool.not_eq_true _ ▸ Bool.of_not_eq_true hstart⟩
        simp only [inorder_node, List.filter_append, List.filter_cons_of_pos hkeep]
        rw [runList_append, ihl hoL]
        by_cases hres1 : (runList iter s ((inorder l).filter (ascKeep cmp start stop))).2 = true
        · rw [if_pos hres1, if_neg (by simp [hres1])]
          rw [show runList iter
                (runList iter s ((inorder l).filter (ascKeep cmp start stop))).1
                (item :: (inorder r).filter (ascKeep cmp start stop)) =
              (let r2 := iter (runList iter s
                  ((inorder l).filter (ascKeep cmp start stop))).1 item
               if r2.2 then runList iter r2.1 ((inorder r).filter (ascKeep cmp start stop))
               else (r2.1, false)) from rfl]
          dsimp only
          by_cases hres2 : (iter
              (runList iter s ((inorder l).filter (ascKeep cmp start stop))).1 item).2 = true
          · rw [if_pos hres2, if_neg (by simp [hres2]), ihr hoR]
          · rw [if_neg hres2, if_pos (by simp [hres2])]
        · rw [if_neg hres1, if_pos (by simp [hres1])]
          rw [show (runList iter s ((inorder l).filter (ascKeep cmp start stop))) =
              ((runList iter s ((inorder l).filter (ascKeep cmp start stop))).1,
                (runList iter s ((inorder l).filter (ascKeep cmp start stop))).2) from rfl,
            Bool.eq_false_iff.mpr hres1]

theorem iterate_desc {α σ : Type} {cmp : Cmp α} (hcm : TotalCmp cmp)
    {start stop : Option α} (iter : σ → α → σ × Bool) :
    ∀ {h : Node α}, Ordered cmp h → ∀ s,
      iterate cmp h true start stop iter s =
        runList iter s (((inorder h).filter (descKeep cmp start stop)).reverse) := by
  intro h
  induction h with
  | nil =>
    intro _ s
    rfl
  | node item l r c ihl ihr =>
    intro ho s
    obtain ⟨hLlt, hRgt, hoL, hoR⟩ := Ordered_node.mp ho
    rw [iterate_desc_node]
    by_cases hstop : descStopGuard cmp stop item = true
    · rw [if_pos hstop, ihr hoR]
      congr 1
      simp only [inorder_node, List.filter_append]
      rw [show ((inorder l).filter (descKeep cmp start stop)) = [] from ?_,
        List.nil_append,
        show (item :: (inorder r)).filter (descKeep cmp start stop)
          = (inorder r).filter (descKeep cmp start stop) from ?_]
      · rcases hE : stop with _ | e
        · rw [hE] at hstop
          simp [descStopGuard] at hstop
        · rw [hE] at hstop
          simp only [descStopGuard, decide_eq_true_eq] at hstop
          exact List.filter_cons_of_neg (by simp [descKeep, descStopGuard, hE, hstop])
      · refine List.filter_eq_nil_iff.mpr ?_
        intro y hy
        rcases hE : stop with _ | e
        · rw [hE] at hstop
          simp [descStopGuard] at hstop
        · rw [hE] at hstop
          simp only [descStopGuard, decide_eq_true_eq] at hstop
          have hye : cmp y e ≤ 0 :=
            le_of_lt (hcm.lt_of_lt_of_le (All_iff_forall.mp hLlt y hy) hstop)
          simp [descKeep, descStopGuard, hE, hye]
    · rw [if_neg hstop]
      by_cases hstart : descStartGuard cmp start item = true
      · rw [if_pos hstart, ihl hoL]
        congr 1
        simp only [inorder_node, List.filter_append]
        rw [show (item :: inorder r).filter (descKeep cmp start stop) = [] from ?_,
          List.append_nil]
        refine List.filter_eq_nil_iff.mpr ?_
        intro y hy
        rcases hE : start with _ | e
        · rw [hE] at hstart
          simp [descStartGuard] at hstart
        · rw [hE] at hstart
          simp only [descStartGuard, decide_eq_true_eq] at hstart
          have hye : cmp y e > 0 := by
            rcases List.mem_cons.mp hy with rfl | hy2
            · exact hstart
            · have h1 : cmp item y < 0 := All_iff_forall.mp hRgt y hy2
              have h2 := hcm.flip e item
              have h3 := hcm.flip y e
              have h4 : cmp e y < 0 := hcm.lt_of_le_of_lt (by omega) h1
              omega
          simp [descKeep, descStartGuard, hE, hye]
      · rw [if_neg hstart]
        have hkeep : descKeep cmp start stop item = true := by
          simp only [descKeep, Bool.and_eq_true, Bool.not_eq_true']
          exact ⟨Bool.not_eq_true _ ▸ Bool.of_not_eq_true hstop,
            Bool.not_eq_true _ ▸ Bool.of_not_eq_true hstart⟩
        simp only [inorder_node, List.filter_append, List.filter_cons_of_pos hkeep,
          List.reverse_append, List.reverse_cons]
        rw [List.append_assoc, runList_append, ihr hoR]
        by_cases hres1 : (runList iter s
            (((inorder r).filter (descKeep cmp start stop)).reverse)).2 = true
        · rw [if_pos hres1, if_neg (by simp [hres1])]
          rw [show runList iter
                (runList iter s (((inorder r).filter (descKeep cmp start stop)).reverse)).1
                ([item] ++ ((inorder l).filter (descKeep cmp start stop)).reverse) =
              (let r2 := iter (runList iter s
                  (((inorder r).filter (descKeep cmp start stop)).reverse)).1 item
               if r2.2 then runList iter r2.1
                  (((inorder l).filter (descKeep cmp start stop)).reverse)
               else (r2.1, false)) from rfl]
          dsimp only
          by_cases hres2 : (iter (runList iter s
              (((inorder r).filter (descKeep cmp start stop)).reverse)).1 item).2 = true
          · rw [if_pos hres2, if_neg (by simp [hres2]), ihl hoL]
          · rw [if_neg hres2, if_pos (by simp [hres2])]
        · rw [if_neg hres1, if_pos (by simp [hres1])]
          rw [show (runList iter s
                (((inorder r).filter (descKeep cmp start stop)).reverse)) =
              ((runList iter s
                  (((inorder r).filter (descKeep cmp start stop)).reverse)).1,
                (runList iter s
                  (((inorder r).filter (descKeep cmp start stop)).reverse)).2) from rfl,
            Bool.eq_false_iff.mpr hres1]


/-! ## Root-color irrelevance of the delete family (up to re-blackening) -/

theorem red_shape {x : Node α} (hx : isRed x = true) :
    ∃ v l r, x = .node v l r true := by
  cases x with
  | nil => simp [isRed] at hx
  | node v l r c =>
    cases c with
    | false => simp [isRed] at hx
    | true => exact ⟨v, l, r, rfl⟩

theorem blacken_fixUp_c (w : α) (a b : Node α) :
    blacken (fixUp (.node w a b false)) = blacken (fixUp (.node w a b true)) := by
  by_cases h1 : (isRed b && !isRed a) = true
  · obtain ⟨hb0, ha0⟩ : isRed b = true ∧ isRed a = false := by
      simpa [Bool.and_eq_true, Bool.not_eq_true'] using h1
    obtain ⟨bi, bl, br, hbe⟩ := red_shape hb0
    subst hbe
    by_cases h3 : isRed br = true
    · obtain ⟨ri, rl, rr, hre⟩ := red_shape h3
      subst hre
      simp [fixUp, rotateLeft, rotateRight, colorFlip, blacken, ha0]
    · simp [fixUp, rotateLeft, rotateRight, colorFlip, blacken, ha0, h3]
  · by_cases h2 : (isRed a && isRed a.left) = true
    · obtain ⟨ha0, hal0⟩ : isRed a = true ∧ isRed a.left = true := by simpa using h2
      obtain ⟨ai, al, ar, hae⟩ := red_shape ha0
      subst hae
      simp only [left_node] at hal0
      obtain ⟨li, ll, lr, hle⟩ := red_shape hal0
      subst hle
      simp [fixUp, rotateLeft, rotateRight, colorFlip, blacken]
    · by_cases h3 : (isRed a && isRed b) = true
      · obtain ⟨ha0, hb0⟩ : isRed a = true ∧ isRed b = true := by simpa using h3
        obtain ⟨ai, al, ar, hae⟩ := red_shape ha0
        obtain ⟨bi, bl, br, hbe⟩ := red_shape hb0
        subst hae
        subst hbe
        have hal0 : isRed al = false := by
          by_contra hx
          simp [Bool.not_eq_true] at hx
          simp [hx] at h2
        simp [fixUp, rotateLeft, rotateRight, colorFlip, blacken, hal0]
      · simp only [fixUp, right_node, left_node]
        rw [if_neg h1, if_neg h1]
        simp only [left_node]
        rw [if_neg h2, if_neg h2]
        simp only [left_node, right_node]
        rw [if_neg h3, if_neg h3]
        rfl



theorem deleteMin_paint (v : α) (l r : Node α) (hln : l.isNil = false) :
    (deleteMin (.node v l r false)).2 = (deleteMin (.node v l r true)).2 ∧
    blacken (deleteMin (.node v l r false)).1 = blacken (deleteMin (.node v l r true)).1 := by
  rw [deleteMin_node v l r false hln
      (if (!isRed l && !isRed l.left) = true then moveRedLeft (.node v l r false)
        else .node v l r false) rfl,
    deleteMin_node v l r true hln
      (if (!isRed l && !isRed l.left) = true then moveRedLeft (.node v l r true)
        else .node v l r true) rfl]
  by_cases hg : (!isRed l && !isRed l.left) = true
  · simp only [if_pos hg]
    rcases l with _ | ⟨li, ll, lr, lc⟩
    · simp at hln
    · rcases r with _ | ⟨ri, rl, rr, rc⟩
      · rw [show moveRedLeft (Node.node v (Node.node li ll lr lc) .nil false)
            = Node.node v (Node.node li ll lr lc) .nil false from rfl,
          show moveRedLeft (Node.node v (Node.node li ll lr lc) .nil true)
            = Node.node v (Node.node li ll lr lc) .nil true from rfl]
        refine ⟨rfl, ?_⟩
        simpa using blacken_fixUp_c v (deleteMin (Node.node li ll lr lc)).1 .nil
      · by_cases hrl : isRed rl = true
        · obtain ⟨rli, rll, rlr, hre⟩ := red_shape hrl
          subst hre
          rw [show moveRedLeft (Node.node v (Node.node li ll lr lc)
                (Node.node ri (Node.node rli rll rlr true) rr rc) false) =
              Node.node rli (Node.node v (Node.node li ll lr (!lc)) rll false)
                (Node.node ri rlr rr false) false from by
            simp [moveRedLeft, colorFlip, rotateLeft, rotateRight, setRight],
            show moveRedLeft (Node.node v (Node.node li ll lr lc)
                (Node.node ri (Node.node rli rll rlr true) rr rc) true) =
              Node.node rli (Node.node v (Node.node li ll lr (!lc)) rll false)
                (Node.node ri rlr rr false) true from by
            simp [moveRedLeft, colorFlip, rotateLeft, rotateRight, setRight]]
          refine ⟨rfl, ?_⟩
          simpa using blacken_fixUp_c rli
            (deleteMin (Node.node v (Node.node li ll lr (!lc)) rll false)).1
            (Node.node ri rlr rr false)
        · rw [show moveRedLeft (Node.node v (Node.node li ll lr lc)
                (Node.node ri rl rr rc) false) =
              Node.node v (Node.node li ll lr (!lc)) (Node.node ri rl rr (!rc)) true from by
            simp [moveRedLeft, colorFlip, hrl],
            show moveRedLeft (Node.node v (Node.node li ll lr lc)
                (Node.node ri rl rr rc) true) =
              Node.node v (Node.node li ll lr (!lc)) (Node.node ri rl rr (!rc)) false from by
            simp [moveRedLeft, colorFlip, hrl]]
          refine ⟨rfl, ?_⟩
          simpa using (blacken_fixUp_c v
            (deleteMin (Node.node li ll lr (!lc))).1 (Node.node ri rl rr (!rc))).symm
  · simp only [if_neg hg]
    refine ⟨rfl, ?_⟩
    simpa using blacken_fixUp_c v (deleteMin l).1 r



theorem deleteMax_early (hi : α) (hl hr : Node α) (hc : Bool)
    (i1 : α) (l1 r1 : Node α) (c1 : Bool)
    (heq : (if isRed hl = true then rotateRight (.node hi hl hr hc) else .node hi hl hr hc)
      = .node i1 l1 r1 c1)
    (hrn : r1.isNil = true) :
    deleteMax (.node hi hl hr hc) = (.nil, some i1) := by
  rw [deleteMax.eq_2]
  split
  · rename_i heq4
    rw [heq] at heq4
    cases heq4
  · rename_i i2 l2 r2 c2 heq4
    rw [heq] at heq4
    injection heq4 with e1 e2 e3 e4
    subst e1
    subst e2
    subst e3
    subst e4
    rw [if_pos hrn]

theorem deleteMax_paint (v : α) (l r : Node α) :
    (deleteMax (.node v l r false)).2 = (deleteMax (.node v l r true)).2 ∧
    blacken (deleteMax (.node v l r false)).1 = blacken (deleteMax (.node v l r true)).1 := by
  by_cases hgl : isRed l = true
  · obtain ⟨li, ll, lr, hle⟩ := red_shape hgl
    subst hle
    rw [deleteMax_node v (Node.node li ll lr true) r false li ll (Node.node v lr r true) false
        (by rw [if_pos hgl]; rfl) (Node.node li ll (Node.node v lr r true) false)
        (by rw [if_neg (by simp)]) (by simp),
      deleteMax_node v (Node.node li ll lr true) r true li ll (Node.node v lr r true) true
        (by rw [if_pos hgl]; rfl) (Node.node li ll (Node.node v lr r true) true)
        (by rw [if_neg (by simp)]) (by simp)]
    refine ⟨rfl, ?_⟩
    simpa using blacken_fixUp_c li ll (deleteMax (Node.node v lr r true)).1
  · rcases r with _ | ⟨ri, rl, rr, rc⟩
    · rw [deleteMax_early v l .nil false v l .nil false (by rw [if_neg hgl]) rfl,
        deleteMax_early v l .nil true v l .nil true (by rw [if_neg hgl]) rfl]
      exact ⟨rfl, rfl⟩
    · by_cases hg2 : (!isRed (Node.node ri rl rr rc)
          && !isRed (Node.node ri rl rr rc).left) = true
      · rcases l with _ | ⟨li, ll, lr, lc⟩
        · rw [deleteMax_node v .nil (Node.node ri rl rr rc) false v .nil
              (Node.node ri rl rr rc) false (by rw [if_neg hgl])
              (Node.node v .nil (Node.node ri rl rr rc) false)
              (by rw [if_pos hg2]; rfl) (by simp),
            deleteMax_node v .nil (Node.node ri rl rr rc) true v .nil
              (Node.node ri rl rr rc) true (by rw [if_neg hgl])
              (Node.node v .nil (Node.node ri rl rr rc) true)
              (by rw [if_pos hg2]; rfl) (by simp)]
          refine ⟨rfl, ?_⟩
          simpa using blacken_fixUp_c v .nil (deleteMax (Node.node ri rl rr rc)).1
        · by_cases hll : isRed ll = true
          · obtain ⟨lli, lll, llr, hlle⟩ := red_shape hll
            subst hlle
            rw [deleteMax_node v (Node.node li (Node.node lli lll llr true) lr lc)
                (Node.node ri rl rr rc) false v
                (Node.node li (Node.node lli lll llr true) lr lc)
                (Node.node ri rl rr rc) false (by rw [if_neg hgl])
                (Node.node li (Node.node lli lll llr false)
                  (Node.node v lr (Node.node ri rl rr (!rc)) false) false)
                (by
                  rw [if_pos hg2]
                  simp [moveRedRight, colorFlip, rotateRight]) (by simp),
              deleteMax_node v (Node.node li (Node.node lli lll llr true) lr lc)
                (Node.node ri rl rr rc) true v
                (Node.node li (Node.node lli lll llr true) lr lc)
                (Node.node ri rl rr rc) true (by rw [if_neg hgl])
                (Node.node li (Node.node lli lll llr false)
                  (Node.node v lr (Node.node ri rl rr (!rc)) false) true)
                (by
                  rw [if_pos hg2]
                  simp [moveRedRight, colorFlip, rotateRight]) (by simp)]
            refine ⟨rfl, ?_⟩
            simpa using blacken_fixUp_c li (Node.node lli lll llr false)
              (deleteMax (Node.node v lr (Node.node ri rl rr (!rc)) false)).1
          · rw [deleteMax_node v (Node.node li ll lr lc) (Node.node ri rl rr rc) false v
                (Node.node li ll lr lc) (Node.node ri rl rr rc) false (by rw [if_neg hgl])
                (Node.node v (Node.node li ll lr (!lc)) (Node.node ri rl rr (!rc)) true)
                (by
                  rw [if_pos hg2]
                  simp [moveRedRight, colorFlip, hll]) (by simp),
              deleteMax_node v (Node.node li ll lr lc) (Node.node ri rl rr rc) true v
                (Node.node li ll lr lc) (Node.node ri rl rr rc) true (by rw [if_neg hgl])
                (Node.node v (Node.node li ll lr (!lc)) (Node.node ri rl rr (!rc)) false)
                (by
                  rw [if_pos hg2]
                  simp [moveRedRight, colorFlip, hll]) (by simp)]
            refine ⟨rfl, ?_⟩
            simpa using (blacken_fixUp_c v (Node.node li ll lr (!lc))
              (deleteMax (Node.node ri rl rr (!rc))).1).symm
      · rw [deleteMax_node v l (Node.node ri rl rr rc) false v l
            (Node.node ri rl rr rc) false (by rw [if_neg hgl])
            (Node.node v l (Node.node ri rl rr rc) false)
            (by rw [if_neg hg2]) (by simp),
          deleteMax_node v l (Node.node ri rl rr rc) true v l
            (Node.node ri rl rr rc) true (by rw [if_neg hgl])
            (Node.node v l (Node.node ri rl rr rc) true)
            (by rw [if_neg hg2]) (by simp)]
        refine ⟨rfl, ?_⟩
        simpa using blacken_fixUp_c v l (deleteMax (Node.node ri rl rr rc)).1



theorem delete_paint [Inhabited α] (cmp : Cmp α) (item v : α) (l r : Node α) :
    (delete cmp (.node v l r false) item).2 = (delete cmp (.node v l r true) item).2 ∧
    blacken (delete cmp (.node v l r false) item).1
      = blacken (delete cmp (.node v l r true) item).1 := by
  by_cases hlt : cmp item v < 0
  · by_cases hnl : l.isNil = true
    · rw [delete_lt_nil cmp item v l r false hlt hnl,
        delete_lt_nil cmp item v l r true hlt hnl]
      exact ⟨rfl, rfl⟩
    · have hnl' : l.isNil = false := by simpa using hnl
      rw [delete_lt cmp item v l r false hlt hnl'
          (if (!isRed l && !isRed l.left) = true then moveRedLeft (.node v l r false)
            else .node v l r false) rfl,
        delete_lt cmp item v l r true hlt hnl'
          (if (!isRed l && !isRed l.left) = true then moveRedLeft (.node v l r true)
            else .node v l r true) rfl]
      by_cases hg : (!isRed l && !isRed l.left) = true
      · simp only [if_pos hg]
        rcases l with _ | ⟨li, ll, lr, lc⟩
        · simp at hnl'
        · rcases r with _ | ⟨ri, rl, rr, rc⟩
          · rw [show moveRedLeft (Node.node v (Node.node li ll lr lc) .nil false)
                = Node.node v (Node.node li ll lr lc) .nil false from rfl,
              show moveRedLeft (Node.node v (Node.node li ll lr lc) .nil true)
                = Node.node v (Node.node li ll lr lc) .nil true from rfl]
            refine ⟨rfl, ?_⟩
            simpa using blacken_fixUp_c v
              (delete cmp (Node.node li ll lr lc) item).1 .nil
          · by_cases hrl : isRed rl = true
            · obtain ⟨rli, rll, rlr, hre⟩ := red_shape hrl
              subst hre
              rw [show moveRedLeft (Node.node v (Node.node li ll lr lc)
                    (Node.node ri (Node.node rli rll rlr true) rr rc) false) =
                  Node.node rli (Node.node v (Node.node li ll lr (!lc)) rll false)
                    (Node.node ri rlr rr false) false from by
                simp [moveRedLeft, colorFlip, rotateLeft, rotateRight, setRight],
                show moveRedLeft (Node.node v (Node.node li ll lr lc)
                    (Node.node ri (Node.node rli rll rlr true) rr rc) true) =
                  Node.node rli (Node.node v (Node.node li ll lr (!lc)) rll false)
                    (Node.node ri rlr rr false) true from by
                simp [moveRedLeft, colorFlip, rotateLeft, rotateRight, setRight]]
              refine ⟨rfl, ?_⟩
              simpa using blacken_fixUp_c rli
                (delete cmp (Node.node v (Node.node li ll lr (!lc)) rll false) item).1
                (Node.node ri rlr rr false)
            · rw [show moveRedLeft (Node.node v (Node.node li ll lr lc)
                    (Node.node ri rl rr rc) false) =
                  Node.node v (Node.node li ll lr (!lc)) (Node.node ri rl rr (!rc)) true
                    from by simp [moveRedLeft, colorFlip, hrl],
                show moveRedLeft (Node.node v (Node.node li ll lr lc)
                    (Node.node ri rl rr rc) true) =
                  Node.node v (Node.node li ll lr (!lc)) (Node.node ri rl rr (!rc)) false
                    from by simp [moveRedLeft, colorFlip, hrl]]
              refine ⟨rfl, ?_⟩
              simpa using (blacken_fixUp_c v
                (delete cmp (Node.node li ll lr (!lc)) item).1
                (Node.node ri rl rr (!rc))).symm
      · simp only [if_neg hg]
        refine ⟨rfl, ?_⟩
        simpa using blacken_fixUp_c v (delete cmp l item).1 r
  · by_cases hgl : isRed l = true
    · obtain ⟨li, ll, lr, hle⟩ := red_shape hgl
      subst hle
      have hne : ¬ (decide (cmp item li = 0) && (Node.node v lr r true).isNil) = true := by
        simp
      by_cases hf : cmp item li = 0
      · rw [delete_ge_found cmp item v (Node.node li ll lr true) r false li ll
            (Node.node v lr r true) false hlt (by rw [if_pos hgl]; rfl) hne li ll
            (Node.node v lr r true) false (by rw [if_neg (by simp)]) hf,
          delete_ge_found cmp item v (Node.node li ll lr true) r true li ll
            (Node.node v lr r true) true hlt (by rw [if_pos hgl]; rfl) hne li ll
            (Node.node v lr r true) true (by rw [if_neg (by simp)]) hf]
        refine ⟨rfl, ?_⟩
        dsimp only
        exact blacken_fixUp_c _ _ _
      · rw [delete_ge_go cmp item v (Node.node li ll lr true) r false li ll
            (Node.node v lr r true) false hlt (by rw [if_pos hgl]; rfl) hne li ll
            (Node.node v lr r true) false (by rw [if_neg (by simp)]) hf,
          delete_ge_go cmp item v (Node.node li ll lr true) r true li ll
            (Node.node v lr r true) true hlt (by rw [if_pos hgl]; rfl) hne li ll
            (Node.node v lr r true) true (by rw [if_neg (by simp)]) hf]
        refine ⟨rfl, ?_⟩
        dsimp only
        exact blacken_fixUp_c _ _ _
    · by_cases he : (decide (cmp item v = 0) && r.isNil) = true
      · rw [delete_ge_found_nil cmp item v l r false v l r false hlt
            (by rw [if_neg hgl]) he,
          delete_ge_found_nil cmp item v l r true v l r true hlt
            (by rw [if_neg hgl]) he]
        exact ⟨rfl, rfl⟩
      · by_cases hg2 : (!r.isNil && !isRed r && !isRed r.left) = true
        · have hrn : r.isNil = false := by
            rcases hI : r.isNil with _ | _
            · rfl
            · rw [hI] at hg2
              simp at hg2
          rcases r with _ | ⟨ri, rl, rr, rc⟩
          · simp at hrn
          · rcases l with _ | ⟨li, ll, lr, lc⟩
            · by_cases hf : cmp item v = 0
              · rw [delete_ge_found cmp item v .nil (Node.node ri rl rr rc) false v .nil
                    (Node.node ri rl rr rc) false hlt (by rw [if_neg hgl]) he v .nil
                    (Node.node ri rl rr rc) false (by rw [if_pos hg2]; rfl) hf,
                  delete_ge_found cmp item v .nil (Node.node ri rl rr rc) true v .nil
                    (Node.node ri rl rr rc) true hlt (by rw [if_neg hgl]) he v .nil
                    (Node.node ri rl rr rc) true (by rw [if_pos hg2]; rfl) hf]
                refine ⟨rfl, ?_⟩
                dsimp only
                exact blacken_fixUp_c _ _ _
              · rw [delete_ge_go cmp item v .nil (Node.node ri rl rr rc) false v .nil
                    (Node.node ri rl rr rc) false hlt (by rw [if_neg hgl]) he v .nil
                    (Node.node ri rl rr rc) false (by rw [if_pos hg2]; rfl) hf,
                  delete_ge_go cmp item v .nil (Node.node ri rl rr rc) true v .nil
                    (Node.node ri rl rr rc) true hlt (by rw [if_neg hgl]) he v .nil
                    (Node.node ri rl rr rc) true (by rw [if_pos hg2]; rfl) hf]
                refine ⟨rfl, ?_⟩
                dsimp only
                exact blacken_fixUp_c _ _ _
            · by_cases hll : isRed ll = true
              · obtain ⟨lli, lll, llr, hlle⟩ := red_shape hll
                subst hlle
                by_cases hf : cmp item li = 0
                · rw [delete_ge_found cmp item v
                      (Node.node li (Node.node lli lll llr true) lr lc)
                      (Node.node ri rl rr rc) false v
                      (Node.node li (Node.node lli lll llr true) lr lc)
                      (Node.node ri rl rr rc) false hlt (by rw [if_neg hgl]) he li
                      (Node.node lli lll llr false)
                      (Node.node v lr (Node.node ri rl rr (!rc)) false) false
                      (by
                        rw [if_pos hg2]
                        simp [moveRedRight, colorFlip, rotateRight]) hf,
                    delete_ge_found cmp item v
                      (Node.node li (Node.node lli lll llr true) lr lc)
                      (Node.node ri rl rr rc) true v
                      (Node.node li (Node.node lli lll llr true) lr lc)
                      (Node.node ri rl rr rc) true hlt (by rw [if_neg hgl]) he li
                      (Node.node lli lll llr false)
                      (Node.node v lr (Node.node ri rl rr (!rc)) false) true
                      (by
                        rw [if_pos hg2]
                        simp [moveRedRight, colorFlip, rotateRight]) hf]
                  refine ⟨rfl, ?_⟩
                  dsimp only
                  exact blacken_fixUp_c _ _ _
                · rw [delete_ge_go cmp item v
                      (Node.node li (Node.node lli lll llr true) lr lc)
                      (Node.node ri rl rr rc) false v
                      (Node.node li (Node.node lli lll llr true) lr lc)
                      (Node.node ri rl rr rc) false hlt (by rw [if_neg hgl]) he li
                      (Node.node lli lll llr false)
                      (Node.node v lr (Node.node ri rl rr (!rc)) false) false
                      (by
                        rw [if_pos hg2]
                        simp [moveRedRight, colorFlip, rotateRight]) hf,
                    delete_ge_go cmp item v
                      (Node.node li (Node.node lli lll llr true) lr lc)
                      (Node.node ri rl rr rc) true v
                      (Node.node li (Node.node lli lll llr true) lr lc)
                      (Node.node ri rl rr rc) true hlt (by rw [if_neg hgl]) he li
                      (Node.node lli lll llr false)
                      (Node.node v lr (Node.node ri rl rr (!rc)) false) true
                      (by
                        rw [if_pos hg2]
                        simp [moveRedRight, colorFlip, rotateRight]) hf]
                  refine ⟨rfl, ?_⟩
                  dsimp only
                  exact blacken_fixUp_c _ _ _
              · by_cases hf : cmp item v = 0
                · rw [delete_ge_found cmp item v (Node.node li ll lr lc)
                      (Node.node ri rl rr rc) false v (Node.node li ll lr lc)
                      (Node.node ri rl rr rc) false hlt (by rw [if_neg hgl]) he v
                      (Node.node li ll lr (!lc)) (Node.node ri rl rr (!rc)) true
                      (by
                        rw [if_pos hg2]
                        simp [moveRedRight, colorFlip, hll]) hf,
                    delete_ge_found cmp item v (Node.node li ll lr lc)
                      (Node.node ri rl rr rc) true v (Node.node li ll lr lc)
                      (Node.node ri rl rr rc) true hlt (by rw [if_neg hgl]) he v
                      (Node.node li ll lr (!lc)) (Node.node ri rl rr (!rc)) false
                      (by
                        rw [if_pos hg2]
                        simp [moveRedRight, colorFlip, hll]) hf]
                  refine ⟨rfl, ?_⟩
                  dsimp only
                  exact (blacken_fixUp_c _ _ _).symm
                · rw [delete_ge_go cmp item v (Node.node li ll lr lc)
                      (Node.node ri rl rr rc) false v (Node.node li ll lr lc)
                      (Node.node ri rl rr rc) false hlt (by rw [if_neg hgl]) he v
                      (Node.node li ll lr (!lc)) (Node.node ri rl rr (!rc)) true
                      (by
                        rw [if_pos hg2]
                        simp [moveRedRight, colorFlip, hll]) hf,
                    delete_ge_go cmp item v (Node.node li ll lr lc)
                      (Node.node ri rl rr rc) true v (Node.node li ll lr lc)
                      (Node.node ri rl rr rc) true hlt (by rw [if_neg hgl]) he v
                      (Node.node li ll lr (!lc)) (Node.node ri rl rr (!rc)) false
                      (by
                        rw [if_pos hg2]
                        simp [moveRedRight, colorFlip, hll]) hf]
                  refine ⟨rfl, ?_⟩
                  dsimp only
                  exact (blacken_fixUp_c _ _ _).symm
        · by_cases hf : cmp item v = 0
          · rw [delete_ge_found cmp item v l r false v l r false hlt
                (by rw [if_neg hgl]) he v l r false (by rw [if_neg hg2]) hf,
              delete_ge_found cmp item v l r true v l r true hlt
                (by rw [if_neg hgl]) he v l r true (by rw [if_neg hg2]) hf]
            refine ⟨rfl, ?_⟩
            dsimp only
            exact blacken_fixUp_c _ _ _
          · rw [delete_ge_go cmp item v l r false v l r false hlt
                (by rw [if_neg hgl]) he v l r false (by rw [if_neg hg2]) hf,
              delete_ge_go cmp item v l r true v l r true hlt
                (by rw [if_neg hgl]) he v l r true (by rw [if_neg hg2]) hf]
            refine ⟨rfl, ?_⟩
            dsimp only
            exact blacken_fixUp_c _ _ _

/-! ## Blackening the root, and the public-driver delete lemmas -/

theorem blacken_spec {h : Node α} {c : Bool} {n : Nat} (hb : IsLLRB h c n) :
    ∃ m, IsLLRB (blacken h) false m := by
  cases hb with
  | nil => exact ⟨0, .nil⟩
  | red hbl hbr => exact ⟨_ + 1, .black hbl hbr⟩
  | black hbl hbr => exact ⟨_ + 1, .black hbl hbr⟩

theorem blacken_of_black {h : Node α} {n : Nat} (hb : IsLLRB h false n) :
    blacken h = h := by
  cases hb with
  | nil => rfl
  | black hbl hbr => rfl

@[simp] theorem isRed_blacken (h : Node α) : isRed (blacken h) = false := by
  cases h <;> rfl

theorem deleteMin_top {α : Type} {h : Node α} {n : Nat} (hb : IsLLRB h false n) :
    (∃ m, IsLLRB (blacken (deleteMin h).1) false m) ∧
    inorder (blacken (deleteMin h).1) = (inorder h).tail ∧
    (deleteMin h).2 = (inorder h).head? := by
  cases hb with
  | nil =>
    rw [show deleteMin (.nil : Node α) = (.nil, none) from by rw [deleteMin.eq_1]]
    exact ⟨⟨0, .nil⟩, rfl, rfl⟩
  | black hbl hbr =>
    rename_i l r v c₁ m
    rcases hc1 : c₁ with _ | _ <;> rw [hc1] at hbl
    · -- black left child
      rcases hl : l with _ | ⟨li, ll, lr, lc⟩
      · -- empty left child: the tree is a black singleton
        rw [hl] at hbl
        cases hbl
        have hr : r = Node.nil := hbr.zero_black rfl
        subst hr
        rw [show deleteMin (Node.node v .nil .nil false) = (.nil, some v) from by
          simp [deleteMin]]
        exact ⟨⟨0, .nil⟩, by simp, by simp⟩
      · -- paint the root red and use the master lemma
        subst hl
        obtain ⟨h2eq, h1eq⟩ := deleteMin_paint v (Node.node li ll lr lc) r (by simp)
        obtain ⟨⟨c', hbP, _⟩, hinP, hdP⟩ :=
          deleteMin_spec (.red hbl hbr) (Or.inl (by simp))
        refine ⟨?_, ?_, ?_⟩
        · rw [h1eq]
          exact blacken_spec hbP
        · rw [h1eq, inorder_blacken, hinP]
          simp only [inorder_node]
        · rw [h2eq, hdP]
          simp only [inorder_node]
    · -- red left child: the master lemma applies directly
      obtain ⟨⟨c', hb', hcc⟩, hin, hd⟩ :=
        deleteMin_spec (.black hbl hbr) (Or.inr (by simpa using isRed_of hbl))
      have hc' : c' = false := hcc rfl
      rw [hc'] at hb'
      rw [blacken_of_black hb']
      exact ⟨⟨m + 1, hb'⟩, hin, hd⟩

theorem deleteMax_top {α : Type} {h : Node α} {n : Nat} (hb : IsLLRB h false n) :
    (∃ m, IsLLRB (blacken (deleteMax h).1) false m) ∧
    inorder (blacken (deleteMax h).1) = (inorder h).dropLast ∧
    (deleteMax h).2 = (inorder h).getLast? := by
  cases hb with
  | nil =>
    rw [show deleteMax (.nil : Node α) = (.nil, none) from by rw [deleteMax.eq_1]]
    exact ⟨⟨0, .nil⟩, rfl, rfl⟩
  | black hbl hbr =>
    rename_i l r v c₁ m
    rcases hc1 : c₁ with _ | _ <;> rw [hc1] at hbl
    · rcases hl : l with _ | ⟨li, ll, lr, lc⟩
      · rw [hl] at hbl
        cases hbl
        have hr : r = Node.nil := hbr.zero_black rfl
        subst hr
        rw [deleteMax_leaf]
        exact ⟨⟨0, .nil⟩, by simp, by simp⟩
      · subst hl
        obtain ⟨h2eq, h1eq⟩ := deleteMax_paint v (Node.node li ll lr lc) r
        obtain ⟨⟨c', hbP, _⟩, hinP, hdP⟩ :=
          deleteMax_spec (Or.inl ⟨.red hbl hbr, Or.inl (by simp)⟩)
        refine ⟨?_, ?_, ?_⟩
        · rw [h1eq]
          exact blacken_spec hbP
        · rw [h1eq, inorder_blacken, hinP]
          simp only [inorder_node]
        · rw [h2eq, hdP]
          simp only [inorder_node]
    · obtain ⟨⟨c', hb', hcc⟩, hin, hd⟩ :=
        deleteMax_spec (Or.inl ⟨.black hbl hbr, Or.inr (by simpa using isRed_of hbl)⟩)
      have hc' : c' = false := hcc rfl
      rw [hc'] at hb'
      rw [blacken_of_black hb']
      exact ⟨⟨m + 1, hb'⟩, hin, hd⟩

theorem delete_top {α : Type} [Inhabited α] {cmp : Cmp α} (hcm : TotalCmp cmp)
    {h : Node α} {item : α} {n : Nat} (hb : IsLLRB h false n) (ho : Ordered cmp h) :
    (∃ m, IsLLRB (blacken (delete cmp h item).1) false m) ∧
    inorder (blacken (delete cmp h item).1)
      = (inorder h).filter (fun x => !decide (cmp item x = 0)) ∧
    (delete cmp h item).2 = (inorder h).find? (fun x => decide (cmp item x = 0)) := by
  cases hb with
  | nil =>
    rw [show delete cmp (.nil : Node α) item = (.nil, none) from by rw [delete.eq_1]]
    exact ⟨⟨0, .nil⟩, rfl, rfl⟩
  | black hbl hbr =>
    rename_i l r v c₁ m
    rcases hc1 : c₁ with _ | _ <;> rw [hc1] at hbl
    · -- black left child: paint the root red and use the master lemma
      obtain ⟨h2eq, h1eq⟩ := delete_paint cmp item v l r
      have hoP : Ordered cmp (Node.node v l r true) :=
        Ordered_node.mpr (Ordered_node.mp ho)
      obtain ⟨⟨c', hbP, _⟩, hinP, hdP⟩ :=
        delete_spec hcm hoP (Or.inl ⟨.red hbl hbr, Or.inl (by simp)⟩)
      refine ⟨?_, ?_, ?_⟩
      · rw [h1eq]
        exact blacken_spec hbP
      · rw [h1eq, inorder_blacken, hinP]
        simp only [inorder_node]
      · rw [h2eq, hdP]
        simp only [inorder_node]
    · obtain ⟨⟨c', hb', hcc⟩, hin, hd⟩ :=
        delete_spec hcm ho
          (Or.inl ⟨.black hbl hbr, Or.inr (by simpa using isRed_of hbl)⟩)
      have hc' : c' = false := hcc rfl
      rw [hc'] at hb'
      rw [blacken_of_black hb']
      exact ⟨⟨m + 1, hb'⟩, hin, hd⟩


/-! ## List bookkeeping for the length and distinctness invariants -/

theorem mem_linsert {cmp : Cmp α} {item : α} :
    ∀ {L : List α} {z : α}, z ∈ linsert cmp item L → z = item ∨ z ∈ L := by
  intro L
  induction L with
  | nil =>
    intro z hz
    simp only [linsert, List.mem_singleton] at hz
    exact Or.inl hz
  | cons y ys ih =>
    intro z hz
    simp only [linsert] at hz
    by_cases h0 : cmp item y = 0
    · rw [if_pos h0] at hz
      rcases List.mem_cons.mp hz with rfl | hz2
      · exact Or.inl rfl
      · exact Or.inr (List.mem_cons_of_mem _ hz2)
    · rw [if_neg h0] at hz
      by_cases h1 : cmp item y < 0
      · rw [if_pos h1] at hz
        rcases List.mem_cons.mp hz with rfl | hz2
        · exact Or.inl rfl
        · exact Or.inr hz2
      · rw [if_neg h1] at hz
        rcases List.mem_cons.mp hz with rfl | hz2
        · exact Or.inr (List.mem_cons_self _ _)
        · rcases ih hz2 with h | h
          · exact Or.inl h
          · exact Or.inr (List.mem_cons_of_mem _ h)

theorem pairwise_linsert {cmp : Cmp α} (hcm : TotalCmp cmp) {item : α} :
    ∀ {L : List α}, List.Pairwise (fun a b => cmp a b < 0) L →
      List.Pairwise (fun a b => cmp a b < 0) (linsert cmp item L) := by
  intro L
  induction L with
  | nil =>
    intro _
    simp [linsert]
  | cons y ys ih =>
    intro hP
    obtain ⟨hy, hP'⟩ := List.pairwise_cons.mp hP
    simp only [linsert]
    by_cases h0 : cmp item y = 0
    · rw [if_pos h0]
      exact List.pairwise_cons.mpr
        ⟨fun z hz => hcm.lt_of_eq_of_lt h0 (hy z hz), hP'⟩
    · rw [if_neg h0]
      by_cases h1 : cmp item y < 0
      · rw [if_pos h1]
        refine List.pairwise_cons.mpr ⟨?_, hP⟩
        intro z hz
        rcases List.mem_cons.mp hz with rfl | hz2
        · exact h1
        · exact hcm.lt_trans item y z h1 (hy z hz2)
      · rw [if_neg h1]
        refine List.pairwise_cons.mpr ⟨?_, ih hP'⟩
        intro z hz
        rcases mem_linsert hz with rfl | hz2
        · have := hcm.flip y z
          omega
        · exact hy z hz2

theorem length_linsert {cmp : Cmp α} (hcm : TotalCmp cmp) {item : α} :
    ∀ {L : List α}, List.Pairwise (fun a b => cmp a b < 0) L →
      (linsert cmp item L).length =
        if (L.find? (fun y => decide (cmp item y = 0))).isSome then L.length
        else L.length + 1 := by
  intro L
  induction L with
  | nil =>
    intro _
    simp [linsert]
  | cons y ys ih =>
    intro hP
    obtain ⟨hy, hP'⟩ := List.pairwise_cons.mp hP
    simp only [linsert]
    by_cases h0 : cmp item y = 0
    · rw [if_pos h0, List.find?_cons_of_pos _ (by simpa using h0)]
      simp
    · rw [if_neg h0, List.find?_cons_of_neg _ (by simpa using h0)]
      by_cases h1 : cmp item y < 0
      · rw [if_pos h1]
        have hnone : ys.find? (fun y => decide (cmp item y = 0)) = none :=
          find?_none fun z hz => hcm.ne_of_lt (hcm.lt_trans item y z h1 (hy z hz))
        rw [hnone]
        simp
      · rw [if_neg h1]
        simp only [List.length_cons]
        rw [ih hP']
        by_cases hs : (ys.find? (fun y => decide (cmp item y = 0))).isSome = true
        · rw [if_pos hs, if_pos hs]
        · rw [if_neg hs, if_neg hs]

theorem length_filter_delete {cmp : Cmp α} (hcm : TotalCmp cmp) {item : α} :
    ∀ {L : List α}, List.Pairwise (fun a b => cmp a b < 0) L →
      (L.filter (fun y => !decide (cmp item y = 0))).length =
        if (L.find? (fun y => decide (cmp item y = 0))).isSome then L.length - 1
        else L.length := by
  intro L
  induction L with
  | nil =>
    intro _
    simp
  | cons y ys ih =>
    intro hP
    obtain ⟨hy, hP'⟩ := List.pairwise_cons.mp hP
    by_cases h0 : cmp item y = 0
    · rw [List.filter_cons_of_neg (by simpa using h0),
        List.find?_cons_of_pos _ (by simpa using h0)]
      have hkeep : ys.filter (fun y => !decide (cmp item y = 0)) = ys :=
        filter_keep fun z hz => hcm.ne_of_lt (hcm.lt_of_eq_of_lt h0 (hy z hz))
      rw [hkeep]
      simp
    · rw [List.filter_cons_of_pos (by simpa using h0),
        List.find?_cons_of_neg _ (by simpa using h0), List.length_cons, ih hP']
      by_cases hs : (ys.find? (fun y => decide (cmp item y = 0))).isSome = true
      · rw [if_pos hs, if_pos hs]
        obtain ⟨z, hz, _⟩ := List.find?_isSome.mp hs
        have : 0 < ys.length := List.length_pos.mpr (by rintro rfl; cases hz)
        simp only [List.length_cons]
        omega
      · rw [if_neg hs, if_neg hs]
        simp

theorem find?_self {cmp : Cmp α} (hcm : TotalCmp cmp) :
    ∀ {L : List α} {y : α}, List.Pairwise (fun a b => cmp a b < 0) L → y ∈ L →
      L.find? (fun z => decide (cmp y z = 0)) = some y := by
  intro L
  induction L with
  | nil =>
    intro y _ hy
    cases hy
  | cons x xs ih =>
    intro y hP hy
    obtain ⟨hx, hP'⟩ := List.pairwise_cons.mp hP
    rcases List.mem_cons.mp hy with rfl | hy2
    · rw [List.find?_cons_of_pos _ (by simpa using hcm.refl y)]
    · have hlt : cmp x y < 0 := hx y hy2
      have hflip := hcm.flip x y
      rw [List.find?_cons_of_neg _ (by simp; omega)]
      exact ih hP' hy2

/-! ## A concrete comparator over `Int` (Go `cmp.Compare[int]`) -/


theorem intCmp_total : TotalCmp intCmp := by
  refine ⟨?_, ?_, ?_⟩
  · intro a b
    simp only [intCmp]
    split_ifs <;> omega
  · intro a b c h1 h2
    simp only [intCmp] at h1 h2 ⊢
    split_ifs at h1 h2 ⊢ <;> omega
  · intro a b c h
    simp only [intCmp] at h ⊢
    split_ifs at h ⊢ <;> omega

/-! ## The reachable-state invariant -/



theorem reachable_inv {α : Type} [Inhabited α] {cmp : Cmp α} (hcm : TotalCmp cmp)
    {t : LLRBTree α} (hre : Reachable cmp t) : Inv cmp t := by
  induction hre with
  | new => exact ⟨⟨0, .nil⟩, trivial, rfl⟩
  | insert item hre ih =>
    obtain ⟨⟨n, hb⟩, ho, hlen⟩ := ih
    rename_i t2
    obtain ⟨hbal, hin, hfd⟩ := insert_spec hcm hb ho
    rcases hbal with ⟨c', hb'⟩ | ⟨hcontra, _⟩
    swap
    · cases hcontra
    have hP : List.Pairwise (fun a b => cmp a b < 0) (inorder t2.root) :=
      (ordered_iff_pairwise hcm).mp ho
    refine ⟨blacken_spec hb', ?_, ?_⟩
    · rw [ordered_iff_pairwise hcm, LLRBTree.ReplaceOrInsert, inorder_blacken, hin]
      exact pairwise_linsert hcm hP
    · show (if (insert cmp t2.root item).2.isSome then t2.len else t2.len + 1)
        = (size (blacken (insert cmp t2.root item).1) : Int)
      have hsz : (size (blacken (insert cmp t2.root item).1) : Int)
          = ((linsert cmp item (inorder t2.root)).length : Int) := by
        rw [← length_inorder, inorder_blacken, hin]
      rw [hsz, length_linsert hcm hP, ← hfd, hlen, ← length_inorder]
      by_cases hs : (insert cmp t2.root item).2.isSome = true
      · rw [if_pos hs, if_pos hs]
      · rw [if_neg hs, if_neg hs]
        push_cast
        ring
  | del item hre ih =>
    obtain ⟨⟨n, hb⟩, ho, hlen⟩ := ih
    rename_i t2
    obtain ⟨hbal, hin, hfd⟩ := delete_top hcm hb ho
    have hP : List.Pairwise (fun a b => cmp a b < 0) (inorder t2.root) :=
      (ordered_iff_pairwise hcm).mp ho
    refine ⟨hbal, ?_, ?_⟩
    · rw [ordered_iff_pairwise hcm]
      show List.Pairwise _ (inorder (blacken (delete cmp t2.root item).1))
      rw [hin]
      exact hP.sublist (List.filter_sublist _)
    · show (if (delete cmp t2.root item).2.isSome then t2.len - 1 else t2.len)
        = (size (blacken (delete cmp t2.root item).1) : Int)
      have hsz : (size (blacken (delete cmp t2.root item).1) : Int)
          = (((inorder t2.root).filter (fun y => !decide (cmp item y = 0))).length : Int) := by
        rw [← length_inorder, hin]
      rw [hsz, length_filter_delete hcm hP, ← hfd, hlen, ← length_inorder]
      by_cases hs : (delete cmp t2.root item).2.isSome = true
      · rw [if_pos hs, if_pos hs]
        have hne : inorder t2.root ≠ [] := by
          intro hE
          rw [hfd, hE] at hs
          simp at hs
        have : 0 < (inorder t2.root).length := List.length_pos.mpr hne
        push_cast [Nat.cast_sub (by omega : 1 ≤ (inorder t2.root).length)]
        ring
      · rw [if_neg hs, if_neg hs]
  | delMin hre ih =>
    obtain ⟨⟨n, hb⟩, ho, hlen⟩ := ih
    rename_i t2
    obtain ⟨hbal, hin, hfd⟩ := deleteMin_top hb
    have hP : List.Pairwise (fun a b => cmp a b < 0) (inorder t2.root) :=
      (ordered_iff_pairwise hcm).mp ho
    refine ⟨hbal, ?_, ?_⟩
    · rw [ordered_iff_pairwise hcm]
      show List.Pairwise _ (inorder (blacken (deleteMin t2.root).1))
      rw [hin]
      exact hP.sublist (List.tail_sublist _)
    · show (if (deleteMin t2.root).2.isSome then t2.len - 1 else t2.len)
        = (size (blacken (deleteMin t2.root).1) : Int)
      have hsz : (size (blacken (deleteMin t2.root).1) : Int)
          = (((inorder t2.root).tail).length : Int) := by
        rw [← length_inorder, hin]
      rw [hsz, hlen, ← length_inorder]
      rcases hE : inorder t2.root with _ | ⟨a, L⟩
      · rw [hfd, hE]
        simp
      · rw [hfd, hE]
        simp only [List.head?_cons, Option.isSome_some, if_true, List.tail_cons,
          List.length_cons]
        push_cast
        ring
  | delMax hre ih =>
    obtain ⟨⟨n, hb⟩, ho, hlen⟩ := ih
    rename_i t2
    obtain ⟨hbal, hin, hfd⟩ := deleteMax_top hb
    have hP : List.Pairwise (fun a b => cmp a b < 0) (inorder t2.root) :=
      (ordered_iff_pairwise hcm).mp ho
    refine ⟨hbal, ?_, ?_⟩
    · rw [ordered_iff_pairwise hcm]
      show List.Pairwise _ (inorder (blacken (deleteMax t2.root).1))
      rw [hin]
      exact hP.sublist (List.dropLast_sublist _)
    · show (if (deleteMax t2.root).2.isSome then t2.len - 1 else t2.len)
        = (size (blacken (deleteMax t2.root).1) : Int)
      have hsz : (size (blacken (deleteMax t2.root).1) : Int)
          = (((inorder t2.root).dropLast).length : Int) := by
        rw [← length_inorder, hin]
      rw [hsz, hlen, ← length_inorder]
      rcases hE : inorder t2.root with _ | ⟨a, L⟩
      · rw [hfd, hE]
        simp
      · rw [hfd, hE]
        have : (a :: L).getLast?.isSome = true := by
          rw [List.getLast?_isSome]
          simp
        rw [if_pos this]
        simp only [List.length_dropLast, List.length_cons]
        push_cast
        ring
  | clear hre ih =>
    exact ⟨⟨0, .nil⟩, trivial, rfl⟩


/-! ## Claim-level property predicates and collection helpers -/



theorem redOk_of {h : Node α} {c : Bool} {n : Nat} (hb : IsLLRB h c n) : RedOk h := by
  induction hb with
  | nil => trivial
  | red hbl hbr ihl ihr =>
    refine ⟨fun _ => ⟨isRed_of hbr, fun hred => ?_⟩, ihl, ihr⟩
    rw [isRed_of hbl] at hred
    cases hred
  | black hbl hbr ihl ihr =>
    refine ⟨fun hcontra => ?_, ihl, ihr⟩
    cases hcontra

theorem bdepth_of {h : Node α} {c : Bool} {n : Nat} (hb : IsLLRB h c n) :
    bdepth h = some n := by
  induction hb with
  | nil => rfl
  | red hbl hbr ihl ihr => simp [bdepth, ihl, ihr]
  | black hbl hbr ihl ihr => simp [bdepth, ihl, ihr]

theorem runList_collect (L : List α) :
    ∀ s : List α, runList (fun s x => (s ++ [x], true)) s L = (s ++ L, true) := by
  induction L with
  | nil =>
    intro s
    simp [runList]
  | cons x xs ih =>
    intro s
    simp [runList, ih]

theorem runList_stops (p : α → Bool) {b : α} (hb : p b = false) :
    ∀ (A B s : List α), (∀ a ∈ A, p a = true) →
      runList (fun s x => (s ++ [x], p x)) s (A ++ b :: B) = (s ++ (A ++ [b]), false) := by
  intro A
  induction A with
  | nil =>
    intro B s _
    simp only [List.nil_append, runList]
    rw [if_neg (by simp [hb])]
  | cons a A' ih =>
    intro B s hA
    have ha := hA a (by simp)
    simp only [List.cons_append, runList, List.append_eq]
    rw [if_pos (by simp [ha])]
    rw [ih B _ fun z hz => hA z (by simp [hz])]
    simp

/-! ## The claims -/

/-- C1: `ReplaceOrInsert(item)` returns the previous comparator-equal
element (and leaves `len` unchanged, replacing that element in place) when
one exists, and otherwise inserts `item`, returns no previous element, and
increments `len` by one; in both cases the root is black on return. -/
theorem c1_replace_or_insert_contract {α : Type} [Inhabited α] {cmp : Cmp α}
    (hcm : TotalCmp cmp) {t : LLRBTree α} (hre : Reachable cmp t) (item : α) :
    ((LLRBTree.ReplaceOrInsert cmp t item).2
        = (inorder t.root).find? (fun y => decide (cmp item y = 0))) ∧
    (∀ prev, (LLRBTree.ReplaceOrInsert cmp t item).2 = some prev →
      cmp item prev = 0 ∧ prev ∈ inorder t.root ∧
      (LLRBTree.ReplaceOrInsert cmp t item).1.len = t.len) ∧
    ((LLRBTree.ReplaceOrInsert cmp t item).2 = none →
      (∀ y ∈ inorder t.root, ¬ cmp item y = 0) ∧
      (LLRBTree.ReplaceOrInsert cmp t item).1.len = t.len + 1) ∧
    inorder (LLRBTree.ReplaceOrInsert cmp t item).1.root
      = linsert cmp item (inorder t.root) ∧
    isRed (LLRBTree.ReplaceOrInsert cmp t item).1.root = false := by
  obtain ⟨⟨n, hb⟩, ho, hlen⟩ := reachable_inv hcm hre
  obtain ⟨hbal, hin, hfd⟩ := insert_spec hcm hb ho
  refine ⟨hfd, ?_, ?_, ?_, ?_⟩
  · intro prev hp
    have hp2 : (insert cmp t.root item).2 = some prev := hp
    rw [hfd] at hp2
    have hq := List.find?_some hp2
    refine ⟨of_decide_eq_true hq, List.mem_of_find?_eq_some hp2, ?_⟩
    show (if (insert cmp t.root item).2.isSome then t.len else t.len + 1) = t.len
    rw [hfd, hp2]
    rfl
  · intro hp
    have hp2 : (insert cmp t.root item).2 = none := hp
    rw [hfd] at hp2
    refine ⟨fun y hy => ?_, ?_⟩
    · have hq := List.find?_eq_none.mp hp2 y hy
      simpa using hq
    · show (if (insert cmp t.root item).2.isSome then t.len else t.len + 1) = t.len + 1
      rw [hfd, hp2]
      rfl
  · show inorder (blacken (insert cmp t.root item).1) = _
    rw [inorder_blacken, hin]
  · show isRed (blacken (insert cmp t.root item).1) = false
    exact isRed_blacken _

theorem c1_witness :
    isRed (LLRBTree.ReplaceOrInsert intCmp
        (LLRBTree.ReplaceOrInsert intCmp LLRBTree.newTree 1).1 2).1.root = false :=
  (c1_replace_or_insert_contract intCmp_total (.insert 1 .new) 2).2.2.2.2

/-- C2: after every public mutating operation the tree satisfies the LLRB
invariants: the red-link discipline (no red right child of a red node, no
red-red-red left chain), equal black-depth on every root-to-absent-child
path, and a black root. -/
theorem c2_llrb_invariants {α : Type} [Inhabited α] {cmp : Cmp α}
    (hcm : TotalCmp cmp) {t : LLRBTree α} (hre : Reachable cmp t) :
    RedOk t.root ∧ (∃ n, bdepth t.root = some n) ∧ isRed t.root = false := by
  obtain ⟨⟨n, hb⟩, _, _⟩ := reachable_inv hcm hre
  exact ⟨redOk_of hb, ⟨n, bdepth_of hb⟩, isRed_of hb⟩

theorem c2_witness :
    RedOk (LLRBTree.Delete intCmp
        (LLRBTree.ReplaceOrInsert intCmp LLRBTree.newTree 5).1 5).1.root :=
  (c2_llrb_invariants intCmp_total (.del 5 (.insert 5 .new))).1

/-- C3: `Len()` always equals the node count reachable from the root, which
equals the number of comparator-distinct stored elements; inserting a
present element or deleting an absent one leaves `Len()` unchanged. -/
theorem c3_len_invariant {α : Type} [Inhabited α] {cmp : Cmp α}
    (hcm : TotalCmp cmp) {t : LLRBTree α} (hre : Reachable cmp t) (item : α) :
    t.len = (size t.root : Int) ∧
    t.len = ((inorder t.root).length : Int) ∧
    List.Pairwise (fun a b => ¬ cmp a b = 0) (inorder t.root) ∧
    (LLRBTree.Has cmp t item = true →
      (LLRBTree.ReplaceOrInsert cmp t item).1.len = t.len) ∧
    (LLRBTree.Has cmp t item = false →
      (LLRBTree.Delete cmp t item).1.len = t.len) := by
  obtain ⟨⟨n, hb⟩, ho, hlen⟩ := reachable_inv hcm hre
  have hP := (ordered_iff_pairwise hcm).mp ho
  have hget : LLRBTree.Has cmp t item =
      ((inorder t.root).find? (fun y => decide (cmp item y = 0))).isSome := by
    show (get cmp t.root item).isSome = _
    rw [get_spec hcm ho]
  refine ⟨hlen, by rw [hlen, length_inorder], hP.imp fun h => hcm.ne_of_lt h, ?_, ?_⟩
  · intro hHas
    rw [hget] at hHas
    show (if (insert cmp t.root item).2.isSome then t.len else t.len + 1) = t.len
    rw [(insert_spec hcm hb ho).2.2, if_pos hHas]
  · intro hHas
    rw [hget] at hHas
    show (if (delete cmp t.root item).2.isSome then t.len - 1 else t.len) = t.len
    rw [(delete_top hcm hb ho).2.2, if_neg (by simp [hHas])]

theorem c3_witness :
    (LLRBTree.ReplaceOrInsert intCmp
        (LLRBTree.ReplaceOrInsert intCmp LLRBTree.newTree 4).1 4).1.len
      = (LLRBTree.ReplaceOrInsert intCmp LLRBTree.newTree 4).1.len :=
  (c3_len_invariant intCmp_total (.insert 4 .new) 4).2.2.2.1 (by decide)

/-- C4: over a tree whose elements are totally ordered by the comparator,
`Ascend` with an always-true callback visits exactly the stored elements in
strictly increasing comparator order, and `Descend` visits the exact
reverse sequence. -/
theorem c4_ascend_descend_order {α : Type} {cmp : Cmp α} (hcm : TotalCmp cmp)
    {t : LLRBTree α} (ho : Ordered cmp t.root) :
    (LLRBTree.Ascend cmp t (fun s x => (s ++ [x], true)) []).1 = inorder t.root ∧
    List.Pairwise (fun a b => cmp a b < 0)
      (LLRBTree.Ascend cmp t (fun s x => (s ++ [x], true)) []).1 ∧
    (LLRBTree.Descend cmp t (fun s x => (s ++ [x], true)) []).1
      = (LLRBTree.Ascend cmp t (fun s x => (s ++ [x], true)) []).1.reverse := by
  have hascF : (inorder t.root).filter (ascKeep cmp none none) = inorder t.root :=
    List.filter_eq_self.mpr fun a _ => rfl
  have hdescF : (inorder t.root).filter (descKeep cmp none none) = inorder t.root :=
    List.filter_eq_self.mpr fun a _ => rfl
  have hasc : (LLRBTree.Ascend cmp t (fun s x => (s ++ [x], true)) []).1
      = inorder t.root := by
    show (iterate cmp t.root false none none (fun s x => (s ++ [x], true)) []).1 = _
    rw [iterate_asc hcm _ ho, hascF, runList_collect]
    simp
  refine ⟨hasc, ?_, ?_⟩
  · rw [hasc]
    exact (ordered_iff_pairwise hcm).mp ho
  · rw [hasc]
    show (iterate cmp t.root true none none (fun s x => (s ++ [x], true)) []).1 = _
    rw [iterate_desc hcm _ ho, hdescF, runList_collect]
    simp

theorem c4_witness :
    (LLRBTree.Ascend intCmp
        ⟨.node 2 (.node 1 .nil .nil true) .nil false, 2⟩
        (fun s x => (s ++ [x], true)) []).1
      = inorder (Node.node 2 (.node 1 .nil .nil true) (.nil : Node Int) false) :=
  (c4_ascend_descend_order intCmp_total
    (t := ⟨.node 2 (.node 1 .nil .nil true) .nil false, 2⟩)
    (by simp [intCmp])).1

/-- C5: `AscendRange(lo, hi)` invokes the callback exactly on the stored
elements `e` with `lo ≤ e < hi`, in increasing comparator order; when
`lo ≥ hi`, or no stored element lies in the range, the callback is never
invoked. -/
theorem c5_ascend_range {α : Type} {cmp : Cmp α} (hcm : TotalCmp cmp)
    {t : LLRBTree α} (ho : Ordered cmp t.root) (lo hi : α) :
    (LLRBTree.AscendRange cmp t lo hi (fun s x => (s ++ [x], true)) []).1
      = (inorder t.root).filter
          (fun e => decide (0 ≤ cmp e lo) && decide (cmp e hi < 0)) ∧
    List.Pairwise (fun a b => cmp a b < 0)
      (LLRBTree.AscendRange cmp t lo hi (fun s x => (s ++ [x], true)) []).1 ∧
    (¬ cmp lo hi < 0 → ∀ (σ : Type) (iter : σ → α → σ × Bool) (s : σ),
      LLRBTree.AscendRange cmp t lo hi iter s = (s, true)) ∧
    ((inorder t.root).filter
        (fun e => decide (0 ≤ cmp e lo) && decide (cmp e hi < 0)) = [] →
      ∀ (σ : Type) (iter : σ → α → σ × Bool) (s : σ),
        LLRBTree.AscendRange cmp t lo hi iter s = (s, true)) := by
  have hpred : ∀ e, ascKeep cmp (some lo) (some hi) e
      = (decide (0 ≤ cmp e lo) && decide (cmp e hi < 0)) := by
    intro e
    simp only [ascKeep, ascStopGuard, ascStartGuard]
    rw [Bool.and_comm]
    congr 1
    · rw [← decide_not, decide_eq_decide]
      omega
    · rw [← decide_not, decide_eq_decide]
      omega
  have hfe : (inorder t.root).filter (ascKeep cmp (some lo) (some hi))
      = (inorder t.root).filter
          (fun e => decide (0 ≤ cmp e lo) && decide (cmp e hi < 0)) :=
    List.filter_congr fun e _ => hpred e
  have hvis : (LLRBTree.AscendRange cmp t lo hi (fun s x => (s ++ [x], true)) []).1
      = (inorder t.root).filter
          (fun e => decide (0 ≤ cmp e lo) && decide (cmp e hi < 0)) := by
    show (iterate cmp t.root false (some lo) (some hi)
        (fun s x => (s ++ [x], true)) []).1 = _
    rw [iterate_asc hcm _ ho, hfe, runList_collect]
    simp
  refine ⟨hvis, ?_, ?_, ?_⟩
  · rw [hvis]
    exact ((ordered_iff_pairwise hcm).mp ho).sublist (List.filter_sublist _)
  · intro hge σ iter s
    have hnil : (inorder t.root).filter
        (fun e => decide (0 ≤ cmp e lo) && decide (cmp e hi < 0)) = [] := by
      refine List.filter_eq_nil_iff.mpr fun e _ => ?_
      simp only [Bool.and_eq_true, decide_eq_true_eq, not_and]
      intro hle
      have h1 := hcm.flip e lo
      have h2 : cmp lo e ≤ 0 := by omega
      intro hlt
      exact hge (hcm.lt_of_le_of_lt h2 hlt)
    show iterate cmp t.root false (some lo) (some hi) iter s = (s, true)
    rw [iterate_asc hcm _ ho, hfe, hnil]
    rfl
  · intro hnil σ iter s
    show iterate cmp t.root false (some lo) (some hi) iter s = (s, true)
    rw [iterate_asc hcm _ ho, hfe, hnil]
    rfl

theorem c5_witness :
    (¬ intCmp 3 1 < 0) ∧
    ∀ (σ : Type) (iter : σ → Int → σ × Bool) (s : σ),
      LLRBTree.AscendRange intCmp
        ⟨.node 2 (.node 1 .nil .nil true) .nil false, 2⟩ 3 1 iter s = (s, true) :=
  ⟨by decide, (c5_ascend_range intCmp_total
    (t := ⟨.node 2 (.node 1 .nil .nil true) .nil false, 2⟩)
    (by simp [intCmp]) 3 1).2.2.1 (by decide)⟩

/-- C6: in every traversal (either direction, any bounds), when the callback
answers `true` on the first `k - 1` in-range elements and `false` on the
`k`-th, the traversal makes exactly `k` callback invocations and visits no
further element. -/
theorem c6_early_termination {α : Type} {cmp : Cmp α} (hcm : TotalCmp cmp)
    {h : Node α} (ho : Ordered cmp h) (desc : Bool) (start stop : Option α)
    (p : α → Bool) {A : List α} {b : α} {B : List α}
    (hV : (if desc then ((inorder h).filter (descKeep cmp start stop)).reverse
           else (inorder h).filter (ascKeep cmp start stop)) = A ++ b :: B)
    (hA : ∀ a ∈ A, p a = true) (hb : p b = false) :
    iterate cmp h desc start stop (fun s x => (s ++ [x], p x)) [] = (A ++ [b], false) ∧
    (iterate cmp h desc start stop (fun s x => (s ++ [x], p x)) []).1.length
      = A.length + 1 := by
  have hrun : iterate cmp h desc start stop (fun s x => (s ++ [x], p x)) []
      = (A ++ [b], false) := by
    cases desc with
    | false =>
      rw [iterate_asc hcm _ ho]
      rw [if_neg (by simp)] at hV
      rw [hV, runList_stops p hb A B [] hA]
      simp
    | true =>
      rw [iterate_desc hcm _ ho]
      rw [if_pos rfl] at hV
      rw [hV, runList_stops p hb A B [] hA]
      simp
  rw [hrun]
  simp

theorem c6_witness :
    iterate intCmp (.node 2 (.node 1 .nil .nil true) .nil false) false none none
      (fun s x => (s ++ [x], decide (x < 2))) [] = (([1] : List Int) ++ [2], false) :=
  (c6_early_termination intCmp_total (by simp [intCmp]) false none none
    (fun x => decide (x < 2)) (A := [1]) (b := 2) (B := []) (by decide) (by decide)
    (by decide)).1

/-- C7 (amended): deleting an item with no comparator-equal stored element
returns no value, leaves `Len()` unchanged, and leaves the stored elements
(the in-order listing) unchanged — but the tree may be restructured and
recolored by the delete descent. -/
theorem c7_delete_absent {α : Type} [Inhabited α] {cmp : Cmp α}
    (hcm : TotalCmp cmp) {t : LLRBTree α} (hre : Reachable cmp t) {item : α}
    (habs : ∀ y ∈ inorder t.root, ¬ cmp item y = 0) :
    (LLRBTree.Delete cmp t item).2 = none ∧
    (LLRBTree.Delete cmp t item).1.len = t.len ∧
    inorder (LLRBTree.Delete cmp t item).1.root = inorder t.root := by
  obtain ⟨⟨n, hb⟩, ho, hlen⟩ := reachable_inv hcm hre
  obtain ⟨hbal, hin, hfd⟩ := delete_top hcm hb ho
  have hnone : (delete cmp t.root item).2 = none := by
    rw [hfd]
    exact find?_none habs
  refine ⟨hnone, ?_, ?_⟩
  · show (if (delete cmp t.root item).2.isSome then t.len - 1 else t.len) = t.len
    rw [hnone]
    rfl
  · show inorder (blacken (delete cmp t.root item).1) = inorder t.root
    rw [hin]
    exact filter_keep habs

theorem c7_witness :
    (LLRBTree.Delete intCmp (LLRBTree.ReplaceOrInsert intCmp LLRBTree.newTree 1).1 3).2
      = none :=
  (c7_delete_absent intCmp_total (.insert 1 .new) (by decide)).1


unseal delete in
/-- C7 (counterexample): deleting the absent item 7 from the reachable tree
`t7` returns not-found with `len` unchanged, yet the resulting tree differs
structurally from the original: the delete descent restructures. -/
theorem c7_restructure_counterexample :
    Reachable intCmp t7 ∧
    (∀ y ∈ inorder t7.root, ¬ intCmp 7 y = 0) ∧
    (LLRBTree.Delete intCmp t7 7).2 = none ∧
    (LLRBTree.Delete intCmp t7 7).1.len = t7.len ∧
    (LLRBTree.Delete intCmp t7 7).1.root ≠ t7.root := by
  refine ⟨.insert 12 (.insert 10 (.insert 2 (.insert 4 (.insert 6 (.insert 8 .new))))),
    ?_, ?_, ?_, ?_⟩
  · decide
  · decide
  · decide
  · decide

/-- C8 (amended): `NewLLRBTree` performs no validation of the comparator:
construction always succeeds and returns a zero-initialized tree storing
whatever comparator value it was given, including an absent one. -/
theorem c8_construction_unchecked {α : Type} (compare : Option (Cmp α)) :
    newLLRBTree compare = { root := .nil, compare := compare, len := 0 } := rfl

/-- C8 (counterexample): constructing with an absent (`nil`) comparator does
not fail: it returns a usable zero-valued tree with no comparator stored,
contradicting the claim that construction refuses to proceed. -/
theorem c8_nil_comparator_accepted :
    newLLRBTree (none : Option (Cmp Int))
      = { root := .nil, compare := none, len := 0 } := rfl

/-- C9: every reachable tree satisfies the node-local binary-search-tree
ordering invariant (left subtree strictly below the node's item, right
subtree strictly above), and `Get` finds every stored element by binary
descent. -/
theorem c9_bst_invariant {α : Type} [Inhabited α] {cmp : Cmp α}
    (hcm : TotalCmp cmp) {t : LLRBTree α} (hre : Reachable cmp t) :
    Ordered cmp t.root ∧
    (∀ y ∈ inorder t.root, LLRBTree.Get cmp t y = some y) := by
  obtain ⟨⟨n, hb⟩, ho, hlen⟩ := reachable_inv hcm hre
  refine ⟨ho, fun y hy => ?_⟩
  show get cmp t.root y = some y
  rw [get_spec hcm ho]
  exact find?_self hcm ((ordered_iff_pairwise hcm).mp ho) hy

theorem c9_witness :
    LLRBTree.Get intCmp (LLRBTree.ReplaceOrInsert intCmp LLRBTree.newTree 6).1 6
      = some 6 :=
  (c9_bst_invariant intCmp_total (.insert 6 .new)).2 6 (by decide)

/-- C10: `DescendRange(lessOrEqual, greaterThan)` invokes the callback
exactly on the stored elements `e` with `greaterThan < e ≤ lessOrEqual`,
in decreasing comparator order — exclusive at the lower bound and
inclusive at the upper bound, mirroring the ascending range. -/
theorem c10_descend_range {α : Type} {cmp : Cmp α} (hcm : TotalCmp cmp)
    {t : LLRBTree α} (ho : Ordered cmp t.root) (le gt : α) :
    (LLRBTree.DescendRange cmp t le gt (fun s x => (s ++ [x], true)) []).1
      = ((inorder t.root).filter
          (fun e => decide (0 < cmp e gt) && decide (cmp e le ≤ 0))).reverse ∧
    List.Pairwise (fun a b => 0 < cmp a b)
      (LLRBTree.DescendRange cmp t le gt (fun s x => (s ++ [x], true)) []).1 := by
  have hpred : ∀ e, descKeep cmp (some le) (some gt) e
      = (decide (0 < cmp e gt) && decide (cmp e le ≤ 0)) := by
    intro e
    simp only [descKeep, descStopGuard, descStartGuard]
    congr 1
    · rw [← decide_not, decide_eq_decide]
      omega
    · rw [← decide_not, decide_eq_decide]
      omega
  have hfe : (inorder t.root).filter (descKeep cmp (some le) (some gt))
      = (inorder t.root).filter
          (fun e => decide (0 < cmp e gt) && decide (cmp e le ≤ 0)) :=
    List.filter_congr fun e _ => hpred e
  have hvis : (LLRBTree.DescendRange cmp t le gt (fun s x => (s ++ [x], true)) []).1
      = ((inorder t.root).filter
          (fun e => decide (0 < cmp e gt) && decide (cmp e le ≤ 0))).reverse := by
    show (iterate cmp t.root true (some le) (some gt)
        (fun s x => (s ++ [x], true)) []).1 = _
    rw [iterate_desc hcm _ ho, hfe, runList_collect]
    simp
  refine ⟨hvis, ?_⟩
  rw [hvis, List.pairwise_reverse]
  refine (((ordered_iff_pairwise hcm).mp ho).sublist (List.filter_sublist _)).imp ?_
  intro a b hab
  have := hcm.flip a b
  omega

theorem c10_witness :
    (LLRBTree.DescendRange intCmp
        ⟨.node 2 (.node 1 .nil .nil true) .nil false, 2⟩ 2 0
        (fun s x => (s ++ [x], true)) []).1
      = ((inorder (Node.node 2 (.node 1 .nil .nil true) (.nil : Node Int) false)).filter
          (fun e => decide (0 < intCmp e 0) && decide (intCmp e 2 ≤ 0))).reverse :=
  (c10_descend_range intCmp_total
    (t := ⟨.node 2 (.node 1 .nil .nil true) .nil false, 2⟩)
    (by simp [intCmp]) 2 0).1


end LLRB
